import Mathlib

/-!
Verification development for the three LLVM peephole passes contained in this
repository.  The repository holds two alternative implementations of the same
three function passes:

* `src/TestPass.cpp` (header comment names it `MyPasses.cpp`, plugin name
  `MyPasses`, pass names `algebraic-id-pass`, `strength-reduction-pass`,
  `multi-instr-pass`) — modelled below in namespace `MyPasses`;
* `src/unnamed/part_000` (plugin name `TestPass`, pass names
  `algebraic-identity`, `strength-reduction`, `multi-instruction`) — modelled
  below in namespace `Part000`.

The IR fragment the passes inspect is modelled shallowly: a function is a list
of basic blocks, a basic block a list of instructions, and an instruction is a
binary operator, a store or a load over SSA `Value`s.  Fixed-width machine
integers are modelled as `ZMod (2 ^ w)`.
-/

set_option maxHeartbeats 1000000

namespace IRModel

/-- Binary opcodes that the passes pattern-match on (`llvm::Instruction`
opcodes).  `Store` and `Load` are separate `Instr` constructors, mirroring
`StoreInst`/`LoadInst`. -/
inductive Opcode where
  | add | sub | mul | sdiv | udiv | shl | lshr | ashr
deriving DecidableEq

/-- A `llvm::Value` as the passes see it: the SSA result of the instruction
with identifier `n` (`reg n`), an integer constant (`ConstantInt`, stored as
its unsigned numeric value, matching `APInt` value comparison such as
`equalsInt`/`isZero`/`isOne`), or an opaque external value such as a function
argument or an alloca address (`arg n`).  Pointer equality on uniqued
`ConstantInt`s coincides with numeric equality, so `DecidableEq` is a faithful
model of the `Value*` comparisons in the source. -/
inductive Value where
  | reg (n : Nat) | const (c : Nat) | arg (n : Nat)
deriving DecidableEq

/-- One instruction: a `BinaryOperator` producing SSA value `id` from two
operands, a `StoreInst` (value operand, pointer operand), or a `LoadInst`
producing `id` from a pointer operand. -/
inductive Instr where
  | binop (id : Nat) (op : Opcode) (a b : Value)
  | store (v : Value) (p : Value)
  | load (id : Nat) (p : Value)
deriving DecidableEq

/-- A basic block is an ordered list of instructions. -/
abbrev Block := List Instr

/-- A function is an ordered list of basic blocks. -/
abbrev Func := List Block

/-- The `PreservedAnalyses` result of a pass invocation, restricted to the two
values the sources produce. -/
inductive Preserved where
  | none | all
deriving DecidableEq

/-- SSA identifier produced by an instruction, if any (`Store` is void). -/
def Instr.defId : Instr → Option Nat
  | .binop i _ _ _ => some i
  | .store _ _ => Option.none
  | .load i _ => some i

/-- Shape tag of an instruction: its opcode for a binary operator, or a
store/load marker.  Used to state that a pass preserves the opcode sequence. -/
inductive IKind where
  | binop (op : Opcode) | store | load
deriving DecidableEq

/-- Shape tag of an instruction. -/
def Instr.kind : Instr → IKind
  | .binop _ op _ _ => .binop op
  | .store _ _ => .store
  | .load _ _ => .load

/-- Substitution of a single SSA value in an operand position: occurrences of
`reg r` become `v`.  This is the operand-level effect of
`replaceAllUsesWith`. -/
def substV (r : Nat) (v : Value) (u : Value) : Value :=
  if u = .reg r then v else u

/-- Substitution applied to every operand slot of an instruction (including
store value/pointer operands — `replaceAllUsesWith` retargets every use). -/
def substI (r : Nat) (v : Value) : Instr → Instr
  | .binop i op a b => .binop i op (substV r v a) (substV r v b)
  | .store w p => .store (substV r v w) (substV r v p)
  | .load i p => .load i (substV r v p)

/-- Accumulated `replaceAllUsesWith` substitutions, oldest first.  Each entry
`(r, v)` records that the erased instruction producing `reg r` had its uses
redirected to `v`. -/
abbrev Subs := List (Nat × Value)

/-- Apply the accumulated substitutions to an operand, in chronological
order (an earlier redirection's target is itself redirected by later ones,
exactly as physical `replaceAllUsesWith` updates behave). -/
def applyV (σ : Subs) (u : Value) : Value :=
  σ.foldl (fun acc rv => substV rv.1 rv.2 acc) u

/-- Apply the accumulated substitutions to an instruction. -/
def applyI (σ : Subs) (i : Instr) : Instr :=
  σ.foldl (fun acc rv => substI rv.1 rv.2 acc) i

@[simp] theorem applyV_nil (u : Value) : applyV [] u = u := rfl

@[simp] theorem applyI_nil (i : Instr) : applyI [] i = i := rfl

theorem applyV_append (σ τ : Subs) (u : Value) :
    applyV (σ ++ τ) u = applyV τ (applyV σ u) := by
  simp [applyV, List.foldl_append]

theorem applyI_append (σ τ : Subs) (i : Instr) :
    applyI (σ ++ τ) i = applyI τ (applyI σ i) := by
  simp [applyI, List.foldl_append]

@[simp] theorem applyI_cons (rv : Nat × Value) (σ : Subs) (i : Instr) :
    applyI (rv :: σ) i = applyI σ (substI rv.1 rv.2 i) := rfl

@[simp] theorem applyV_cons (rv : Nat × Value) (σ : Subs) (u : Value) :
    applyV (rv :: σ) u = applyV σ (substV rv.1 rv.2 u) := rfl

theorem applyI_binop (σ : Subs) (i : Nat) (op : Opcode) (a b : Value) :
    applyI σ (.binop i op a b) = .binop i op (applyV σ a) (applyV σ b) := by
  induction σ generalizing a b with
  | nil => rfl
  | cons rv σ ih => simp [substI, ih]

theorem applyI_store (σ : Subs) (w p : Value) :
    applyI σ (.store w p) = .store (applyV σ w) (applyV σ p) := by
  induction σ generalizing w p with
  | nil => rfl
  | cons rv σ ih => simp [substI, ih]

theorem applyI_load (σ : Subs) (i : Nat) (p : Value) :
    applyI σ (.load i p) = .load i (applyV σ p) := by
  induction σ generalizing p with
  | nil => rfl
  | cons rv σ ih => simp [substI, ih]

@[simp] theorem applyV_const (σ : Subs) (c : Nat) :
    applyV σ (.const c) = .const c := by
  induction σ with
  | nil => rfl
  | cons rv σ ih => simpa [substV] using ih

@[simp] theorem applyV_arg (σ : Subs) (n : Nat) :
    applyV σ (.arg n) = .arg n := by
  induction σ with
  | nil => rfl
  | cons rv σ ih => simpa [substV] using ih

@[simp] theorem Instr.kind_applyI (σ : Subs) (i : Instr) :
    (applyI σ i).kind = i.kind := by
  cases i <;> simp [applyI_binop, applyI_store, applyI_load, Instr.kind]

@[simp] theorem Instr.defId_applyI (σ : Subs) (i : Instr) :
    (applyI σ i).defId = i.defId := by
  cases i <;> simp [applyI_binop, applyI_store, applyI_load, Instr.defId]

/-- Action chosen by a strength-reduction match: rewrite a multiplication by
15 of the value `x` producing `r`, or a division by 8 of `x` producing `r`. -/
inductive SRAct where
  | mulRew (r : Nat) (x : Value)
  | divRew (r : Nat) (x : Value)
deriving DecidableEq

/-- First instruction of the list that defines the SSA id `n`.  This models
following a `Value*` operand to its defining `Instruction` (well-defined
whenever SSA ids are unique, which well-formedness below guarantees). -/
def findDef (ctx : List Instr) (n : Nat) : Option Instr :=
  ctx.find? (fun i => i.defId == some n)

/-- Signed (two's-complement) reading of a `w`-bit value. -/
def toSInt (w : Nat) (x : ZMod (2 ^ w)) : Int :=
  if x.val < 2 ^ (w - 1) then (x.val : Int) else (x.val : Int) - (2 ^ w : Int)

/-- Meaning of a binary opcode on `w`-bit machine integers: modular add, sub,
mul and left shift; unsigned division and logical right shift on the unsigned
reading; truncating signed division and arithmetic (floor) right shift on the
two's-complement reading. -/
def denoteOp (w : Nat) (op : Opcode) (a b : ZMod (2 ^ w)) : ZMod (2 ^ w) :=
  match op with
  | .add => a + b
  | .sub => a - b
  | .mul => a * b
  | .udiv => ((a.val / b.val : Nat) : ZMod (2 ^ w))
  | .sdiv => ((Int.tdiv (toSInt w a) (toSInt w b) : Int) : ZMod (2 ^ w))
  | .shl => a * ((2 ^ b.val : Nat) : ZMod (2 ^ w))
  | .lshr => ((a.val / 2 ^ b.val : Nat) : ZMod (2 ^ w))
  | .ashr => ((Int.fdiv (toSInt w a) ((2 ^ b.val : Nat) : Int) : Int) : ZMod (2 ^ w))

/-- Evaluation state of straight-line code: the value of every SSA register
and the contents of memory.  Memory is keyed by the syntactic pointer operand;
the combiner only relates a store and a load through the *identical* pointer
value, so no aliasing model is needed. -/
structure EvalSt (w : Nat) where
  regs : Nat → ZMod (2 ^ w)
  mem : Value → ZMod (2 ^ w)

/-- Value of an operand: register contents, the constant reduced mod `2^w`,
or an externally supplied argument value. -/
def evalVal (w : Nat) (args : Nat → ZMod (2 ^ w)) (st : EvalSt w) :
    Value → ZMod (2 ^ w)
  | .reg n => st.regs n
  | .const c => (c : ZMod (2 ^ w))
  | .arg n => args n

/-- Effect of one instruction on the evaluation state. -/
def execI (w : Nat) (args : Nat → ZMod (2 ^ w)) (st : EvalSt w) :
    Instr → EvalSt w
  | .binop i op a b =>
      ⟨Function.update st.regs i
        (denoteOp w op (evalVal w args st a) (evalVal w args st b)), st.mem⟩
  | .store v p => ⟨st.regs, Function.update st.mem p (evalVal w args st v)⟩
  | .load i p => ⟨Function.update st.regs i (st.mem p), st.mem⟩

/-- Execution of a straight-line block, first instruction first. -/
def execB (w : Nat) (args : Nat → ZMod (2 ^ w)) (st : EvalSt w)
    (B : List Instr) : EvalSt w :=
  B.foldl (execI w args) st

end IRModel

namespace Part000

open IRModel

/-!
Model of `src/unnamed/part_000`.  All three passes iterate with
`Instruction *I = &*it++;`, i.e. the iterator is advanced before any mutation,
so after a rewrite the scan resumes at the instruction following the matched
one, and instructions inserted in front of the matched one are never visited.

`replaceAllUsesWith` is modelled as a substitution recorded in `Subs` and
applied to every instruction scanned from that point on.  In a function where
every use of an SSA value occurs after its definition (the well-formedness
assumed by LLVM IR and required by the theorems below where it matters), all
uses of the erased value are exactly the occurrences in the not-yet-scanned
remainder, so this is the full effect of `replaceAllUsesWith`.
-/

namespace AlgebraicIdentityPass

/-- Match step of part_000's `AlgebraicIdentityPass::run` body (lines 19-51):
for an `Add`, first test whether operand 1 is the constant 0, then whether
operand 0 is (two independent `if`s in the source); symmetrically for `Mul`
with the constant 1.  Returns the produced id together with the value that
`replaceAllUsesWith` redirects to. -/
def algMatch : Instr → Option (Nat × Value)
  | .binop r .add a b =>
      if b = .const 0 then some (r, a)
      else if a = .const 0 then some (r, b)
      else Option.none
  | .binop r .mul a b =>
      if b = .const 1 then some (r, a)
      else if a = .const 1 then some (r, b)
      else Option.none
  | _ => Option.none

/-- One forward scan of a block.  Returns the rewritten block, the extended
substitution list and whether any rewrite fired (the source does not track a
`changed` flag — it returns `PreservedAnalyses::none()` unconditionally — so
the boolean is instrumentation used solely to state claims about it). -/
def scan (σ : Subs) : List Instr → List Instr × Subs × Bool
  | [] => ([], σ, false)
  | i :: rest =>
      let j := applyI σ i
      match algMatch j with
      | some rv =>
          let out := scan (σ ++ [rv]) rest
          (out.1, out.2.1, true)
      | Option.none =>
          let out := scan σ rest
          (j :: out.1, out.2.1, out.2.2)

/-- Scan of all blocks of a function, threading the substitutions (a
`replaceAllUsesWith` in one block also retargets uses in later blocks). -/
def scanBlocks (σ : Subs) : Func → Func × Subs × Bool
  | [] => ([], σ, false)
  | B :: Bs =>
      let rB := scan σ B
      let rBs := scanBlocks rB.2.1 Bs
      (rB.1 :: rBs.1, rBs.2.1, rB.2.2 || rBs.2.2)

/-- part_000's `AlgebraicIdentityPass::run`: rewrite and return
`PreservedAnalyses::none()` unconditionally (line 55). -/
def run (F : Func) : Func × Preserved :=
  ((scanBlocks [] F).1, .none)

/-- Instrumentation: did any rewrite fire during `run`?  (Not computed by the
source, which discards this information.) -/
def changed (F : Func) : Bool :=
  (scanBlocks [] F).2.2

end AlgebraicIdentityPass

namespace StrengthReductionPass

/-- Match step of part_000's `StrengthReductionPass::run` (lines 66-93): for a
`Mul`, `std::swap` the operand pair when operand 0 is the constant 15, then
rewrite when (the possibly swapped) operand 1 is the constant 15 — so the
constant is recognised on either side; for an `SDiv` (only — `UDiv` is not
inspected), rewrite when operand 1 is the constant 8. -/
def srMatch : Instr → Option SRAct
  | .binop r .mul a b =>
      let p := if a = Value.const 15 then (b, a) else (a, b)
      if p.2 = Value.const 15 then some (.mulRew r p.1) else Option.none
  | .binop r .sdiv a b =>
      if b = Value.const 8 then some (.divRew r a) else Option.none
  | _ => Option.none

/-- One forward scan of a block.  A matched `Mul(x, 15)` synthesizes
`shift = Shl(x, 4)` and `sub = Sub(shift, x)` inserted immediately before the
matched instruction (`BinaryOperator::CreateShl/CreateSub` with insert-before
`binOp`), redirects all uses to the `Sub` and erases the original; a matched
`SDiv(x, 8)` synthesizes `AShr(x, 3)` likewise.  `fresh` supplies the SSA ids
of the newly created instructions (fresh names, as new `Value`s are in
LLVM). -/
def scan (fresh : Nat) (σ : Subs) : List Instr → List Instr × Subs × Bool × Nat
  | [] => ([], σ, false, fresh)
  | i :: rest =>
      let j := applyI σ i
      match srMatch j with
      | some (.mulRew r x) =>
          let out := scan (fresh + 2) (σ ++ [(r, Value.reg (fresh + 1))]) rest
          (Instr.binop fresh .shl x (.const 4) ::
             Instr.binop (fresh + 1) .sub (.reg fresh) x :: out.1,
           out.2.1, true, out.2.2.2)
      | some (.divRew r x) =>
          let out := scan (fresh + 1) (σ ++ [(r, Value.reg fresh)]) rest
          (Instr.binop fresh .ashr x (.const 3) :: out.1,
           out.2.1, true, out.2.2.2)
      | Option.none =>
          let out := scan fresh σ rest
          (j :: out.1, out.2.1, out.2.2.1, out.2.2.2)

/-- Scan of all blocks, threading substitutions and the fresh-id supply. -/
def scanBlocks (fresh : Nat) (σ : Subs) : Func → Func × Subs × Bool × Nat
  | [] => ([], σ, false, fresh)
  | B :: Bs =>
      let rB := scan fresh σ B
      let rBs := scanBlocks rB.2.2.2 rB.2.1 Bs
      (rB.1 :: rBs.1, rBs.2.1, rB.2.2.1 || rBs.2.2.1, rBs.2.2.2)

/-- part_000's `StrengthReductionPass::run`: rewrite and return
`PreservedAnalyses::none()` unconditionally (line 97). -/
def run (fresh : Nat) (F : Func) : Func × Preserved :=
  ((scanBlocks fresh [] F).1, .none)

/-- Instrumentation: did any rewrite fire during `run`? -/
def changed (fresh : Nat) (F : Func) : Bool :=
  (scanBlocks fresh [] F).2.2.1

end StrengthReductionPass

namespace MultiInstructionOptimizationPass

/-- Operand inspection of the `Add` (part_000 lines 111-117): if operand 1 is
a `ConstantInt` then `b` is operand 0 when that constant is 1 (and the
`else if` branch is skipped even when the constant is not 1); otherwise, if
operand 0 is a `ConstantInt` equal to 1, `b` is operand 1. -/
def addOneOperand (x y : Value) : Option Value :=
  match y with
  | .const c => if c = 1 then some x else Option.none
  | _ =>
      match x with
      | .const c => if c = 1 then some y else Option.none
      | _ => Option.none

/-- One forward scan of a block (part_000 lines 104-151).  At an
`a = Add(b, 1)` the pass looks at exactly the next three instructions: a
`Store` whose value operand is `a`, a `Load` from the same pointer operand,
and a `Sub` whose operand 0 is the loaded value and whose operand 1 is the
constant 1; when the whole window matches, it overwrites the `Sub`'s operand 0
with `b` (`subInst->setOperand(0, b)`).  Nothing is inserted or erased and no
uses are redirected.  Scanning then resumes at the `Store` (the iterator was
advanced past the `Add` only); since a `Store`, `Load` or `Sub` can never
itself begin a match (only an `Add` can), stepping the model directly over the
inspected window — rewritten or not — is exactly the source's behaviour.  The
four side conditions, nested `if`s in the source, are one conjunction here.
The boolean records whether any `setOperand` fired (instrumentation; the
source returns `PreservedAnalyses::none()` unconditionally). -/
def scan : List Instr → List Instr × Bool
  | .binop aId .add x y :: .store sv sp :: .load lId lp ::
      .binop sId .sub s0 s1 :: more =>
      let out := scan more
      match addOneOperand x y with
      | some b =>
          if sv = Value.reg aId ∧ lp = sp ∧ s0 = Value.reg lId ∧
              s1 = Value.const 1 then
            (Instr.binop aId .add x y :: Instr.store sv sp ::
               Instr.load lId lp :: Instr.binop sId .sub b s1 :: out.1, true)
          else
            (Instr.binop aId .add x y :: Instr.store sv sp ::
               Instr.load lId lp :: Instr.binop sId .sub s0 s1 :: out.1, out.2)
      | Option.none =>
          (Instr.binop aId .add x y :: Instr.store sv sp ::
             Instr.load lId lp :: Instr.binop sId .sub s0 s1 :: out.1, out.2)
  | i :: rest =>
      let out := scan rest
      (i :: out.1, out.2)
  | [] => ([], false)

/-- Scan of all blocks. -/
def scanBlocks : Func → Func × Bool
  | [] => ([], false)
  | B :: Bs =>
      let rB := scan B
      let rBs := scanBlocks Bs
      (rB.1 :: rBs.1, rB.2 || rBs.2)

/-- part_000's `MultiInstructionOptimizationPass::run`: rewrite and return
`PreservedAnalyses::none()` unconditionally (line 153). -/
def run (F : Func) : Func × Preserved :=
  ((scanBlocks F).1, .none)

/-- Instrumentation: did any `setOperand` rewrite fire during `run`? -/
def changed (F : Func) : Bool :=
  (scanBlocks F).2

end MultiInstructionOptimizationPass

end Part000

namespace MyPasses

open IRModel

/-!
Model of `src/TestPass.cpp` (`MyPasses.cpp`).
-/

namespace AlgebraicIdentityPass

/-- Match step of the `AlgebraicIdentityPass` in `TestPass.cpp` (lines 51-88):
`match(BinOp, m_Add(m_Value(X), m_ConstantInt<0>(&Y)))` requires operand 1 to
be the constant 0 (the `m_Add`/`m_Mul` combinators are not commutative
matchers, so a constant in operand position 0 does not match), and similarly
`m_Mul(m_Value(X), m_ConstantInt<1>(&Y))` requires operand 1 to be the
constant 1. -/
def algMatch : Instr → Option (Nat × Value)
  | .binop r .add a b => if b = .const 0 then some (r, a) else Option.none
  | .binop r .mul a b => if b = .const 1 then some (r, a) else Option.none
  | _ => Option.none

/-- One forward scan of a block, with the `changed` flag of the source.
The C++ iterates with a range-`for` and erases the current instruction inside
it; the `break` after the rewrite only leaves the `switch`, not the loop, so
the loop then increments the erased instruction's iterator (see the claim over
that behaviour).  The model gives the scan the resume-at-next semantics that
the adjacent source comment describes. -/
def scan (σ : Subs) : List Instr → List Instr × Subs × Bool
  | [] => ([], σ, false)
  | i :: rest =>
      let j := applyI σ i
      match algMatch j with
      | some rv =>
          let out := scan (σ ++ [rv]) rest
          (out.1, out.2.1, true)
      | Option.none =>
          let out := scan σ rest
          (j :: out.1, out.2.1, out.2.2)

/-- Scan of all blocks, threading substitutions and or-ing `changed`. -/
def scanBlocks (σ : Subs) : Func → Func × Subs × Bool
  | [] => ([], σ, false)
  | B :: Bs =>
      let rB := scan σ B
      let rBs := scanBlocks rB.2.1 Bs
      (rB.1 :: rBs.1, rBs.2.1, rB.2.2 || rBs.2.2)

/-- `AlgebraicIdentityPass::run` of `TestPass.cpp`: returns
`PreservedAnalyses::none()` iff `changed` was set (lines 94-97), otherwise
`PreservedAnalyses::all()`. -/
def run (F : Func) : Func × Preserved :=
  let r := scanBlocks [] F
  (r.1, if r.2.2 then .none else .all)

/-- The `changed` flag computed by `run`. -/
def changed (F : Func) : Bool :=
  (scanBlocks [] F).2.2

end AlgebraicIdentityPass

namespace StrengthReductionPass

/-- Match step of the `StrengthReductionPass` in `TestPass.cpp` (lines
122-173): `m_Mul(m_Value(X), m_ConstantInt(C))` with `C->equalsInt(15)`
requires the constant 15 in operand position 1 (the matcher is not
commutative, so `Mul(15, x)` with non-constant `x` does not match);
`m_UDiv(m_Value(X), m_ConstantInt(C)) || m_SDiv(...)` with `C->equalsInt(8)`
matches either division opcode with the constant 8 as operand 1. -/
def srMatch : Instr → Option SRAct
  | .binop r .mul a b =>
      if b = Value.const 15 then some (.mulRew r a) else Option.none
  | .binop r .sdiv a b =>
      if b = Value.const 8 then some (.divRew r a) else Option.none
  | .binop r .udiv a b =>
      if b = Value.const 8 then some (.divRew r a) else Option.none
  | _ => Option.none

/-- One forward scan of a block.  A matched `Mul(x, 15)` builds
`Shifted = Shl(x, 4)` and `NewVal = Sub(Shifted, x)` with an `IRBuilder`
positioned at the matched instruction (so both are inserted immediately
before it), redirects all uses and erases the original; a matched
`SDiv/UDiv(x, 8)` builds `LShr(x, 3)` — a logical shift for both division
opcodes — likewise. -/
def scan (fresh : Nat) (σ : Subs) : List Instr → List Instr × Subs × Bool × Nat
  | [] => ([], σ, false, fresh)
  | i :: rest =>
      let j := applyI σ i
      match srMatch j with
      | some (.mulRew r x) =>
          let out := scan (fresh + 2) (σ ++ [(r, Value.reg (fresh + 1))]) rest
          (Instr.binop fresh .shl x (.const 4) ::
             Instr.binop (fresh + 1) .sub (.reg fresh) x :: out.1,
           out.2.1, true, out.2.2.2)
      | some (.divRew r x) =>
          let out := scan (fresh + 1) (σ ++ [(r, Value.reg fresh)]) rest
          (Instr.binop fresh .lshr x (.const 3) :: out.1,
           out.2.1, true, out.2.2.2)
      | Option.none =>
          let out := scan fresh σ rest
          (j :: out.1, out.2.1, out.2.2.1, out.2.2.2)

/-- Scan of all blocks, threading substitutions and the fresh-id supply. -/
def scanBlocks (fresh : Nat) (σ : Subs) : Func → Func × Subs × Bool × Nat
  | [] => ([], σ, false, fresh)
  | B :: Bs =>
      let rB := scan fresh σ B
      let rBs := scanBlocks rB.2.2.2 rB.2.1 Bs
      (rB.1 :: rBs.1, rBs.2.1, rB.2.2.1 || rBs.2.2.1, rBs.2.2.2)

/-- `StrengthReductionPass::run` of `TestPass.cpp`: returns
`PreservedAnalyses::none()` iff `changed` was set (lines 178-181). -/
def run (fresh : Nat) (F : Func) : Func × Preserved :=
  let r := scanBlocks fresh [] F
  (r.1, if r.2.2.1 then .none else .all)

/-- The `changed` flag computed by `run`. -/
def changed (fresh : Nat) (F : Func) : Bool :=
  (scanBlocks fresh [] F).2.2.1

end StrengthReductionPass

namespace MultiInstructionOptPass

/-- One forward scan of a block of the `MultiInstructionOptPass` in
`TestPass.cpp` (lines 210-243).  At each `c = Sub(A, 1)` (constant 1 in
operand position 1, via the non-commutative `m_Sub` matcher) the pass follows
the operand `A` to its defining instruction anywhere in the function
(`dyn_cast<BinaryOperator>(A)`); when that definition is an `a = Add(B, 1)`
(again constant in operand position 1), every use of `c` is redirected to `B`
and the `Sub` is erased.  No adjacency between the `Add` and the `Sub` is
required.  `preCtx` holds the already-scanned earlier blocks, `done` the
already-scanned prefix of the current block and `postRaw` the later blocks;
together with the rest of the current block they form the function-wide
context in which the defining instruction is looked up, in its current
(post-substitution) form. -/
def scan (preCtx : List Instr) (postRaw : Func) (σ : Subs) (done : List Instr) :
    List Instr → List Instr × Subs × Bool
  | [] => (done, σ, false)
  | i :: rest =>
      match applyI σ i with
      | .binop r .sub (.reg n) (.const 1) =>
          match findDef (preCtx ++ done ++ (applyI σ i :: rest.map (applyI σ))
              ++ (postRaw.flatten.map (applyI σ))) n with
          | some (.binop _ .add b (.const 1)) =>
              ((scan preCtx postRaw (σ ++ [(r, b)]) done rest).1,
               (scan preCtx postRaw (σ ++ [(r, b)]) done rest).2.1, true)
          | _ => scan preCtx postRaw σ (done ++ [applyI σ i]) rest
      | _ => scan preCtx postRaw σ (done ++ [applyI σ i]) rest

/-- Scan of all blocks, threading the context and substitutions. -/
def scanBlocks (preCtx : List Instr) (σ : Subs) : Func → Func × Subs × Bool
  | [] => ([], σ, false)
  | B :: Bs =>
      let rB := scan preCtx Bs σ [] B
      let rBs := scanBlocks (preCtx ++ rB.1) rB.2.1 Bs
      (rB.1 :: rBs.1, rBs.2.1, rB.2.2 || rBs.2.2)

/-- `MultiInstructionOptPass::run` of `TestPass.cpp`: returns
`PreservedAnalyses::none()` iff `changed` was set (lines 245-248). -/
def run (F : Func) : Func × Preserved :=
  let r := scanBlocks [] [] F
  (r.1, if r.2.2 then .none else .all)

/-- The `changed` flag computed by `run`. -/
def changed (F : Func) : Bool :=
  (scanBlocks [] [] F).2.2

end MultiInstructionOptPass

end MyPasses

section Examples

open IRModel

example :
    Part000.AlgebraicIdentityPass.run
      [[.binop 1 .add (.arg 0) (.const 0), .store (.reg 1) (.arg 5)]] =
    ([[.store (.arg 0) (.arg 5)]], .none) := by decide

example :
    MyPasses.AlgebraicIdentityPass.run
      [[.binop 1 .add (.const 0) (.arg 0)]] =
    ([[.binop 1 .add (.const 0) (.arg 0)]], .all) := by decide

example :
    Part000.AlgebraicIdentityPass.run
      [[.binop 1 .add (.const 0) (.arg 0)]] =
    ([[]], .none) := by decide

example :
    Part000.StrengthReductionPass.run 10
      [[.binop 1 .mul (.arg 0) (.const 15), .store (.reg 1) (.arg 5)]] =
    ([[.binop 10 .shl (.arg 0) (.const 4),
       .binop 11 .sub (.reg 10) (.arg 0),
       .store (.reg 11) (.arg 5)]], .none) := by decide

example :
    MyPasses.StrengthReductionPass.run 10
      [[.binop 1 .udiv (.arg 0) (.const 8), .store (.reg 1) (.arg 5)]] =
    ([[.binop 10 .lshr (.arg 0) (.const 3),
       .store (.reg 10) (.arg 5)]], .none) := by decide

example :
    Part000.StrengthReductionPass.run 10
      [[.binop 1 .udiv (.arg 0) (.const 8)]] =
    ([[.binop 1 .udiv (.arg 0) (.const 8)]], .none) := by decide

example :
    MyPasses.MultiInstructionOptPass.run
      [[.binop 1 .add (.arg 0) (.const 1),
        .binop 2 .sub (.reg 1) (.const 1),
        .store (.reg 2) (.arg 5)]] =
    ([[.binop 1 .add (.arg 0) (.const 1),
       .store (.arg 0) (.arg 5)]], .none) := by decide

example :
    Part000.MultiInstructionOptimizationPass.run
      [[.binop 1 .add (.arg 0) (.const 1),
        .store (.reg 1) (.arg 9),
        .load 2 (.arg 9),
        .binop 3 .sub (.reg 2) (.const 1)]] =
    ([[.binop 1 .add (.arg 0) (.const 1),
       .store (.reg 1) (.arg 9),
       .load 2 (.arg 9),
       .binop 3 .sub (.arg 0) (.const 1)]], .none) := by decide

example :
    (execB 8 (fun _ => 10) ⟨fun _ => 0, fun _ => 0⟩
      [.binop 1 .add (.arg 0) (.const 1),
       .store (.reg 1) (.arg 9),
       .load 2 (.arg 9),
       .binop 3 .sub (.arg 0) (.const 1)]).regs 3 = 9 := by decide

end Examples

section ClaimC1

open IRModel

/-- C1: the claim states that for every matched combiner chain — including
`a = Add(b,1); store a; t = load; c = Sub(t,1)` — one run of the
multi-instruction pass makes every observable result of `c` equal `b`.  The
pass of `src/unnamed/part_000` matches that round-trip chain and rewrites the
`Sub`'s first operand to `b` while keeping the `- 1`, so `c` subsequently
evaluates to `b - 1`, not `b`: with `b = 10` every observer of `c` sees `9`.
The unrewritten chain evaluates `c` to `10 = b`, as the claim (and the spec's
explicit requirement that the rewrite make `c` equal `b`) demands, so the
code contradicts the spec's stated intent on this input. -/
theorem C1_part000_roundtrip_combiner_gives_b_minus_one :
    (Part000.MultiInstructionOptimizationPass.run
      [[.binop 1 .add (.arg 0) (.const 1), .store (.reg 1) (.arg 9),
        .load 2 (.arg 9), .binop 3 .sub (.reg 2) (.const 1)]]).1 =
      [[.binop 1 .add (.arg 0) (.const 1), .store (.reg 1) (.arg 9),
        .load 2 (.arg 9), .binop 3 .sub (.arg 0) (.const 1)]] ∧
    (execB 8 (fun _ => 10) ⟨fun _ => 0, fun _ => 0⟩
      [.binop 1 .add (.arg 0) (.const 1), .store (.reg 1) (.arg 9),
       .load 2 (.arg 9), .binop 3 .sub (.reg 2) (.const 1)]).regs 3 = 10 ∧
    (execB 8 (fun _ => 10) ⟨fun _ => 0, fun _ => 0⟩
      [.binop 1 .add (.arg 0) (.const 1), .store (.reg 1) (.arg 9),
       .load 2 (.arg 9), .binop 3 .sub (.arg 0) (.const 1)]).regs 3 = 9 ∧
    (9 : ZMod (2 ^ 8)) ≠ 10 := by
  refine ⟨by decide, by decide, by decide, by decide⟩

end ClaimC1

section ClaimC6

open IRModel

/-- C6: the claim states that after each rewrite, scanning resumes at the
instruction following the erased one and the erased instruction is never
touched again.  In `TestPass.cpp`'s `AlgebraicIdentityPass` the erasure
happens inside a range-`for` over the block and the `break` that follows
`eraseFromParent()` only leaves the `switch` statement — contradicting the
adjacent comment, which says the inner loop must be interrupted — so the
range-`for` then increments the erased instruction's iterator.  This theorem
exhibits a concrete input on which that erase path is reached: the pass
matches `Add(x, 0)`, erases it and sets `changed`. -/
theorem C6_mypasses_algebraic_reaches_erase_inside_range_for :
    MyPasses.AlgebraicIdentityPass.run [[.binop 1 .add (.arg 0) (.const 0)]] =
      ([[]], .none) ∧
    MyPasses.AlgebraicIdentityPass.changed
      [[.binop 1 .add (.arg 0) (.const 0)]] = true := by
  refine ⟨by decide, by decide⟩

end ClaimC6

section Counterexamples

open IRModel

/-- C2 counterexample: `Add(0, x)` with the constant in operand position 0 is
not rewritten by `TestPass.cpp`'s `AlgebraicIdentityPass` (the `m_Add` matcher
is not commutative), so the instruction still exists in its block after one
run, and the pass reports all analyses preserved — contradicting the claim
that the zero constant may be on either operand side. -/
theorem C2_counterexample_add_zero_on_lhs_kept :
    MyPasses.AlgebraicIdentityPass.run [[.binop 1 .add (.const 0) (.arg 0)]] =
      ([[.binop 1 .add (.const 0) (.arg 0)]], .all) := by decide

/-- C3 counterexample: `Mul(15, x)` with the constant in operand position 0 is
not rewritten by `TestPass.cpp`'s `StrengthReductionPass` (the `m_Mul` matcher
is not commutative), so the original instruction is not erased — contradicting
the claim that `Mul(15, x)` is rewritten. -/
theorem C3_counterexample_mul_fifteen_on_lhs_kept :
    MyPasses.StrengthReductionPass.run 10
      [[.binop 1 .mul (.const 15) (.arg 0)]] =
      ([[.binop 1 .mul (.const 15) (.arg 0)]], .all) := by decide

/-- C4 counterexample: `UDiv(x, 8)` is not rewritten by part_000's
`StrengthReductionPass`, which only inspects the `SDiv` opcode — contradicting
the claim that every `UDiv(x, 8)` is replaced by a right shift and erased. -/
theorem C4_counterexample_udiv_kept_by_part000 :
    Part000.StrengthReductionPass.run 10
      [[.binop 1 .udiv (.arg 0) (.const 8)]] =
      ([[.binop 1 .udiv (.arg 0) (.const 8)]], .none) := by decide

/-- C5 counterexample: on a function whose only instruction matches nothing,
part_000's `AlgebraicIdentityPass` performs no rewrite yet still returns
`PreservedAnalyses::none()` — contradicting the claim that when no instruction
matched, the pass reports that all analyses are preserved. -/
theorem C5_counterexample_part000_reports_none_without_rewrite :
    Part000.AlgebraicIdentityPass.changed [[.binop 1 .add (.arg 0) (.const 2)]]
        = false ∧
    Part000.AlgebraicIdentityPass.run [[.binop 1 .add (.arg 0) (.const 2)]] =
      ([[.binop 1 .add (.arg 0) (.const 2)]], .none) ∧
    Preserved.none ≠ Preserved.all := by
  refine ⟨by decide, by decide, by decide⟩

/-- C8 counterexample: running part_000's `AlgebraicIdentityPass` on an
already fully rewritten function performs no rewrite, yet the second
invocation still returns `PreservedAnalyses::none()` (it never returns
anything else), not the `changed = false` / all-preserved result the claim
requires. -/
theorem C8_counterexample_part000_second_run_still_reports_none :
    (Part000.AlgebraicIdentityPass.run
        [[.binop 1 .add (.arg 0) (.const 0)]]).1 = [[]] ∧
    Part000.AlgebraicIdentityPass.changed [[]] = false ∧
    Part000.AlgebraicIdentityPass.run [[]] = ([[]], .none) ∧
    Preserved.none ≠ Preserved.all := by
  refine ⟨by decide, by decide, by decide, by decide⟩

/-- C9 counterexample: a combiner chain interrupted by an unrelated
interleaving instruction is still rewritten by `TestPass.cpp`'s
`MultiInstructionOptPass` — it follows the `Sub`'s operand to its defining
instruction regardless of distance — so the IR is not left byte-for-byte
unchanged as the claim requires: the `Sub` is erased. -/
theorem C9_counterexample_interleaved_chain_still_rewritten :
    MyPasses.MultiInstructionOptPass.run
      [[.binop 1 .add (.arg 0) (.const 1),
        .binop 2 .mul (.arg 1) (.arg 2),
        .binop 3 .sub (.reg 1) (.const 1)]] =
      ([[.binop 1 .add (.arg 0) (.const 1),
         .binop 2 .mul (.arg 1) (.arg 2)]], .none) ∧
    [[Instr.binop 1 .add (.arg 0) (.const 1),
      Instr.binop 2 .mul (.arg 1) (.arg 2)]] ≠
      [[Instr.binop 1 .add (.arg 0) (.const 1),
        Instr.binop 2 .mul (.arg 1) (.arg 2),
        Instr.binop 3 .sub (.reg 1) (.const 1)]] := by
  refine ⟨by decide, by decide⟩

end Counterexamples

section ClaimC10

open IRModel

theorem p0multi_scan_kinds (B : List Instr) :
    ((Part000.MultiInstructionOptimizationPass.scan B).1).map Instr.kind
      = B.map Instr.kind := by
  induction B using Part000.MultiInstructionOptimizationPass.scan.induct with
  | case1 aId x y sv sp lId lp sId s0 s1 more b hb hcond ih =>
      simp [Part000.MultiInstructionOptimizationPass.scan, hb, hcond,
        Instr.kind, ih]
  | case2 aId x y sv sp lId lp sId s0 s1 more b hb hcond ih =>
      simp [Part000.MultiInstructionOptimizationPass.scan, hb, hcond,
        Instr.kind, ih]
  | case3 aId x y sv sp lId lp sId s0 s1 more hb ih =>
      simp [Part000.MultiInstructionOptimizationPass.scan, hb, Instr.kind, ih]
  | case4 i rest h ih =>
      simp [Part000.MultiInstructionOptimizationPass.scan, Instr.kind, ih]
  | case5 => rfl

theorem p0multi_scanBlocks_kinds (F : Func) :
    ((Part000.MultiInstructionOptimizationPass.scanBlocks F).1).map
        (List.map Instr.kind)
      = F.map (List.map Instr.kind) := by
  induction F with
  | nil => rfl
  | cons B Bs ih =>
      simp [Part000.MultiInstructionOptimizationPass.scanBlocks,
        p0multi_scan_kinds, ih]

/-- C10: part_000's multi-instruction pass never inserts or erases an
instruction: when its chain matches it only overwrites the matched `Sub`'s
first operand, so after one run every block has the same opcode/shape sequence
(and hence the same instruction count) as before. -/
theorem C10_part000_combiner_preserves_counts_and_opcodes (F : Func) :
    ((Part000.MultiInstructionOptimizationPass.run F).1).map
        (List.map Instr.kind) = F.map (List.map Instr.kind) ∧
    ((Part000.MultiInstructionOptimizationPass.run F).1).map List.length
      = F.map List.length := by
  constructor
  · exact p0multi_scanBlocks_kinds F
  · have h := congrArg (List.map List.length) (p0multi_scanBlocks_kinds F)
    simpa [List.map_map, Function.comp_def] using h

end ClaimC10

section ClaimC9

open IRModel

/-- C9 (amended): each single-instruction near miss — `Add(x, 2)`,
`Mul(x, 3)`, `SDiv(x, 7)` — and a `Sub(a, 2)` following `Add(b, 1)` leaves the
IR byte-for-byte unchanged under the corresponding pass of either variant, and
a combiner chain interrupted by an unrelated interleaving instruction or
spanning more than 4 consecutive instructions is left unchanged by part_000's
window-bounded combiner; the combiner of `TestPass.cpp`, however, follows the
`Sub`'s operand to its defining instruction and is not window-bounded, so it
does rewrite an interleaved chain (erasing the `Sub`). -/
theorem C9_amended_near_misses_unchanged (n n1 n2 r a c l p fr : Nat) :
    Part000.AlgebraicIdentityPass.run [[.binop r .add (.arg n) (.const 2)]] =
      ([[.binop r .add (.arg n) (.const 2)]], .none) ∧
    MyPasses.AlgebraicIdentityPass.run [[.binop r .add (.arg n) (.const 2)]] =
      ([[.binop r .add (.arg n) (.const 2)]], .all) ∧
    Part000.StrengthReductionPass.run fr
        [[.binop r .mul (.arg n) (.const 3)]] =
      ([[.binop r .mul (.arg n) (.const 3)]], .none) ∧
    MyPasses.StrengthReductionPass.run fr
        [[.binop r .mul (.arg n) (.const 3)]] =
      ([[.binop r .mul (.arg n) (.const 3)]], .all) ∧
    Part000.StrengthReductionPass.run fr
        [[.binop r .sdiv (.arg n) (.const 7)]] =
      ([[.binop r .sdiv (.arg n) (.const 7)]], .none) ∧
    MyPasses.StrengthReductionPass.run fr
        [[.binop r .sdiv (.arg n) (.const 7)]] =
      ([[.binop r .sdiv (.arg n) (.const 7)]], .all) ∧
    Part000.MultiInstructionOptimizationPass.run
        [[.binop a .add (.arg n) (.const 1),
          .binop c .sub (.reg a) (.const 2)]] =
      ([[.binop a .add (.arg n) (.const 1),
         .binop c .sub (.reg a) (.const 2)]], .none) ∧
    MyPasses.MultiInstructionOptPass.run
        [[.binop a .add (.arg n) (.const 1),
          .binop c .sub (.reg a) (.const 2)]] =
      ([[.binop a .add (.arg n) (.const 1),
         .binop c .sub (.reg a) (.const 2)]], .all) ∧
    Part000.MultiInstructionOptimizationPass.run
        [[.binop a .add (.arg n) (.const 1),
          .binop r .mul (.arg n1) (.arg n2),
          .store (.reg a) (.arg p), .load l (.arg p),
          .binop c .sub (.reg l) (.const 1)]] =
      ([[.binop a .add (.arg n) (.const 1),
         .binop r .mul (.arg n1) (.arg n2),
         .store (.reg a) (.arg p), .load l (.arg p),
         .binop c .sub (.reg l) (.const 1)]], .none) ∧
    Part000.MultiInstructionOptimizationPass.run
        [[.binop a .add (.arg n) (.const 1),
          .store (.reg a) (.arg p), .load l (.arg p),
          .binop r .mul (.arg n1) (.arg n2),
          .binop c .sub (.reg l) (.const 1)]] =
      ([[.binop a .add (.arg n) (.const 1),
         .store (.reg a) (.arg p), .load l (.arg p),
         .binop r .mul (.arg n1) (.arg n2),
         .binop c .sub (.reg l) (.const 1)]], .none) ∧
    MyPasses.MultiInstructionOptPass.run
        [[.binop a .add (.arg n) (.const 1),
          .binop r .mul (.arg n1) (.arg n2),
          .binop c .sub (.reg a) (.const 1)]] =
      ([[.binop a .add (.arg n) (.const 1),
         .binop r .mul (.arg n1) (.arg n2)]], .none) := by
  refine ⟨?_, ?_, ?_, ?_, ?_, ?_, ?_, ?_, ?_, ?_, ?_⟩
  · simp [Part000.AlgebraicIdentityPass.run,
      Part000.AlgebraicIdentityPass.scanBlocks,
      Part000.AlgebraicIdentityPass.scan, Part000.AlgebraicIdentityPass.algMatch]
  · simp [MyPasses.AlgebraicIdentityPass.run,
      MyPasses.AlgebraicIdentityPass.scanBlocks,
      MyPasses.AlgebraicIdentityPass.scan, MyPasses.AlgebraicIdentityPass.algMatch]
  · simp [Part000.StrengthReductionPass.run,
      Part000.StrengthReductionPass.scanBlocks,
      Part000.StrengthReductionPass.scan, Part000.StrengthReductionPass.srMatch]
  · simp [MyPasses.StrengthReductionPass.run,
      MyPasses.StrengthReductionPass.scanBlocks,
      MyPasses.StrengthReductionPass.scan, MyPasses.StrengthReductionPass.srMatch]
  · simp [Part000.StrengthReductionPass.run,
      Part000.StrengthReductionPass.scanBlocks,
      Part000.StrengthReductionPass.scan, Part000.StrengthReductionPass.srMatch]
  · simp [MyPasses.StrengthReductionPass.run,
      MyPasses.StrengthReductionPass.scanBlocks,
      MyPasses.StrengthReductionPass.scan, MyPasses.StrengthReductionPass.srMatch]
  · simp [Part000.MultiInstructionOptimizationPass.run,
      Part000.MultiInstructionOptimizationPass.scanBlocks,
      Part000.MultiInstructionOptimizationPass.scan,
      Part000.MultiInstructionOptimizationPass.addOneOperand]
  · simp [MyPasses.MultiInstructionOptPass.run,
      MyPasses.MultiInstructionOptPass.scanBlocks,
      MyPasses.MultiInstructionOptPass.scan, findDef]
  · simp [Part000.MultiInstructionOptimizationPass.run,
      Part000.MultiInstructionOptimizationPass.scanBlocks,
      Part000.MultiInstructionOptimizationPass.scan,
      Part000.MultiInstructionOptimizationPass.addOneOperand]
  · simp [Part000.MultiInstructionOptimizationPass.run,
      Part000.MultiInstructionOptimizationPass.scanBlocks,
      Part000.MultiInstructionOptimizationPass.scan,
      Part000.MultiInstructionOptimizationPass.addOneOperand]
  · simp [MyPasses.MultiInstructionOptPass.run,
      MyPasses.MultiInstructionOptPass.scanBlocks,
      MyPasses.MultiInstructionOptPass.scan, findDef, Instr.defId]

end ClaimC9

section ClaimC2

open IRModel

theorem p0alg_scan_exhaustive (B : List Instr) : ∀ (σ : Subs),
    ∀ i ∈ (Part000.AlgebraicIdentityPass.scan σ B).1,
      Part000.AlgebraicIdentityPass.algMatch i = Option.none := by
  induction B with
  | nil =>
      intro σ i hi
      simp [Part000.AlgebraicIdentityPass.scan] at hi
  | cons j rest ih =>
      intro σ i hi
      rcases h : Part000.AlgebraicIdentityPass.algMatch (applyI σ j) with _ | rv
      · rw [Part000.AlgebraicIdentityPass.scan, h] at hi
        simp only [List.mem_cons] at hi
        rcases hi with hi | hi
        · subst hi; exact h
        · exact ih _ _ hi
      · rw [Part000.AlgebraicIdentityPass.scan, h] at hi
        exact ih _ _ hi

theorem p0alg_blocks_exhaustive (F : Func) : ∀ (σ : Subs),
    ∀ i ∈ ((Part000.AlgebraicIdentityPass.scanBlocks σ F).1).flatten,
      Part000.AlgebraicIdentityPass.algMatch i = Option.none := by
  induction F with
  | nil =>
      intro σ i hi
      simp [Part000.AlgebraicIdentityPass.scanBlocks] at hi
  | cons B Bs ih =>
      intro σ i hi
      rw [Part000.AlgebraicIdentityPass.scanBlocks] at hi
      simp only [List.flatten_cons, List.mem_append] at hi
      rcases hi with hi | hi
      · exact p0alg_scan_exhaustive B σ i hi
      · exact ih _ _ hi

theorem mpalg_scan_exhaustive (B : List Instr) : ∀ (σ : Subs),
    ∀ i ∈ (MyPasses.AlgebraicIdentityPass.scan σ B).1,
      MyPasses.AlgebraicIdentityPass.algMatch i = Option.none := by
  induction B with
  | nil =>
      intro σ i hi
      simp [MyPasses.AlgebraicIdentityPass.scan] at hi
  | cons j rest ih =>
      intro σ i hi
      rcases h : MyPasses.AlgebraicIdentityPass.algMatch (applyI σ j) with _ | rv
      · rw [MyPasses.AlgebraicIdentityPass.scan, h] at hi
        simp only [List.mem_cons] at hi
        rcases hi with hi | hi
        · subst hi; exact h
        · exact ih _ _ hi
      · rw [MyPasses.AlgebraicIdentityPass.scan, h] at hi
        exact ih _ _ hi

theorem mpalg_blocks_exhaustive (F : Func) : ∀ (σ : Subs),
    ∀ i ∈ ((MyPasses.AlgebraicIdentityPass.scanBlocks σ F).1).flatten,
      MyPasses.AlgebraicIdentityPass.algMatch i = Option.none := by
  induction F with
  | nil =>
      intro σ i hi
      simp [MyPasses.AlgebraicIdentityPass.scanBlocks] at hi
  | cons B Bs ih =>
      intro σ i hi
      rw [MyPasses.AlgebraicIdentityPass.scanBlocks] at hi
      simp only [List.flatten_cons, List.mem_append] at hi
      rcases hi with hi | hi
      · exact mpalg_scan_exhaustive B σ i hi
      · exact ih _ _ hi

/-- C2 (amended): in part_000's algebraic-identity pass the zero/one constant
is recognised on either operand side: each of `Add(x,0)`, `Add(0,x)`,
`Mul(x,1)`, `Mul(1,x)` is erased and every former use of its result observes
`x`.  In `TestPass.cpp`'s pass only the constant-in-operand-position-1 forms
`Add(x,0)` and `Mul(x,1)` are rewritten; `Add(0,x)` and `Mul(1,x)` with a
non-constant `x` are left untouched.  Moreover, after one run of either pass
no instruction matching that pass's own pattern remains anywhere in the
function. -/
theorem C2_amended_algebraic_identities (x : Value) (r p : Nat) :
    Part000.AlgebraicIdentityPass.run
        [[.binop r .add x (.const 0), .store (.reg r) (.arg p)]] =
      ([[.store x (.arg p)]], .none) ∧
    Part000.AlgebraicIdentityPass.run
        [[.binop r .add (.const 0) x, .store (.reg r) (.arg p)]] =
      ([[.store x (.arg p)]], .none) ∧
    Part000.AlgebraicIdentityPass.run
        [[.binop r .mul x (.const 1), .store (.reg r) (.arg p)]] =
      ([[.store x (.arg p)]], .none) ∧
    Part000.AlgebraicIdentityPass.run
        [[.binop r .mul (.const 1) x, .store (.reg r) (.arg p)]] =
      ([[.store x (.arg p)]], .none) ∧
    MyPasses.AlgebraicIdentityPass.run
        [[.binop r .add x (.const 0), .store (.reg r) (.arg p)]] =
      ([[.store x (.arg p)]], .none) ∧
    MyPasses.AlgebraicIdentityPass.run
        [[.binop r .mul x (.const 1), .store (.reg r) (.arg p)]] =
      ([[.store x (.arg p)]], .none) ∧
    MyPasses.AlgebraicIdentityPass.run
        [[.binop r .add (.const 0) (.arg p), .store (.reg r) (.arg p)]] =
      ([[.binop r .add (.const 0) (.arg p), .store (.reg r) (.arg p)]],
       .all) ∧
    MyPasses.AlgebraicIdentityPass.run
        [[.binop r .mul (.const 1) (.arg p), .store (.reg r) (.arg p)]] =
      ([[.binop r .mul (.const 1) (.arg p), .store (.reg r) (.arg p)]],
       .all) ∧
    (∀ F : Func, ∀ i ∈ ((Part000.AlgebraicIdentityPass.run F).1).flatten,
      Part000.AlgebraicIdentityPass.algMatch i = Option.none) ∧
    (∀ F : Func, ∀ i ∈ ((MyPasses.AlgebraicIdentityPass.run F).1).flatten,
      MyPasses.AlgebraicIdentityPass.algMatch i = Option.none) := by
  refine ⟨?_, ?_, ?_, ?_, ?_, ?_, ?_, ?_, ?_, ?_⟩
  · simp [Part000.AlgebraicIdentityPass.run,
      Part000.AlgebraicIdentityPass.scanBlocks,
      Part000.AlgebraicIdentityPass.scan,
      Part000.AlgebraicIdentityPass.algMatch, substI, substV]
  · by_cases hx : x = Value.const 0 <;>
      simp [hx, Part000.AlgebraicIdentityPass.run,
        Part000.AlgebraicIdentityPass.scanBlocks,
        Part000.AlgebraicIdentityPass.scan,
        Part000.AlgebraicIdentityPass.algMatch, substI, substV]
  · simp [Part000.AlgebraicIdentityPass.run,
      Part000.AlgebraicIdentityPass.scanBlocks,
      Part000.AlgebraicIdentityPass.scan,
      Part000.AlgebraicIdentityPass.algMatch, substI, substV]
  · by_cases hx : x = Value.const 1 <;>
      simp [hx, Part000.AlgebraicIdentityPass.run,
        Part000.AlgebraicIdentityPass.scanBlocks,
        Part000.AlgebraicIdentityPass.scan,
        Part000.AlgebraicIdentityPass.algMatch, substI, substV]
  · simp [MyPasses.AlgebraicIdentityPass.run,
      MyPasses.AlgebraicIdentityPass.scanBlocks,
      MyPasses.AlgebraicIdentityPass.scan,
      MyPasses.AlgebraicIdentityPass.algMatch, substI, substV]
  · simp [MyPasses.AlgebraicIdentityPass.run,
      MyPasses.AlgebraicIdentityPass.scanBlocks,
      MyPasses.AlgebraicIdentityPass.scan,
      MyPasses.AlgebraicIdentityPass.algMatch, substI, substV]
  · simp [MyPasses.AlgebraicIdentityPass.run,
      MyPasses.AlgebraicIdentityPass.scanBlocks,
      MyPasses.AlgebraicIdentityPass.scan,
      MyPasses.AlgebraicIdentityPass.algMatch]
  · simp [MyPasses.AlgebraicIdentityPass.run,
      MyPasses.AlgebraicIdentityPass.scanBlocks,
      MyPasses.AlgebraicIdentityPass.scan,
      MyPasses.AlgebraicIdentityPass.algMatch]
  · intro F i hi
    exact p0alg_blocks_exhaustive F [] i hi
  · intro F i hi
    exact mpalg_blocks_exhaustive F [] i hi

end ClaimC2

section ClaimC3

open IRModel

/-- C3 (amended): part_000's strength-reduction pass rewrites both
`Mul(x, 15)` and `Mul(15, x)` to `shifted = Shl(x, 4); result =
Sub(shifted, x)` inserted immediately before the original, with all uses
redirected to `result` and the original erased; `TestPass.cpp`'s pass does the
same but only for `Mul(x, 15)` with the constant in operand position 1 —
`Mul(15, x)` with non-constant `x` is left untouched.  Semantically, for every
width `w` with `4 < 2^w` and every `w`-bit integer `x`, the rewritten value
`(x << 4) - x` equals the original product `x * 15`. -/
theorem C3_amended_mul_fifteen_strength_reduction (x : Value) (r p f : Nat) :
    Part000.StrengthReductionPass.run f
        [[.binop r .mul x (.const 15), .store (.reg r) (.arg p)]] =
      ([[.binop f .shl x (.const 4), .binop (f + 1) .sub (.reg f) x,
         .store (.reg (f + 1)) (.arg p)]], .none) ∧
    Part000.StrengthReductionPass.run f
        [[.binop r .mul (.const 15) x, .store (.reg r) (.arg p)]] =
      ([[.binop f .shl x (.const 4), .binop (f + 1) .sub (.reg f) x,
         .store (.reg (f + 1)) (.arg p)]], .none) ∧
    MyPasses.StrengthReductionPass.run f
        [[.binop r .mul x (.const 15), .store (.reg r) (.arg p)]] =
      ([[.binop f .shl x (.const 4), .binop (f + 1) .sub (.reg f) x,
         .store (.reg (f + 1)) (.arg p)]], .none) ∧
    MyPasses.StrengthReductionPass.run f
        [[.binop r .mul (.const 15) (.arg p), .store (.reg r) (.arg p)]] =
      ([[.binop r .mul (.const 15) (.arg p), .store (.reg r) (.arg p)]],
       .all) ∧
    (∀ w : Nat, 4 < 2 ^ w → ∀ xv : ZMod (2 ^ w),
      denoteOp w .sub (denoteOp w .shl xv ((4 : Nat) : ZMod (2 ^ w))) xv
        = denoteOp w .mul xv ((15 : Nat) : ZMod (2 ^ w))) := by
  refine ⟨?_, ?_, ?_, ?_, ?_⟩
  · by_cases hx : x = Value.const 15 <;>
      simp [hx, Part000.StrengthReductionPass.run,
        Part000.StrengthReductionPass.scanBlocks,
        Part000.StrengthReductionPass.scan,
        Part000.StrengthReductionPass.srMatch, substI, substV]
  · by_cases hx : x = Value.const 15 <;>
      simp [hx, Part000.StrengthReductionPass.run,
        Part000.StrengthReductionPass.scanBlocks,
        Part000.StrengthReductionPass.scan,
        Part000.StrengthReductionPass.srMatch, substI, substV]
  · simp [MyPasses.StrengthReductionPass.run,
      MyPasses.StrengthReductionPass.scanBlocks,
      MyPasses.StrengthReductionPass.scan,
      MyPasses.StrengthReductionPass.srMatch, substI, substV]
  · simp [MyPasses.StrengthReductionPass.run,
      MyPasses.StrengthReductionPass.scanBlocks,
      MyPasses.StrengthReductionPass.scan,
      MyPasses.StrengthReductionPass.srMatch]
  · intro w hw xv
    haveI : NeZero (2 ^ w) := ⟨pow_ne_zero w two_ne_zero⟩
    simp only [denoteOp, ZMod.val_cast_of_lt hw]
    push_cast
    ring

/-- Witness for C3: at width 32 with `x = 3` the hypothesis `4 < 2^32` holds
and the rewritten sequence evaluates to `45 = 3 * 15`, via the theorem
applied at concrete inputs. -/
theorem C3_amended_mul_fifteen_strength_reduction_witness :
    Part000.StrengthReductionPass.run 10
        [[.binop 1 .mul (.arg 0) (.const 15), .store (.reg 1) (.arg 5)]] =
      ([[.binop 10 .shl (.arg 0) (.const 4), .binop 11 .sub (.reg 10) (.arg 0),
         .store (.reg 11) (.arg 5)]], .none) ∧
    (4 < 2 ^ 32 ∧
      denoteOp 32 .sub
          (denoteOp 32 .shl (3 : ZMod (2 ^ 32)) ((4 : Nat) : ZMod (2 ^ 32)))
          (3 : ZMod (2 ^ 32))
        = denoteOp 32 .mul (3 : ZMod (2 ^ 32)) ((15 : Nat) : ZMod (2 ^ 32))) ∧
    denoteOp 32 .mul (3 : ZMod (2 ^ 32)) ((15 : Nat) : ZMod (2 ^ 32)) = 45 :=
  ⟨(C3_amended_mul_fifteen_strength_reduction (.arg 0) 1 5 10).1,
   ⟨by norm_num,
    (C3_amended_mul_fifteen_strength_reduction (.arg 0) 1 5 10).2.2.2.2 32
      (by norm_num) 3⟩,
   by decide⟩

end ClaimC3

section ClaimC4

open IRModel

/-- C4 (amended): `TestPass.cpp`'s strength-reduction pass rewrites both
`SDiv(x, 8)` and `UDiv(x, 8)` to a logical right shift `LShr(x, 3)` (replacing
all uses and erasing the original); part_000's pass rewrites only `SDiv(x, 8)`
— to an arithmetic shift `AShr(x, 3)` — and leaves `UDiv(x, 8)` untouched.
Semantically, for every width `w` with `8 < 2^(w-1)` and every non-negative
`w`-bit `x` (i.e. `x.val < 2^(w-1)`), the unsigned quotient, the signed
quotient, the logical shift and the arithmetic shift all equal `x.val / 8`. -/
theorem C4_amended_div_eight_strength_reduction (x : Value) (r p f : Nat) :
    MyPasses.StrengthReductionPass.run f
        [[.binop r .sdiv x (.const 8), .store (.reg r) (.arg p)]] =
      ([[.binop f .lshr x (.const 3), .store (.reg f) (.arg p)]], .none) ∧
    MyPasses.StrengthReductionPass.run f
        [[.binop r .udiv x (.const 8), .store (.reg r) (.arg p)]] =
      ([[.binop f .lshr x (.const 3), .store (.reg f) (.arg p)]], .none) ∧
    Part000.StrengthReductionPass.run f
        [[.binop r .sdiv x (.const 8), .store (.reg r) (.arg p)]] =
      ([[.binop f .ashr x (.const 3), .store (.reg f) (.arg p)]], .none) ∧
    Part000.StrengthReductionPass.run f
        [[.binop r .udiv x (.const 8), .store (.reg r) (.arg p)]] =
      ([[.binop r .udiv x (.const 8), .store (.reg r) (.arg p)]], .none) ∧
    (∀ w : Nat, 8 < 2 ^ (w - 1) → ∀ xv : ZMod (2 ^ w),
      xv.val < 2 ^ (w - 1) →
      denoteOp w .udiv xv ((8 : Nat) : ZMod (2 ^ w))
          = ((xv.val / 8 : Nat) : ZMod (2 ^ w)) ∧
      denoteOp w .sdiv xv ((8 : Nat) : ZMod (2 ^ w))
          = ((xv.val / 8 : Nat) : ZMod (2 ^ w)) ∧
      denoteOp w .lshr xv ((3 : Nat) : ZMod (2 ^ w))
          = ((xv.val / 8 : Nat) : ZMod (2 ^ w)) ∧
      denoteOp w .ashr xv ((3 : Nat) : ZMod (2 ^ w))
          = ((xv.val / 8 : Nat) : ZMod (2 ^ w))) := by
  refine ⟨?_, ?_, ?_, ?_, ?_⟩
  · simp [MyPasses.StrengthReductionPass.run,
      MyPasses.StrengthReductionPass.scanBlocks,
      MyPasses.StrengthReductionPass.scan,
      MyPasses.StrengthReductionPass.srMatch, substI, substV]
  · simp [MyPasses.StrengthReductionPass.run,
      MyPasses.StrengthReductionPass.scanBlocks,
      MyPasses.StrengthReductionPass.scan,
      MyPasses.StrengthReductionPass.srMatch, substI, substV]
  · by_cases hx : x = Value.const 15 <;>
      simp [hx, Part000.StrengthReductionPass.run,
        Part000.StrengthReductionPass.scanBlocks,
        Part000.StrengthReductionPass.scan,
        Part000.StrengthReductionPass.srMatch, substI, substV]
  · simp [Part000.StrengthReductionPass.run,
      Part000.StrengthReductionPass.scanBlocks,
      Part000.StrengthReductionPass.scan,
      Part000.StrengthReductionPass.srMatch, substI, substV]
  · intro w hw xv hx
    haveI : NeZero (2 ^ w) := ⟨pow_ne_zero w two_ne_zero⟩
    have hle : (2 : Nat) ^ (w - 1) ≤ 2 ^ w :=
      Nat.pow_le_pow_right (by norm_num) (Nat.sub_le w 1)
    have h8 : 8 < 2 ^ w := lt_of_lt_of_le hw hle
    have h3 : 3 < 2 ^ w := lt_trans (by norm_num) h8
    have hv8 : ((8 : Nat) : ZMod (2 ^ w)).val = 8 := ZMod.val_cast_of_lt h8
    have hv3 : ((3 : Nat) : ZMod (2 ^ w)).val = 3 := ZMod.val_cast_of_lt h3
    have t1 : toSInt w xv = (xv.val : Int) := by
      unfold toSInt
      rw [if_pos hx]
    have t2 : toSInt w ((8 : Nat) : ZMod (2 ^ w)) = ((8 : Nat) : Int) := by
      unfold toSInt
      rw [hv8, if_pos hw]
    refine ⟨?_, ?_, ?_, ?_⟩
    · simp only [denoteOp]
      rw [hv8]
    · have ht : Int.tdiv (xv.val : Int) ((8 : Nat) : Int)
          = ((xv.val / 8 : Nat) : Int) := rfl
      simp only [denoteOp]
      rw [t1, t2, ht, Int.cast_natCast]
    · simp only [denoteOp]
      rw [hv3]
      norm_num
    · have hf : Int.fdiv (xv.val : Int) ((2 ^ 3 : Nat) : Int)
          = ((xv.val / 8 : Nat) : Int) := by
        rw [Int.fdiv_eq_ediv _ (by positivity)]
        exact_mod_cast rfl
      simp only [denoteOp]
      rw [t1, hv3, hf, Int.cast_natCast]

/-- Witness for C4: at width 32 with `x = 40` all hypotheses hold and the
rewritten shift evaluates to `5 = 40 / 8`, via the theorem applied at concrete
inputs. -/
theorem C4_amended_div_eight_strength_reduction_witness :
    MyPasses.StrengthReductionPass.run 10
        [[.binop 1 .udiv (.arg 0) (.const 8), .store (.reg 1) (.arg 5)]] =
      ([[.binop 10 .lshr (.arg 0) (.const 3), .store (.reg 10) (.arg 5)]],
       .none) ∧
    (8 < 2 ^ (32 - 1) ∧ (40 : ZMod (2 ^ 32)).val < 2 ^ (32 - 1) ∧
      denoteOp 32 .udiv (40 : ZMod (2 ^ 32)) ((8 : Nat) : ZMod (2 ^ 32))
        = (((40 : ZMod (2 ^ 32)).val / 8 : Nat) : ZMod (2 ^ 32))) ∧
    denoteOp 32 .lshr (40 : ZMod (2 ^ 32)) ((3 : Nat) : ZMod (2 ^ 32)) = 5 :=
  ⟨(C4_amended_div_eight_strength_reduction (.arg 0) 1 5 10).2.1,
   ⟨by norm_num, by decide,
    ((C4_amended_div_eight_strength_reduction (.arg 0) 1 5 10).2.2.2.2 32
      (by norm_num) 40 (by decide)).1⟩,
   by decide⟩

end ClaimC4

section ClaimC5

open IRModel

theorem mpalg_scan_nochange (B : List Instr)
    (h : (MyPasses.AlgebraicIdentityPass.scan [] B).2.2 = false) :
    MyPasses.AlgebraicIdentityPass.scan [] B = (B, [], false) := by
  induction B with
  | nil => rfl
  | cons j rest ih =>
      rcases hm : MyPasses.AlgebraicIdentityPass.algMatch j with _ | rv
      · rw [MyPasses.AlgebraicIdentityPass.scan] at h ⊢
        simp only [applyI_nil, hm] at h ⊢
        rw [ih h]
      · rw [MyPasses.AlgebraicIdentityPass.scan] at h
        simp only [applyI_nil, hm] at h
        exact absurd h (by simp)

theorem mpalg_scan_len_le (B : List Instr) : ∀ σ : Subs,
    (MyPasses.AlgebraicIdentityPass.scan σ B).1.length ≤ B.length := by
  induction B with
  | nil => intro σ; simp [MyPasses.AlgebraicIdentityPass.scan]
  | cons j rest ih =>
      intro σ
      rcases hm : MyPasses.AlgebraicIdentityPass.algMatch (applyI σ j)
        with _ | rv
      · rw [MyPasses.AlgebraicIdentityPass.scan]
        simp only [hm, List.length_cons]
        exact Nat.succ_le_succ (ih σ)
      · rw [MyPasses.AlgebraicIdentityPass.scan]
        simp only [hm, List.length_cons]
        exact Nat.le_succ_of_le (ih _)

theorem mpalg_scan_len_lt (B : List Instr) : ∀ σ : Subs,
    (MyPasses.AlgebraicIdentityPass.scan σ B).2.2 = true →
    (MyPasses.AlgebraicIdentityPass.scan σ B).1.length < B.length := by
  induction B with
  | nil => intro σ h; simp [MyPasses.AlgebraicIdentityPass.scan] at h
  | cons j rest ih =>
      intro σ h
      rcases hm : MyPasses.AlgebraicIdentityPass.algMatch (applyI σ j)
        with _ | rv
      · rw [MyPasses.AlgebraicIdentityPass.scan] at h ⊢
        simp only [hm, List.length_cons] at h ⊢
        exact Nat.succ_lt_succ (ih σ h)
      · rw [MyPasses.AlgebraicIdentityPass.scan]
        simp only [hm, List.length_cons]
        exact Nat.lt_succ_of_le (mpalg_scan_len_le rest _)

theorem mpalg_blocks_nochange (F : Func)
    (h : (MyPasses.AlgebraicIdentityPass.scanBlocks [] F).2.2 = false) :
    MyPasses.AlgebraicIdentityPass.scanBlocks [] F = (F, [], false) := by
  induction F with
  | nil => rfl
  | cons B Bs ih =>
      rw [MyPasses.AlgebraicIdentityPass.scanBlocks] at h ⊢
      rcases hb : (MyPasses.AlgebraicIdentityPass.scan [] B).2.2 with _ | _
      · have hB := mpalg_scan_nochange B hb
        rw [hB] at h ⊢
        simp only [Bool.false_or] at h ⊢
        rw [ih h]
      · rw [hb] at h
        simp at h

theorem mpalg_blocks_changed_ne (F : Func)
    (h : (MyPasses.AlgebraicIdentityPass.scanBlocks [] F).2.2 = true) :
    (MyPasses.AlgebraicIdentityPass.scanBlocks [] F).1 ≠ F := by
  induction F with
  | nil => simp [MyPasses.AlgebraicIdentityPass.scanBlocks] at h
  | cons B Bs ih =>
      rw [MyPasses.AlgebraicIdentityPass.scanBlocks] at h ⊢
      intro heq
      simp only [List.cons.injEq] at heq
      rcases hb : (MyPasses.AlgebraicIdentityPass.scan [] B).2.2 with _ | _
      · have hB := mpalg_scan_nochange B hb
        rw [hB] at h heq
        simp only [Bool.false_or] at h
        exact ih h heq.2
      · have := mpalg_scan_len_lt B [] hb
        rw [heq.1] at this
        exact lt_irrefl _ this

theorem mpmulti_scan_nochange (pre : List Instr) (post : Func) :
    ∀ (σ : Subs) (done todo : List Instr),
    (MyPasses.MultiInstructionOptPass.scan pre post σ done todo).2.2
      = false →
    MyPasses.MultiInstructionOptPass.scan pre post σ done todo
      = (done ++ todo.map (applyI σ), σ, false) := by
  intro σ done todo
  induction σ, done, todo
    using MyPasses.MultiInstructionOptPass.scan.induct pre post
  all_goals intro h
  all_goals simp_all [MyPasses.MultiInstructionOptPass.scan]

@[simp] theorem map_applyI_nil : ∀ B : List Instr, B.map (applyI []) = B := by
  intro B
  induction B with
  | nil => rfl
  | cons i rest ih => simp [ih]

theorem mpmulti_scan_len (pre : List Instr) (post : Func) :
    ∀ (σ : Subs) (done todo : List Instr),
    (MyPasses.MultiInstructionOptPass.scan pre post σ done todo).1.length
        + (cond (MyPasses.MultiInstructionOptPass.scan pre post σ done
            todo).2.2 1 0)
      ≤ done.length + todo.length := by
  intro σ done todo
  induction σ, done, todo
    using MyPasses.MultiInstructionOptPass.scan.induct pre post
  all_goals simp_all [MyPasses.MultiInstructionOptPass.scan]
  all_goals omega

theorem mpmulti_blocks_nochange (F : Func) : ∀ pre : List Instr,
    (MyPasses.MultiInstructionOptPass.scanBlocks pre [] F).2.2 = false →
    MyPasses.MultiInstructionOptPass.scanBlocks pre [] F = (F, [], false) := by
  induction F with
  | nil => intro pre h; rfl
  | cons B Bs ih =>
      intro pre h
      rw [MyPasses.MultiInstructionOptPass.scanBlocks] at h ⊢
      rcases hb : (MyPasses.MultiInstructionOptPass.scan pre Bs [] [] B).2.2
        with _ | _
      · have hB := mpmulti_scan_nochange pre Bs [] [] B hb
        simp only [map_applyI_nil, List.nil_append] at hB
        rw [hB] at h ⊢
        simp only [Bool.false_or] at h ⊢
        rw [ih _ h]
      · rw [hb] at h
        simp at h

theorem mpmulti_blocks_changed_ne (F : Func) : ∀ pre : List Instr,
    (MyPasses.MultiInstructionOptPass.scanBlocks pre [] F).2.2 = true →
    (MyPasses.MultiInstructionOptPass.scanBlocks pre [] F).1 ≠ F := by
  induction F with
  | nil => intro pre h; simp [MyPasses.MultiInstructionOptPass.scanBlocks] at h
  | cons B Bs ih =>
      intro pre h heq
      rw [MyPasses.MultiInstructionOptPass.scanBlocks] at h heq
      simp only [List.cons.injEq] at heq
      rcases hb : (MyPasses.MultiInstructionOptPass.scan pre Bs [] [] B).2.2
        with _ | _
      · have hB := mpmulti_scan_nochange pre Bs [] [] B hb
        simp only [map_applyI_nil, List.nil_append] at hB
        rw [hB] at h heq
        simp only [Bool.false_or] at h
        exact ih _ h heq.2
      · have hlen := mpmulti_scan_len pre Bs [] [] B
        rw [hb] at hlen
        simp only [cond_true, List.length_nil, Nat.zero_add] at hlen
        rw [heq.1] at hlen
        omega

/-- `TestPass.cpp`'s multi-instruction pass: all analyses are reported
preserved iff the function is returned unchanged. -/
theorem mpmulti_run_all_iff (F : Func) :
    (MyPasses.MultiInstructionOptPass.run F).2 = .all ↔
      (MyPasses.MultiInstructionOptPass.run F).1 = F := by
  unfold MyPasses.MultiInstructionOptPass.run
  rcases hc : (MyPasses.MultiInstructionOptPass.scanBlocks [] [] F).2.2
    with _ | _
  · simp only [hc, if_false, Bool.false_eq_true]
    have := mpmulti_blocks_nochange F [] hc
    rw [this]
    simp
  · simp only [hc, if_true]
    constructor
    · intro h; exact absurd h (by simp)
    · intro h; exact absurd h (mpmulti_blocks_changed_ne F [] hc)

theorem mpsr_scan_nochange (B : List Instr) : ∀ fresh : Nat,
    (MyPasses.StrengthReductionPass.scan fresh [] B).2.2.1 = false →
    MyPasses.StrengthReductionPass.scan fresh [] B = (B, [], false, fresh) := by
  induction B with
  | nil => intro fresh h; rfl
  | cons j rest ih =>
      intro fresh h
      rcases hm : MyPasses.StrengthReductionPass.srMatch j with _ | act
      · rw [MyPasses.StrengthReductionPass.scan] at h ⊢
        simp only [applyI_nil, hm] at h ⊢
        rw [ih fresh h]
      · rcases act with ⟨r, x⟩ | ⟨r, x⟩ <;>
          · rw [MyPasses.StrengthReductionPass.scan] at h
            simp only [applyI_nil, hm] at h
            exact absurd h (by simp)

theorem mpsr_scan_exhaustive (B : List Instr) : ∀ (fresh : Nat) (σ : Subs),
    ∀ i ∈ (MyPasses.StrengthReductionPass.scan fresh σ B).1,
      MyPasses.StrengthReductionPass.srMatch i = Option.none := by
  induction B with
  | nil =>
      intro fresh σ i hi
      simp [MyPasses.StrengthReductionPass.scan] at hi
  | cons j rest ih =>
      intro fresh σ i hi
      rcases hm : MyPasses.StrengthReductionPass.srMatch (applyI σ j)
        with _ | act
      · rw [MyPasses.StrengthReductionPass.scan, hm] at hi
        simp only [List.mem_cons] at hi
        rcases hi with hi | hi
        · subst hi; exact hm
        · exact ih _ _ _ hi
      · rcases act with ⟨r, x⟩ | ⟨r, x⟩
        · rw [MyPasses.StrengthReductionPass.scan, hm] at hi
          simp only [List.mem_cons] at hi
          rcases hi with hi | hi
          · subst hi; rfl
          rcases hi with hi | hi
          · subst hi; rfl
          · exact ih _ _ _ hi
        · rw [MyPasses.StrengthReductionPass.scan, hm] at hi
          simp only [List.mem_cons] at hi
          rcases hi with hi | hi
          · subst hi; rfl
          · exact ih _ _ _ hi

theorem mpsr_scan_trigger (B : List Instr) : ∀ fresh : Nat,
    (MyPasses.StrengthReductionPass.scan fresh [] B).2.2.1 = true →
    ∃ i ∈ B, (MyPasses.StrengthReductionPass.srMatch i).isSome = true := by
  induction B with
  | nil => intro fresh h; simp [MyPasses.StrengthReductionPass.scan] at h
  | cons j rest ih =>
      intro fresh h
      rcases hm : MyPasses.StrengthReductionPass.srMatch j with _ | act
      · rw [MyPasses.StrengthReductionPass.scan] at h
        simp only [applyI_nil, hm] at h
        obtain ⟨i, hiB, hit⟩ := ih fresh h
        exact ⟨i, List.mem_cons_of_mem _ hiB, hit⟩
      · exact ⟨j, List.mem_cons_self _ _, by rw [hm]; rfl⟩

theorem mpsr_scan_changed_ne (B : List Instr) (fresh : Nat)
    (h : (MyPasses.StrengthReductionPass.scan fresh [] B).2.2.1 = true) :
    (MyPasses.StrengthReductionPass.scan fresh [] B).1 ≠ B := by
  intro heq
  obtain ⟨i, hiB, hit⟩ := mpsr_scan_trigger B fresh h
  have hmem : i ∈ (MyPasses.StrengthReductionPass.scan fresh [] B).1 := by
    rw [heq]; exact hiB
  have hnone := mpsr_scan_exhaustive B fresh [] i hmem
  rw [hnone] at hit
  simp at hit

theorem mpsr_blocks_nochange (F : Func) : ∀ fresh : Nat,
    (MyPasses.StrengthReductionPass.scanBlocks fresh [] F).2.2.1 = false →
    MyPasses.StrengthReductionPass.scanBlocks fresh [] F
      = (F, [], false, fresh) := by
  induction F with
  | nil => intro fresh h; rfl
  | cons B Bs ih =>
      intro fresh h
      rw [MyPasses.StrengthReductionPass.scanBlocks] at h ⊢
      rcases hb : (MyPasses.StrengthReductionPass.scan fresh [] B).2.2.1
        with _ | _
      · have hB := mpsr_scan_nochange B fresh hb
        rw [hB] at h ⊢
        simp only [Bool.false_or] at h ⊢
        rw [ih _ h]
      · rw [hb] at h
        simp at h

theorem mpsr_blocks_changed_ne (F : Func) : ∀ fresh : Nat,
    (MyPasses.StrengthReductionPass.scanBlocks fresh [] F).2.2.1 = true →
    (MyPasses.StrengthReductionPass.scanBlocks fresh [] F).1 ≠ F := by
  induction F with
  | nil => intro fresh h; simp [MyPasses.StrengthReductionPass.scanBlocks] at h
  | cons B Bs ih =>
      intro fresh h heq
      rw [MyPasses.StrengthReductionPass.scanBlocks] at h heq
      simp only [List.cons.injEq] at heq
      rcases hb : (MyPasses.StrengthReductionPass.scan fresh [] B).2.2.1
        with _ | _
      · have hB := mpsr_scan_nochange B fresh hb
        rw [hB] at h heq
        simp only [Bool.false_or] at h
        exact ih _ h heq.2
      · exact mpsr_scan_changed_ne B fresh hb heq.1

/-- `TestPass.cpp`'s strength-reduction pass: all analyses are reported
preserved iff the function is returned unchanged. -/
theorem mpsr_run_all_iff (fresh : Nat) (F : Func) :
    (MyPasses.StrengthReductionPass.run fresh F).2 = .all ↔
      (MyPasses.StrengthReductionPass.run fresh F).1 = F := by
  unfold MyPasses.StrengthReductionPass.run
  rcases hc : (MyPasses.StrengthReductionPass.scanBlocks fresh [] F).2.2.1
    with _ | _
  · simp only [hc, if_false, Bool.false_eq_true]
    have := mpsr_blocks_nochange F fresh hc
    rw [this]
    simp
  · simp only [hc, if_true]
    constructor
    · intro h; exact absurd h (by simp)
    · intro h; exact absurd h (mpsr_blocks_changed_ne F fresh hc)

/-- `TestPass.cpp`'s algebraic pass: all analyses are reported preserved iff
the function is returned unchanged. -/
theorem mpalg_run_all_iff (F : Func) :
    (MyPasses.AlgebraicIdentityPass.run F).2 = .all ↔
      (MyPasses.AlgebraicIdentityPass.run F).1 = F := by
  unfold MyPasses.AlgebraicIdentityPass.run
  rcases hc : (MyPasses.AlgebraicIdentityPass.scanBlocks [] F).2.2 with _ | _
  · simp only [hc, if_false, Bool.false_eq_true]
    have := mpalg_blocks_nochange F hc
    rw [this]
    simp
  · simp only [hc, if_true]
    constructor
    · intro h; exact absurd h (by simp)
    · intro h; exact absurd h (mpalg_blocks_changed_ne F hc)

/-- C5 (amended): for `TestPass.cpp`'s three passes, `run` reports that no
analyses are preserved iff a rewrite occurred — equivalently, it reports all
analyses preserved iff the function is returned unchanged.  part_000's three
passes, however, return `PreservedAnalyses::none()` unconditionally: even when
no instruction matched they report that no analyses are preserved. -/
theorem C5_amended_changed_reporting :
    (∀ F : Func, (MyPasses.AlgebraicIdentityPass.run F).2 = .all ↔
      (MyPasses.AlgebraicIdentityPass.run F).1 = F) ∧
    (∀ (fresh : Nat) (F : Func),
      (MyPasses.StrengthReductionPass.run fresh F).2 = .all ↔
        (MyPasses.StrengthReductionPass.run fresh F).1 = F) ∧
    (∀ F : Func, (MyPasses.MultiInstructionOptPass.run F).2 = .all ↔
      (MyPasses.MultiInstructionOptPass.run F).1 = F) ∧
    (∀ F : Func, (Part000.AlgebraicIdentityPass.run F).2 = .none) ∧
    (∀ (fresh : Nat) (F : Func),
      (Part000.StrengthReductionPass.run fresh F).2 = .none) ∧
    (∀ F : Func, (Part000.MultiInstructionOptimizationPass.run F).2 = .none) :=
  ⟨mpalg_run_all_iff, mpsr_run_all_iff, mpmulti_run_all_iff,
   fun _ => rfl, fun _ _ => rfl, fun _ => rfl⟩

end ClaimC5

namespace IRModel

/-- Register ids mentioned by an operand. -/
def Value.regsOf : Value → List Nat
  | .reg n => [n]
  | _ => []

/-- Operand slots of an instruction (every use the instruction holds). -/
def Instr.useVals : Instr → List Value
  | .binop _ _ a b => [a, b]
  | .store v p => [v, p]
  | .load _ p => [p]

/-- Register ids used by an instruction's operands. -/
def Instr.useRegs (i : Instr) : List Nat := (i.useVals.map Value.regsOf).flatten

/-- Well-formedness scan of straight-line code, with `D` the ids already
defined: every register use refers to an already defined id (def before use)
and no id is defined twice.  Returns the extended definition context on
success.  This is the SSA discipline LLVM IR guarantees and the spec's data
model assumes. -/
def wfScan (D : List Nat) : List Instr → Option (List Nat)
  | [] => some D
  | i :: rest =>
      if i.useRegs.all (fun n => D.contains n) then
        match i.defId with
        | some d =>
            if D.contains d then Option.none else wfScan (d :: D) rest
        | Option.none => wfScan D rest
      else Option.none

/-- Well-formedness of a function: blocks in order, definitions threaded
(straight-line view, as all matched patterns are intra-block). -/
def wfBlocks (D : List Nat) : Func → Option (List Nat)
  | [] => some D
  | B :: Bs =>
      match wfScan D B with
      | some D2 => wfBlocks D2 Bs
      | Option.none => Option.none

/-- Decidable well-formedness of a function. -/
def WF (F : Func) : Bool := (wfBlocks [] F).isSome

theorem Instr.kind_store_inv {i : Instr} (h : i.kind = .store) :
    ∃ v p, i = .store v p := by
  cases i with
  | store v p => exact ⟨v, p, rfl⟩
  | binop a b c d => simp [Instr.kind] at h
  | load a b => simp [Instr.kind] at h

theorem Instr.kind_load_inv {i : Instr} (h : i.kind = .load) :
    ∃ l p, i = .load l p := by
  cases i with
  | load l p => exact ⟨l, p, rfl⟩
  | binop a b c d => simp [Instr.kind] at h
  | store a b => simp [Instr.kind] at h

theorem Instr.kind_binop_inv {i : Instr} {op : Opcode}
    (h : i.kind = .binop op) : ∃ n a b, i = .binop n op a b := by
  cases i with
  | binop n o a b =>
      simp only [Instr.kind, IKind.binop.injEq] at h
      exact ⟨n, a, b, by rw [h]⟩
  | store a b => simp [Instr.kind] at h
  | load a b => simp [Instr.kind] at h

end IRModel

section ClaimC8

open IRModel

/-- Behaviour of part_000's combiner scan at a list head that does not open a
4-instruction `Add`/`Store`/`Load`/`Sub` window: the head is emitted and the
scan continues on the tail. -/
theorem p0m_scan_catchall (i : Instr) (rest : List Instr)
    (h : ∀ (aId : Nat) (x y sv sp : Value) (lId : Nat) (lp : Value)
        (sId : Nat) (s0 s1 : Value) (more : List Instr),
        i = Instr.binop aId .add x y →
        rest = Instr.store sv sp :: Instr.load lId lp ::
          Instr.binop sId .sub s0 s1 :: more → False) :
    Part000.MultiInstructionOptimizationPass.scan (i :: rest)
      = (i :: (Part000.MultiInstructionOptimizationPass.scan rest).1,
         (Part000.MultiInstructionOptimizationPass.scan rest).2) := by
  rcases i with ⟨aId, op, x, y⟩ | ⟨v, p⟩ | ⟨l, p⟩
  case store => simp [Part000.MultiInstructionOptimizationPass.scan]
  case load => simp [Part000.MultiInstructionOptimizationPass.scan]
  case binop =>
    cases op
    case sub => simp [Part000.MultiInstructionOptimizationPass.scan]
    case mul => simp [Part000.MultiInstructionOptimizationPass.scan]
    case sdiv => simp [Part000.MultiInstructionOptimizationPass.scan]
    case udiv => simp [Part000.MultiInstructionOptimizationPass.scan]
    case shl => simp [Part000.MultiInstructionOptimizationPass.scan]
    case lshr => simp [Part000.MultiInstructionOptimizationPass.scan]
    case ashr => simp [Part000.MultiInstructionOptimizationPass.scan]
    case add =>
      rcases rest with _ | ⟨i1, rest1⟩
      · simp [Part000.MultiInstructionOptimizationPass.scan]
      rcases i1 with ⟨n1, op1, a1, b1⟩ | ⟨sv, sp⟩ | ⟨l1, p1⟩
      case binop => simp [Part000.MultiInstructionOptimizationPass.scan]
      case load => simp [Part000.MultiInstructionOptimizationPass.scan]
      case store =>
        rcases rest1 with _ | ⟨i2, rest2⟩
        · simp [Part000.MultiInstructionOptimizationPass.scan]
        rcases i2 with ⟨n2, op2, a2, b2⟩ | ⟨v2, p2⟩ | ⟨lId, lp⟩
        case binop => simp [Part000.MultiInstructionOptimizationPass.scan]
        case store => simp [Part000.MultiInstructionOptimizationPass.scan]
        case load =>
          rcases rest2 with _ | ⟨i3, rest3⟩
          · simp [Part000.MultiInstructionOptimizationPass.scan]
          rcases i3 with ⟨sId, op3, s0, s1⟩ | ⟨v3, p3⟩ | ⟨l3, p3⟩
          case store => simp [Part000.MultiInstructionOptimizationPass.scan]
          case load => simp [Part000.MultiInstructionOptimizationPass.scan]
          case binop =>
            cases op3
            case add => simp [Part000.MultiInstructionOptimizationPass.scan]
            case mul => simp [Part000.MultiInstructionOptimizationPass.scan]
            case sdiv => simp [Part000.MultiInstructionOptimizationPass.scan]
            case udiv => simp [Part000.MultiInstructionOptimizationPass.scan]
            case shl => simp [Part000.MultiInstructionOptimizationPass.scan]
            case lshr => simp [Part000.MultiInstructionOptimizationPass.scan]
            case ashr => simp [Part000.MultiInstructionOptimizationPass.scan]
            case sub =>
              exact absurd (h aId x y sv sp lId lp sId s0 s1 rest3 rfl rfl)
                (fun hf => hf)

theorem addOneOperand_mem {x y b : Value}
    (h : Part000.MultiInstructionOptimizationPass.addOneOperand x y = some b) :
    b = x ∨ b = y := by
  unfold Part000.MultiInstructionOptimizationPass.addOneOperand at h
  split at h
  · split at h
    · exact Or.inl (Option.some.inj h).symm
    · exact absurd h (by simp)
  · split at h
    · split at h
      · exact Or.inr (Option.some.inj h).symm
      · exact absurd h (by simp)
    · exact absurd h (by simp)

theorem wfScan_tail {D : List Nat} {i : Instr} {rest : List Instr}
    (h : (wfScan D (i :: rest)).isSome = true) :
    ∃ D2, (wfScan D2 rest).isSome = true := by
  rw [wfScan] at h
  split at h
  · split at h
    · split at h
      · simp at h
      · exact ⟨_, h⟩
    · exact ⟨_, h⟩
  · simp at h

theorem wfScan_cons {D : List Nat} {i : Instr} {rest : List Instr}
    (h : (wfScan D (i :: rest)).isSome = true) :
    i.useRegs.all (fun n => D.contains n) = true ∧
    (match i.defId with
     | some d => D.contains d = false ∧ (wfScan (d :: D) rest).isSome = true
     | Option.none => (wfScan D rest).isSome = true) := by
  rw [wfScan] at h
  split at h
  case isTrue h1 =>
    refine ⟨h1, ?_⟩
    split at h
    next d hd =>
      split at h
      case isTrue => simp at h
      case isFalse hdup =>
        refine ⟨?_, h⟩
        simpa using hdup
    next hd => exact h
  case isFalse h1 => simp at h

theorem wf_window {D : List Nat} {aId lId sId : Nat}
    {x y sv sp lp s0 s1 : Value} {more : List Instr}
    (h : (wfScan D (Instr.binop aId .add x y :: Instr.store sv sp ::
      Instr.load lId lp :: Instr.binop sId .sub s0 s1 :: more)).isSome
        = true) :
    ((Value.regsOf x ++ Value.regsOf y).all (fun n => D.contains n) = true) ∧
    ((aId :: D).contains lId = false) ∧
    (∃ D2, (wfScan D2 more).isSome = true) := by
  obtain ⟨hu1, h1⟩ := wfScan_cons h
  simp only [Instr.defId] at h1
  obtain ⟨hdup1, h1⟩ := h1
  obtain ⟨hu2, h2⟩ := wfScan_cons h1
  simp only [Instr.defId] at h2
  obtain ⟨hu3, h3⟩ := wfScan_cons h2
  simp only [Instr.defId] at h3
  obtain ⟨hdup3, h3⟩ := h3
  obtain ⟨hu4, h4⟩ := wfScan_cons h3
  simp only [Instr.defId] at h4
  obtain ⟨hdup4, h4⟩ := h4
  refine ⟨?_, ?_, ⟨_, h4⟩⟩
  · simpa [Instr.useRegs, Instr.useVals] using hu1
  · simpa using hdup3

theorem window_b_ne_load {D : List Nat} {x y b : Value} {aId lId : Nat}
    (hb : Part000.MultiInstructionOptimizationPass.addOneOperand x y = some b)
    (hall : (Value.regsOf x ++ Value.regsOf y).all
      (fun n => D.contains n) = true)
    (hl : (aId :: D).contains lId = false) : b ≠ Value.reg lId := by
  intro hbe
  subst hbe
  have hmem : lId ∈ Value.regsOf x ++ Value.regsOf y := by
    rcases addOneOperand_mem hb with hxy | hxy
    · rw [List.mem_append]
      exact Or.inl (by rw [← hxy]; simp [Value.regsOf])
    · rw [List.mem_append]
      exact Or.inr (by rw [← hxy]; simp [Value.regsOf])
  rw [List.all_eq_true] at hall
  have hc := hall lId hmem
  simp only [List.contains_cons, Bool.or_eq_false_iff] at hl
  rw [hl.2] at hc
  exact absurd hc (by simp)

theorem p0multi_scan_idem (B : List Instr) : ∀ D : List Nat,
    (wfScan D B).isSome = true →
    Part000.MultiInstructionOptimizationPass.scan
        (Part000.MultiInstructionOptimizationPass.scan B).1
      = ((Part000.MultiInstructionOptimizationPass.scan B).1, false) := by
  induction B using Part000.MultiInstructionOptimizationPass.scan.induct with
  | case1 aId x y sv sp lId lp sId s0 s1 more b hb hcond ih =>
      intro D hwf
      obtain ⟨hall, hlod, D2, hwf2⟩ := wf_window hwf
      have hbne : b ≠ Value.reg lId := window_b_ne_load hb hall hlod
      rw [Part000.MultiInstructionOptimizationPass.scan]
      simp only [hb, if_pos hcond]
      obtain ⟨hc1, hc2, hc3, hc4⟩ := hcond
      rw [Part000.MultiInstructionOptimizationPass.scan]
      simp only [hb]
      rw [if_neg (by
        intro hcc
        exact hbne hcc.2.2.1)]
      rw [ih D2 hwf2]
  | case2 aId x y sv sp lId lp sId s0 s1 more b hb hcond ih =>
      intro D hwf
      obtain ⟨hall, hlod, D2, hwf2⟩ := wf_window hwf
      rw [Part000.MultiInstructionOptimizationPass.scan]
      simp only [hb, if_neg hcond]
      rw [Part000.MultiInstructionOptimizationPass.scan]
      simp only [hb]
      rw [if_neg hcond]
      rw [ih D2 hwf2]
  | case3 aId x y sv sp lId lp sId s0 s1 more hb ih =>
      intro D hwf
      obtain ⟨hall, hlod, D2, hwf2⟩ := wf_window hwf
      rw [Part000.MultiInstructionOptimizationPass.scan]
      simp only [hb]
      rw [Part000.MultiInstructionOptimizationPass.scan]
      simp only [hb]
      rw [ih D2 hwf2]
  | case4 i rest h ih =>
      intro D hwf
      obtain ⟨D2, hwf2⟩ := wfScan_tail hwf
      rw [p0m_scan_catchall i rest h]
      rw [p0m_scan_catchall i (Part000.MultiInstructionOptimizationPass.scan
        rest).1 ?_]
      · rw [ih D2 hwf2]
      · intro aId x y sv sp lId lp sId s0 s1 more2 hi hrest2
        have hk := p0multi_scan_kinds rest
        rw [hrest2] at hk
        simp only [List.map_cons, Instr.kind] at hk
        rcases rest with _ | ⟨r1, t1⟩
        · simp at hk
        rcases t1 with _ | ⟨r2, t2⟩
        · rw [List.map_cons] at hk
          simp at hk
        rcases t2 with _ | ⟨r3, t3⟩
        · rw [List.map_cons, List.map_cons] at hk
          simp at hk
        simp only [List.map_cons, List.cons.injEq] at hk
        obtain ⟨hk1, hk2, hk3, hk4⟩ := hk
        obtain ⟨v1, p1, he1⟩ := Instr.kind_store_inv hk1.symm
        obtain ⟨l2, p2, he2⟩ := Instr.kind_load_inv hk2.symm
        obtain ⟨n3, a3, b3, he3⟩ := Instr.kind_binop_inv hk3.symm
        exact h aId x y v1 p1 l2 p2 n3 a3 b3 t3 hi
          (by rw [he1, he2, he3])
  | case5 =>
      intro D hwf
      rfl

theorem p0multi_blocks_idem (F : Func) : ∀ D : List Nat,
    (wfBlocks D F).isSome = true →
    Part000.MultiInstructionOptimizationPass.scanBlocks
        (Part000.MultiInstructionOptimizationPass.scanBlocks F).1
      = ((Part000.MultiInstructionOptimizationPass.scanBlocks F).1, false) := by
  induction F with
  | nil => intro D h; rfl
  | cons B Bs ih =>
      intro D h
      rw [wfBlocks] at h
      split at h
      next D2 hD2 =>
        have hB := p0multi_scan_idem B D (by rw [hD2]; rfl)
        rw [Part000.MultiInstructionOptimizationPass.scanBlocks,
          Part000.MultiInstructionOptimizationPass.scanBlocks, hB,
          ih D2 h]
        rfl
      next => simp at h

theorem p0alg_scan_clean (B : List Instr)
    (h : ∀ i ∈ B, Part000.AlgebraicIdentityPass.algMatch i = Option.none) :
    Part000.AlgebraicIdentityPass.scan [] B = (B, [], false) := by
  induction B with
  | nil => rfl
  | cons j rest ih =>
      rw [Part000.AlgebraicIdentityPass.scan]
      simp only [applyI_nil, h j (List.mem_cons_self _ _)]
      rw [ih (fun i hi => h i (List.mem_cons_of_mem _ hi))]

theorem p0alg_blocks_clean (F : Func)
    (h : ∀ i ∈ F.flatten, Part000.AlgebraicIdentityPass.algMatch i
      = Option.none) :
    Part000.AlgebraicIdentityPass.scanBlocks [] F = (F, [], false) := by
  induction F with
  | nil => rfl
  | cons B Bs ih =>
      rw [Part000.AlgebraicIdentityPass.scanBlocks]
      rw [p0alg_scan_clean B (fun i hi => h i (by simp [hi]))]
      rw [ih (fun i hi => h i (by simp [hi]))]
      rfl

theorem mpalg_scan_clean (B : List Instr)
    (h : ∀ i ∈ B, MyPasses.AlgebraicIdentityPass.algMatch i = Option.none) :
    MyPasses.AlgebraicIdentityPass.scan [] B = (B, [], false) := by
  induction B with
  | nil => rfl
  | cons j rest ih =>
      rw [MyPasses.AlgebraicIdentityPass.scan]
      simp only [applyI_nil, h j (List.mem_cons_self _ _)]
      rw [ih (fun i hi => h i (List.mem_cons_of_mem _ hi))]

theorem mpalg_blocks_clean (F : Func)
    (h : ∀ i ∈ F.flatten, MyPasses.AlgebraicIdentityPass.algMatch i
      = Option.none) :
    MyPasses.AlgebraicIdentityPass.scanBlocks [] F = (F, [], false) := by
  induction F with
  | nil => rfl
  | cons B Bs ih =>
      rw [MyPasses.AlgebraicIdentityPass.scanBlocks]
      rw [mpalg_scan_clean B (fun i hi => h i (by simp [hi]))]
      rw [ih (fun i hi => h i (by simp [hi]))]
      rfl

theorem p0sr_scan_exhaustive (B : List Instr) : ∀ (fresh : Nat) (σ : Subs),
    ∀ i ∈ (Part000.StrengthReductionPass.scan fresh σ B).1,
      Part000.StrengthReductionPass.srMatch i = Option.none := by
  induction B with
  | nil =>
      intro fresh σ i hi
      simp [Part000.StrengthReductionPass.scan] at hi
  | cons j rest ih =>
      intro fresh σ i hi
      rcases hm : Part000.StrengthReductionPass.srMatch (applyI σ j)
        with _ | act
      · rw [Part000.StrengthReductionPass.scan, hm] at hi
        simp only [List.mem_cons] at hi
        rcases hi with hi | hi
        · subst hi; exact hm
        · exact ih _ _ _ hi
      · rcases act with ⟨r, x⟩ | ⟨r, x⟩
        · rw [Part000.StrengthReductionPass.scan, hm] at hi
          simp only [List.mem_cons] at hi
          rcases hi with hi | hi
          · subst hi; rfl
          rcases hi with hi | hi
          · subst hi; rfl
          · exact ih _ _ _ hi
        · rw [Part000.StrengthReductionPass.scan, hm] at hi
          simp only [List.mem_cons] at hi
          rcases hi with hi | hi
          · subst hi; rfl
          · exact ih _ _ _ hi

theorem p0sr_blocks_exhaustive (F : Func) : ∀ (fresh : Nat) (σ : Subs),
    ∀ i ∈ ((Part000.StrengthReductionPass.scanBlocks fresh σ F).1).flatten,
      Part000.StrengthReductionPass.srMatch i = Option.none := by
  induction F with
  | nil =>
      intro fresh σ i hi
      simp [Part000.StrengthReductionPass.scanBlocks] at hi
  | cons B Bs ih =>
      intro fresh σ i hi
      rw [Part000.StrengthReductionPass.scanBlocks] at hi
      simp only [List.flatten_cons, List.mem_append] at hi
      rcases hi with hi | hi
      · exact p0sr_scan_exhaustive B fresh σ i hi
      · exact ih _ _ _ hi

theorem mpsr_blocks_exhaustive (F : Func) : ∀ (fresh : Nat) (σ : Subs),
    ∀ i ∈ ((MyPasses.StrengthReductionPass.scanBlocks fresh σ F).1).flatten,
      MyPasses.StrengthReductionPass.srMatch i = Option.none := by
  induction F with
  | nil =>
      intro fresh σ i hi
      simp [MyPasses.StrengthReductionPass.scanBlocks] at hi
  | cons B Bs ih =>
      intro fresh σ i hi
      rw [MyPasses.StrengthReductionPass.scanBlocks] at hi
      simp only [List.flatten_cons, List.mem_append] at hi
      rcases hi with hi | hi
      · exact mpsr_scan_exhaustive B fresh σ i hi
      · exact ih _ _ _ hi

theorem p0sr_scan_clean (B : List Instr) : ∀ fresh : Nat,
    (∀ i ∈ B, Part000.StrengthReductionPass.srMatch i = Option.none) →
    Part000.StrengthReductionPass.scan fresh [] B = (B, [], false, fresh) := by
  induction B with
  | nil => intro fresh h; rfl
  | cons j rest ih =>
      intro fresh h
      rw [Part000.StrengthReductionPass.scan]
      simp only [applyI_nil, h j (List.mem_cons_self _ _)]
      rw [ih fresh (fun i hi => h i (List.mem_cons_of_mem _ hi))]

theorem p0sr_blocks_clean (F : Func) : ∀ fresh : Nat,
    (∀ i ∈ F.flatten, Part000.StrengthReductionPass.srMatch i
      = Option.none) →
    Part000.StrengthReductionPass.scanBlocks fresh [] F
      = (F, [], false, fresh) := by
  induction F with
  | nil => intro fresh h; rfl
  | cons B Bs ih =>
      intro fresh h
      rw [Part000.StrengthReductionPass.scanBlocks]
      rw [p0sr_scan_clean B fresh (fun i hi => h i (by simp [hi]))]
      rw [ih fresh (fun i hi => h i (by simp [hi]))]
      rfl

theorem mpsr_scan_clean (B : List Instr) : ∀ fresh : Nat,
    (∀ i ∈ B, MyPasses.StrengthReductionPass.srMatch i = Option.none) →
    MyPasses.StrengthReductionPass.scan fresh [] B = (B, [], false, fresh) := by
  induction B with
  | nil => intro fresh h; rfl
  | cons j rest ih =>
      intro fresh h
      rw [MyPasses.StrengthReductionPass.scan]
      simp only [applyI_nil, h j (List.mem_cons_self _ _)]
      rw [ih fresh (fun i hi => h i (List.mem_cons_of_mem _ hi))]

theorem mpsr_blocks_clean (F : Func) : ∀ fresh : Nat,
    (∀ i ∈ F.flatten, MyPasses.StrengthReductionPass.srMatch i
      = Option.none) →
    MyPasses.StrengthReductionPass.scanBlocks fresh [] F
      = (F, [], false, fresh) := by
  induction F with
  | nil => intro fresh h; rfl
  | cons B Bs ih =>
      intro fresh h
      rw [MyPasses.StrengthReductionPass.scanBlocks]
      rw [mpsr_scan_clean B fresh (fun i hi => h i (by simp [hi]))]
      rw [ih fresh (fun i hi => h i (by simp [hi]))]
      rfl

end ClaimC8

namespace IRModel

/-- Ids defined by the instructions of a list. -/
def defIdsL (A : List Instr) : List Nat := A.filterMap Instr.defId

/-- Ids defined anywhere in a function. -/
def defIdsF (G : Func) : List Nat := defIdsL G.flatten

/-- Register ids used anywhere in a function. -/
def useRegsF (G : Func) : List Nat := (G.flatten.map Instr.useRegs).flatten

/-- Bound on every id defined in a function (freshness precondition for the
strength-reduction passes, whose builder creates new SSA values). -/
def idsBelow (m : Nat) (F : Func) : Bool := (defIdsF F).all (fun d => d < m)

theorem useVals_applyI (σ : Subs) (i : Instr) :
    (applyI σ i).useVals = i.useVals.map (applyV σ) := by
  cases i <;>
    simp [applyI_binop, applyI_store, applyI_load, Instr.useVals]

theorem regsOf_substV {r : Nat} {v u : Value} :
    ∀ m ∈ (substV r v u).regsOf, (m ∈ u.regsOf ∧ m ≠ r) ∨ m ∈ v.regsOf := by
  intro m hm
  unfold substV at hm
  split at hm
  · exact Or.inr hm
  next hne =>
    left
    refine ⟨hm, ?_⟩
    cases u with
    | reg n =>
        simp only [Value.regsOf, List.mem_singleton] at hm
        subst hm
        intro hmr
        exact hne (by rw [hmr])
    | const c => simp [Value.regsOf] at hm
    | arg n => simp [Value.regsOf] at hm

theorem regsOf_applyV (σ : Subs) (S : Nat → Prop)
    (hrange : ∀ rv ∈ σ, ∀ m ∈ (rv.2 : Value).regsOf, S m)
    (hdom : ∀ rv ∈ σ, ¬ S rv.1) :
    ∀ (u : Value), ∀ m ∈ (applyV σ u).regsOf,
      (m ∈ u.regsOf ∧ ∀ rv ∈ σ, m ≠ rv.1) ∨ S m := by
  induction σ with
  | nil =>
      intro u m hm
      exact Or.inl ⟨by simpa using hm, by simp⟩
  | cons rv σ ih =>
      intro u m hm
      rw [applyV_cons] at hm
      rcases ih (fun x hx => hrange x (List.mem_cons_of_mem _ hx))
          (fun x hx => hdom x (List.mem_cons_of_mem _ hx))
          (substV rv.1 rv.2 u) m hm with ⟨hmem, hni⟩ | hS
      · rcases regsOf_substV _ hmem with ⟨hu, hne⟩ | hv
        · left
          refine ⟨hu, ?_⟩
          intro rv' hrv'
          rcases List.mem_cons.mp hrv' with he | ht
          · rw [he]; exact hne
          · exact hni rv' ht
        · exact Or.inr (hrange rv (List.mem_cons_self _ _) m hv)
      · exact Or.inr hS

theorem useRegs_applyI (σ : Subs) (S : Nat → Prop)
    (hrange : ∀ rv ∈ σ, ∀ m ∈ (rv.2 : Value).regsOf, S m)
    (hdom : ∀ rv ∈ σ, ¬ S rv.1) (i : Instr) :
    ∀ m ∈ (applyI σ i).useRegs,
      (m ∈ i.useRegs ∧ ∀ rv ∈ σ, m ≠ rv.1) ∨ S m := by
  intro m hm
  unfold Instr.useRegs at hm
  rw [useVals_applyI] at hm
  simp only [List.map_map, List.mem_flatten, List.mem_map,
    Function.comp_apply] at hm
  obtain ⟨l, ⟨u, hu, hl⟩, hml⟩ := hm
  subst hl
  rcases regsOf_applyV σ S hrange hdom u m hml with ⟨hmu, hni⟩ | hS
  · left
    refine ⟨?_, hni⟩
    unfold Instr.useRegs
    simp only [List.mem_flatten, List.mem_map]
    exact ⟨u.regsOf, ⟨u, hu, rfl⟩, hmu⟩
  · exact Or.inr hS

theorem findDef_append_left {A : List Instr} {n : Nat} {d : Instr}
    (h : findDef A n = some d) (B : List Instr) :
    findDef (A ++ B) n = some d := by
  unfold findDef at h ⊢
  rw [List.find?_append, h]
  rfl

theorem findDef_mem {A : List Instr} {n : Nat} {d : Instr}
    (h : findDef A n = some d) : d ∈ A ∧ d.defId = some n := by
  constructor
  · exact List.mem_of_find?_eq_some h
  · have := List.find?_some h
    simpa using this

theorem findDef_of_mem_defIds {A : List Instr} {n : Nat}
    (h : n ∈ defIdsL A) : ∃ d, findDef A n = some d := by
  unfold defIdsL at h
  rw [List.mem_filterMap] at h
  obtain ⟨a, ha, hda⟩ := h
  have : (findDef A n).isSome = true := by
    unfold findDef
    rw [List.find?_isSome]
    exact ⟨a, ha, by simp [hda]⟩
  exact Option.isSome_iff_exists.mp this

theorem defId_mem_defIdsL {A : List Instr} {i : Instr} {d : Nat}
    (hi : i ∈ A) (hd : i.defId = some d) : d ∈ defIdsL A := by
  unfold defIdsL
  rw [List.mem_filterMap]
  exact ⟨i, hi, hd⟩

theorem defIdsL_append (A B : List Instr) :
    defIdsL (A ++ B) = defIdsL A ++ defIdsL B := by
  unfold defIdsL
  rw [List.filterMap_append]

/-- Invariant relating the substitutions accumulated by a scan (σ), the ids
already defined in the raw program (D) and the set `E` of ids of instructions
already emitted to the output: every scanned id is either erased or emitted;
erased ids are in the raw context and never among the emitted; every
`replaceAllUsesWith` target value only mentions emitted (hence surviving)
instructions. -/
def InvA (σ : Subs) (D : List Nat) (E : Nat → Prop) : Prop :=
  (∀ n, D.contains n = true → n ∈ σ.map Prod.fst ∨ E n) ∧
  (∀ rv ∈ σ, D.contains rv.1 = true) ∧
  (∀ rv ∈ σ, ¬ E rv.1) ∧
  (∀ rv ∈ σ, ∀ m ∈ (rv.2 : Value).regsOf, E m) ∧
  (∀ n, E n → D.contains n = true)

theorem InvA_congr {σ : Subs} {D : List Nat} {E F : Nat → Prop}
    (h : ∀ n, E n ↔ F n) (hI : InvA σ D E) : InvA σ D F := by
  obtain ⟨h1, h2, h3, h4, h5⟩ := hI
  refine ⟨?_, h2, ?_, ?_, ?_⟩
  · intro n hn
    rcases h1 n hn with hd | he
    · exact Or.inl hd
    · exact Or.inr ((h n).mp he)
  · intro rv hrv hF
    exact h3 rv hrv ((h rv.1).mpr hF)
  · intro rv hrv m hm
    exact (h m).mp (h4 rv hrv m hm)
  · intro n hn
    exact h5 n ((h n).mpr hn)

theorem defIdsL_cons_some {j : Instr} {A : List Instr} {d : Nat}
    (h : j.defId = some d) : defIdsL (j :: A) = d :: defIdsL A := by
  unfold defIdsL
  rw [List.filterMap_cons, h]

theorem defIdsL_cons_none {j : Instr} {A : List Instr}
    (h : j.defId = Option.none) : defIdsL (j :: A) = defIdsL A := by
  unfold defIdsL
  rw [List.filterMap_cons, h]

theorem wfScan_cons_eq {D D2 : List Nat} {i : Instr} {rest : List Instr}
    (h : wfScan D (i :: rest) = some D2) :
    i.useRegs.all (fun n => D.contains n) = true ∧
    (match i.defId with
     | some d => D.contains d = false ∧ wfScan (d :: D) rest = some D2
     | Option.none => wfScan D rest = some D2) := by
  rw [wfScan] at h
  split at h
  case isTrue h1 =>
    refine ⟨h1, ?_⟩
    split at h
    next d hd =>
      split at h
      case isTrue => simp at h
      case isFalse hdup =>
        refine ⟨?_, h⟩
        simpa using hdup
    next hd => exact h
  case isFalse h1 => simp at h

theorem applyI_uses_closed {σ : Subs} {D : List Nat} {E : Nat → Prop}
    (hA1 : ∀ n, D.contains n = true → n ∈ σ.map Prod.fst ∨ E n)
    (hA3 : ∀ rv ∈ σ, ¬ E rv.1)
    (hA4 : ∀ rv ∈ σ, ∀ m ∈ (rv.2 : Value).regsOf, E m)
    {i : Instr}
    (hraw : (i.useRegs.all fun n => D.contains n) = true) :
    ∀ m ∈ (applyI σ i).useRegs, E m := by
  intro m hm
  rcases useRegs_applyI σ E hA4 hA3 i m hm with ⟨hmu, hni⟩ | hS
  · rw [List.all_eq_true] at hraw
    rcases hA1 m (hraw m hmu) with hd | he
    · rw [List.mem_map] at hd
      obtain ⟨rv, hrv, hrva⟩ := hd
      exact absurd hrva.symm (hni rv hrv)
    · exact he
  · exact hS

end IRModel

section ClaimC7

open IRModel

theorem mpalg_algMatch_spec {j : Instr} {r : Nat} {v : Value}
    (h : MyPasses.AlgebraicIdentityPass.algMatch j = some (r, v)) :
    j.defId = some r ∧ ∀ m ∈ v.regsOf, m ∈ j.useRegs := by
  unfold MyPasses.AlgebraicIdentityPass.algMatch at h
  split at h
  next id a b =>
    split at h
    · rw [Option.some.injEq, Prod.mk.injEq] at h
      obtain ⟨hr, hv⟩ := h
      subst hr
      subst hv
      refine ⟨rfl, ?_⟩
      intro m hm
      simp [Instr.useRegs, Instr.useVals, hm]
    · exact absurd h (by simp)
  next id a b =>
    split at h
    · rw [Option.some.injEq, Prod.mk.injEq] at h
      obtain ⟨hr, hv⟩ := h
      subst hr
      subst hv
      refine ⟨rfl, ?_⟩
      intro m hm
      simp [Instr.useRegs, Instr.useVals, hm]
    · exact absurd h (by simp)
  next => exact absurd h (by simp)

theorem p0alg_algMatch_spec {j : Instr} {r : Nat} {v : Value}
    (h : Part000.AlgebraicIdentityPass.algMatch j = some (r, v)) :
    j.defId = some r ∧ ∀ m ∈ v.regsOf, m ∈ j.useRegs := by
  unfold Part000.AlgebraicIdentityPass.algMatch at h
  split at h
  next id a b =>
    split at h
    · rw [Option.some.injEq, Prod.mk.injEq] at h
      obtain ⟨hr, hv⟩ := h
      subst hr
      subst hv
      refine ⟨rfl, ?_⟩
      intro m hm
      simp [Instr.useRegs, Instr.useVals, hm]
    · split at h
      · rw [Option.some.injEq, Prod.mk.injEq] at h
        obtain ⟨hr, hv⟩ := h
        subst hr
        subst hv
        refine ⟨rfl, ?_⟩
        intro m hm
        simp [Instr.useRegs, Instr.useVals, hm]
      · exact absurd h (by simp)
  next id a b =>
    split at h
    · rw [Option.some.injEq, Prod.mk.injEq] at h
      obtain ⟨hr, hv⟩ := h
      subst hr
      subst hv
      refine ⟨rfl, ?_⟩
      intro m hm
      simp [Instr.useRegs, Instr.useVals, hm]
    · split at h
      · rw [Option.some.injEq, Prod.mk.injEq] at h
        obtain ⟨hr, hv⟩ := h
        subst hr
        subst hv
        refine ⟨rfl, ?_⟩
        intro m hm
        simp [Instr.useRegs, Instr.useVals, hm]
      · exact absurd h (by simp)
  next => exact absurd h (by simp)

theorem mpalg_scan_closure (B : List Instr) : ∀ (σ : Subs) (D D2 : List Nat)
    (E : Nat → Prop),
    wfScan D B = some D2 →
    InvA σ D E →
    (∀ t ∈ (MyPasses.AlgebraicIdentityPass.scan σ B).1, ∀ m ∈ t.useRegs,
      E m ∨ m ∈ defIdsL (MyPasses.AlgebraicIdentityPass.scan σ B).1) ∧
    InvA (MyPasses.AlgebraicIdentityPass.scan σ B).2.1 D2
      (fun n => E n ∨ n ∈ defIdsL (MyPasses.AlgebraicIdentityPass.scan σ
        B).1) := by
  induction B with
  | nil =>
      intro σ D D2 E hwf hI
      rw [wfScan, Option.some.injEq] at hwf
      subst hwf
      constructor
      · intro t ht
        simp [MyPasses.AlgebraicIdentityPass.scan] at ht
      · refine InvA_congr ?_ hI
        intro n
        simp [MyPasses.AlgebraicIdentityPass.scan, defIdsL]
  | cons i rest ih =>
      intro σ D D2 E hwf hI
      obtain ⟨hI1, hI2, hI3, hI4, hI5⟩ := hI
      obtain ⟨hraw, hrest⟩ := wfScan_cons_eq hwf
      have hjE : ∀ m ∈ (applyI σ i).useRegs, E m :=
        applyI_uses_closed hI1 hI3 hI4 hraw
      rcases hm : MyPasses.AlgebraicIdentityPass.algMatch (applyI σ i)
        with _ | ⟨r, v⟩
      · -- not matched: the instruction is emitted
        have hscan : MyPasses.AlgebraicIdentityPass.scan σ (i :: rest)
            = (applyI σ i :: (MyPasses.AlgebraicIdentityPass.scan σ rest).1,
               (MyPasses.AlgebraicIdentityPass.scan σ rest).2.1,
               (MyPasses.AlgebraicIdentityPass.scan σ rest).2.2) := by
          rw [MyPasses.AlgebraicIdentityPass.scan, hm]
        rcases hd : i.defId with _ | dj
        · -- no id defined (a store)
          rw [hd] at hrest
          have hjd : (applyI σ i).defId = Option.none := by
            rw [Instr.defId_applyI, hd]
          obtain ⟨huse, hinv⟩ := ih σ D D2 E hrest ⟨hI1, hI2, hI3, hI4, hI5⟩
          rw [hscan]
          constructor
          · intro t ht m hmt
            simp only [defIdsL_cons_none hjd]
            rcases List.mem_cons.mp ht with rfl | ht2
            · exact Or.inl (hjE m hmt)
            · exact huse t ht2 m hmt
          · refine InvA_congr ?_ hinv
            intro n
            simp only [defIdsL_cons_none hjd]
        · -- an id is defined and joins the emitted set
          rw [hd] at hrest
          obtain ⟨hcdj, hwf2⟩ := hrest
          have hjd : (applyI σ i).defId = some dj := by
            rw [Instr.defId_applyI, hd]
          have hIE : InvA σ (dj :: D) (fun n => E n ∨ n = dj) := by
            refine ⟨?_, ?_, ?_, ?_, ?_⟩
            · intro n hn
              rw [List.contains_cons, Bool.or_eq_true] at hn
              rcases hn with hn | hn
              · exact Or.inr (Or.inr (beq_iff_eq.mp hn))
              · rcases hI1 n hn with hdm | he
                · exact Or.inl hdm
                · exact Or.inr (Or.inl he)
            · intro rv hrv
              rw [List.contains_cons, Bool.or_eq_true]
              exact Or.inr (hI2 rv hrv)
            · intro rv hrv hE2
              rcases hE2 with hE | hEq
              · exact hI3 rv hrv hE
              · have hc := hI2 rv hrv
                rw [hEq, hcdj] at hc
                exact absurd hc (by simp)
            · intro rv hrv m hm2
              exact Or.inl (hI4 rv hrv m hm2)
            · intro n hE2
              rw [List.contains_cons, Bool.or_eq_true]
              rcases hE2 with hE | hEq
              · exact Or.inr (hI5 n hE)
              · left
                rw [hEq]
                simp
          obtain ⟨huse, hinv⟩ := ih σ (dj :: D) D2
            (fun n => E n ∨ n = dj) hwf2 hIE
          rw [hscan]
          constructor
          · intro t ht m hmt
            simp only [defIdsL_cons_some hjd]
            rcases List.mem_cons.mp ht with rfl | ht2
            · exact Or.inl (hjE m hmt)
            · rcases huse t ht2 m hmt with (hE | hEq) | hdef
              · exact Or.inl hE
              · right
                rw [hEq]
                exact List.mem_cons_self _ _
              · exact Or.inr (List.mem_cons_of_mem _ hdef)
          · refine InvA_congr ?_ hinv
            intro n
            simp only [defIdsL_cons_some hjd, List.mem_cons]
            tauto
      · -- matched: the instruction is erased after redirecting its uses
        obtain ⟨hjdr, hvreg⟩ := mpalg_algMatch_spec hm
        have hdir : i.defId = some r := by
          rw [← Instr.defId_applyI σ i]
          exact hjdr
        rw [hdir] at hrest
        obtain ⟨hcr, hwf2⟩ := hrest
        have hscan : MyPasses.AlgebraicIdentityPass.scan σ (i :: rest)
            = ((MyPasses.AlgebraicIdentityPass.scan (σ ++ [(r, v)]) rest).1,
               (MyPasses.AlgebraicIdentityPass.scan (σ ++ [(r, v)]) rest).2.1,
               true) := by
          rw [MyPasses.AlgebraicIdentityPass.scan, hm]
        have hIE : InvA (σ ++ [(r, v)]) (r :: D) E := by
          refine ⟨?_, ?_, ?_, ?_, ?_⟩
          · intro n hn
            rw [List.contains_cons, Bool.or_eq_true] at hn
            rcases hn with hn | hn
            · left
              rw [List.map_append, List.mem_append]
              right
              simp [beq_iff_eq.mp hn]
            · rcases hI1 n hn with hdm | he
              · left
                rw [List.map_append, List.mem_append]
                exact Or.inl hdm
              · exact Or.inr he
          · intro rv hrv
            rw [List.mem_append] at hrv
            rcases hrv with hrv | hrv
            · rw [List.contains_cons, Bool.or_eq_true]
              exact Or.inr (hI2 rv hrv)
            · rw [List.mem_singleton] at hrv
              subst hrv
              simp [List.contains_cons]
          · intro rv hrv hE2
            rw [List.mem_append] at hrv
            rcases hrv with hrv | hrv
            · exact hI3 rv hrv hE2
            · rw [List.mem_singleton] at hrv
              subst hrv
              have hc := hI5 r hE2
              rw [hcr] at hc
              exact absurd hc (by simp)
          · intro rv hrv m hm2
            rw [List.mem_append] at hrv
            rcases hrv with hrv | hrv
            · exact hI4 rv hrv m hm2
            · rw [List.mem_singleton] at hrv
              subst hrv
              exact hjE m (hvreg m hm2)
          · intro n hE2
            rw [List.contains_cons, Bool.or_eq_true]
            exact Or.inr (hI5 n hE2)
        obtain ⟨huse, hinv⟩ := ih (σ ++ [(r, v)]) (r :: D) D2 E hwf2 hIE
        rw [hscan]
        exact ⟨huse, hinv⟩

theorem defIdsF_cons (B : Block) (Bs : Func) :
    defIdsF (B :: Bs) = defIdsL B ++ defIdsF Bs := by
  unfold defIdsF
  rw [List.flatten_cons, defIdsL_append]

theorem mpalg_blocks_closure (F : Func) : ∀ (σ : Subs) (D D2 : List Nat)
    (E : Nat → Prop),
    wfBlocks D F = some D2 →
    InvA σ D E →
    (∀ t ∈ ((MyPasses.AlgebraicIdentityPass.scanBlocks σ F).1).flatten,
      ∀ m ∈ t.useRegs,
      E m ∨ m ∈ defIdsF (MyPasses.AlgebraicIdentityPass.scanBlocks σ F).1) ∧
    InvA (MyPasses.AlgebraicIdentityPass.scanBlocks σ F).2.1 D2
      (fun n => E n ∨ n ∈ defIdsF (MyPasses.AlgebraicIdentityPass.scanBlocks σ
        F).1) := by
  induction F with
  | nil =>
      intro σ D D2 E hwf hI
      rw [wfBlocks, Option.some.injEq] at hwf
      subst hwf
      constructor
      · intro t ht
        simp [MyPasses.AlgebraicIdentityPass.scanBlocks] at ht
      · refine InvA_congr ?_ hI
        intro n
        simp [MyPasses.AlgebraicIdentityPass.scanBlocks, defIdsF, defIdsL]
  | cons B Bs ih =>
      intro σ D D2 E hwf hI
      rw [wfBlocks] at hwf
      split at hwf
      next Dm hDm =>
        have hscan : MyPasses.AlgebraicIdentityPass.scanBlocks σ (B :: Bs)
            = ((MyPasses.AlgebraicIdentityPass.scan σ B).1 ::
                (MyPasses.AlgebraicIdentityPass.scanBlocks
                  (MyPasses.AlgebraicIdentityPass.scan σ B).2.1 Bs).1,
               (MyPasses.AlgebraicIdentityPass.scanBlocks
                 (MyPasses.AlgebraicIdentityPass.scan σ B).2.1 Bs).2.1,
               (MyPasses.AlgebraicIdentityPass.scan σ B).2.2 ||
                 (MyPasses.AlgebraicIdentityPass.scanBlocks
                   (MyPasses.AlgebraicIdentityPass.scan σ B).2.1 Bs).2.2) := by
          rw [MyPasses.AlgebraicIdentityPass.scanBlocks]
        obtain ⟨huseB, hinvB⟩ := mpalg_scan_closure B σ D Dm E hDm hI
        obtain ⟨huseBs, hinvBs⟩ := ih
          (MyPasses.AlgebraicIdentityPass.scan σ B).2.1 Dm D2
          (fun n => E n ∨
            n ∈ defIdsL (MyPasses.AlgebraicIdentityPass.scan σ B).1)
          hwf hinvB
        rw [hscan]
        constructor
        · intro t ht m hmt
          rw [defIdsF_cons, List.mem_append]
          rw [List.flatten_cons, List.mem_append] at ht
          rcases ht with ht | ht
          · rcases huseB t ht m hmt with hE | hdef
            · exact Or.inl hE
            · exact Or.inr (Or.inl hdef)
          · rcases huseBs t ht m hmt with (hE | hdef1) | hdef2
            · exact Or.inl hE
            · exact Or.inr (Or.inl hdef1)
            · exact Or.inr (Or.inr hdef2)
        · refine InvA_congr ?_ hinvBs
          intro n
          rw [defIdsF_cons, List.mem_append]
          tauto
      next => simp at hwf

theorem mpalg_run_noDangling (F : Func) (h : WF F = true) :
    ∀ m ∈ useRegsF (MyPasses.AlgebraicIdentityPass.run F).1,
      m ∈ defIdsF (MyPasses.AlgebraicIdentityPass.run F).1 := by
  unfold WF at h
  obtain ⟨D2, hD2⟩ := Option.isSome_iff_exists.mp h
  have hinit : InvA [] [] (fun _ => False) := by
    refine ⟨?_, ?_, ?_, ?_, ?_⟩ <;> simp
  obtain ⟨huse, _⟩ := mpalg_blocks_closure F [] [] D2 (fun _ => False)
    hD2 hinit
  intro m hm
  have hm2 : m ∈ useRegsF (MyPasses.AlgebraicIdentityPass.scanBlocks
      [] F).1 := hm
  unfold useRegsF at hm2
  rw [List.mem_flatten] at hm2
  obtain ⟨l, hl, hml⟩ := hm2
  rw [List.mem_map] at hl
  obtain ⟨t, ht, rfl⟩ := hl
  rcases huse t ht m hml with hF | hdef
  · exact hF.elim
  · exact hdef

theorem p0alg_scan_closure (B : List Instr) : ∀ (σ : Subs) (D D2 : List Nat)
    (E : Nat → Prop),
    wfScan D B = some D2 →
    InvA σ D E →
    (∀ t ∈ (Part000.AlgebraicIdentityPass.scan σ B).1, ∀ m ∈ t.useRegs,
      E m ∨ m ∈ defIdsL (Part000.AlgebraicIdentityPass.scan σ B).1) ∧
    InvA (Part000.AlgebraicIdentityPass.scan σ B).2.1 D2
      (fun n => E n ∨ n ∈ defIdsL (Part000.AlgebraicIdentityPass.scan σ
        B).1) := by
  induction B with
  | nil =>
      intro σ D D2 E hwf hI
      rw [wfScan, Option.some.injEq] at hwf
      subst hwf
      constructor
      · intro t ht
        simp [Part000.AlgebraicIdentityPass.scan] at ht
      · refine InvA_congr ?_ hI
        intro n
        simp [Part000.AlgebraicIdentityPass.scan, defIdsL]
  | cons i rest ih =>
      intro σ D D2 E hwf hI
      obtain ⟨hI1, hI2, hI3, hI4, hI5⟩ := hI
      obtain ⟨hraw, hrest⟩ := wfScan_cons_eq hwf
      have hjE : ∀ m ∈ (applyI σ i).useRegs, E m :=
        applyI_uses_closed hI1 hI3 hI4 hraw
      rcases hm : Part000.AlgebraicIdentityPass.algMatch (applyI σ i)
        with _ | ⟨r, v⟩
      · -- not matched: the instruction is emitted
        have hscan : Part000.AlgebraicIdentityPass.scan σ (i :: rest)
            = (applyI σ i :: (Part000.AlgebraicIdentityPass.scan σ rest).1,
               (Part000.AlgebraicIdentityPass.scan σ rest).2.1,
               (Part000.AlgebraicIdentityPass.scan σ rest).2.2) := by
          rw [Part000.AlgebraicIdentityPass.scan, hm]
        rcases hd : i.defId with _ | dj
        · -- no id defined (a store)
          rw [hd] at hrest
          have hjd : (applyI σ i).defId = Option.none := by
            rw [Instr.defId_applyI, hd]
          obtain ⟨huse, hinv⟩ := ih σ D D2 E hrest ⟨hI1, hI2, hI3, hI4, hI5⟩
          rw [hscan]
          constructor
          · intro t ht m hmt
            simp only [defIdsL_cons_none hjd]
            rcases List.mem_cons.mp ht with rfl | ht2
            · exact Or.inl (hjE m hmt)
            · exact huse t ht2 m hmt
          · refine InvA_congr ?_ hinv
            intro n
            simp only [defIdsL_cons_none hjd]
        · -- an id is defined and joins the emitted set
          rw [hd] at hrest
          obtain ⟨hcdj, hwf2⟩ := hrest
          have hjd : (applyI σ i).defId = some dj := by
            rw [Instr.defId_applyI, hd]
          have hIE : InvA σ (dj :: D) (fun n => E n ∨ n = dj) := by
            refine ⟨?_, ?_, ?_, ?_, ?_⟩
            · intro n hn
              rw [List.contains_cons, Bool.or_eq_true] at hn
              rcases hn with hn | hn
              · exact Or.inr (Or.inr (beq_iff_eq.mp hn))
              · rcases hI1 n hn with hdm | he
                · exact Or.inl hdm
                · exact Or.inr (Or.inl he)
            · intro rv hrv
              rw [List.contains_cons, Bool.or_eq_true]
              exact Or.inr (hI2 rv hrv)
            · intro rv hrv hE2
              rcases hE2 with hE | hEq
              · exact hI3 rv hrv hE
              · have hc := hI2 rv hrv
                rw [hEq, hcdj] at hc
                exact absurd hc (by simp)
            · intro rv hrv m hm2
              exact Or.inl (hI4 rv hrv m hm2)
            · intro n hE2
              rw [List.contains_cons, Bool.or_eq_true]
              rcases hE2 with hE | hEq
              · exact Or.inr (hI5 n hE)
              · left
                rw [hEq]
                simp
          obtain ⟨huse, hinv⟩ := ih σ (dj :: D) D2
            (fun n => E n ∨ n = dj) hwf2 hIE
          rw [hscan]
          constructor
          · intro t ht m hmt
            simp only [defIdsL_cons_some hjd]
            rcases List.mem_cons.mp ht with rfl | ht2
            · exact Or.inl (hjE m hmt)
            · rcases huse t ht2 m hmt with (hE | hEq) | hdef
              · exact Or.inl hE
              · right
                rw [hEq]
                exact List.mem_cons_self _ _
              · exact Or.inr (List.mem_cons_of_mem _ hdef)
          · refine InvA_congr ?_ hinv
            intro n
            simp only [defIdsL_cons_some hjd, List.mem_cons]
            tauto
      · -- matched: the instruction is erased after redirecting its uses
        obtain ⟨hjdr, hvreg⟩ := p0alg_algMatch_spec hm
        have hdir : i.defId = some r := by
          rw [← Instr.defId_applyI σ i]
          exact hjdr
        rw [hdir] at hrest
        obtain ⟨hcr, hwf2⟩ := hrest
        have hscan : Part000.AlgebraicIdentityPass.scan σ (i :: rest)
            = ((Part000.AlgebraicIdentityPass.scan (σ ++ [(r, v)]) rest).1,
               (Part000.AlgebraicIdentityPass.scan (σ ++ [(r, v)]) rest).2.1,
               true) := by
          rw [Part000.AlgebraicIdentityPass.scan, hm]
        have hIE : InvA (σ ++ [(r, v)]) (r :: D) E := by
          refine ⟨?_, ?_, ?_, ?_, ?_⟩
          · intro n hn
            rw [List.contains_cons, Bool.or_eq_true] at hn
            rcases hn with hn | hn
            · left
              rw [List.map_append, List.mem_append]
              right
              simp [beq_iff_eq.mp hn]
            · rcases hI1 n hn with hdm | he
              · left
                rw [List.map_append, List.mem_append]
                exact Or.inl hdm
              · exact Or.inr he
          · intro rv hrv
            rw [List.mem_append] at hrv
            rcases hrv with hrv | hrv
            · rw [List.contains_cons, Bool.or_eq_true]
              exact Or.inr (hI2 rv hrv)
            · rw [List.mem_singleton] at hrv
              subst hrv
              simp [List.contains_cons]
          · intro rv hrv hE2
            rw [List.mem_append] at hrv
            rcases hrv with hrv | hrv
            · exact hI3 rv hrv hE2
            · rw [List.mem_singleton] at hrv
              subst hrv
              have hc := hI5 r hE2
              rw [hcr] at hc
              exact absurd hc (by simp)
          · intro rv hrv m hm2
            rw [List.mem_append] at hrv
            rcases hrv with hrv | hrv
            · exact hI4 rv hrv m hm2
            · rw [List.mem_singleton] at hrv
              subst hrv
              exact hjE m (hvreg m hm2)
          · intro n hE2
            rw [List.contains_cons, Bool.or_eq_true]
            exact Or.inr (hI5 n hE2)
        obtain ⟨huse, hinv⟩ := ih (σ ++ [(r, v)]) (r :: D) D2 E hwf2 hIE
        rw [hscan]
        exact ⟨huse, hinv⟩

theorem p0alg_blocks_closure (F : Func) : ∀ (σ : Subs) (D D2 : List Nat)
    (E : Nat → Prop),
    wfBlocks D F = some D2 →
    InvA σ D E →
    (∀ t ∈ ((Part000.AlgebraicIdentityPass.scanBlocks σ F).1).flatten,
      ∀ m ∈ t.useRegs,
      E m ∨ m ∈ defIdsF (Part000.AlgebraicIdentityPass.scanBlocks σ F).1) ∧
    InvA (Part000.AlgebraicIdentityPass.scanBlocks σ F).2.1 D2
      (fun n => E n ∨ n ∈ defIdsF (Part000.AlgebraicIdentityPass.scanBlocks σ
        F).1) := by
  induction F with
  | nil =>
      intro σ D D2 E hwf hI
      rw [wfBlocks, Option.some.injEq] at hwf
      subst hwf
      constructor
      · intro t ht
        simp [Part000.AlgebraicIdentityPass.scanBlocks] at ht
      · refine InvA_congr ?_ hI
        intro n
        simp [Part000.AlgebraicIdentityPass.scanBlocks, defIdsF, defIdsL]
  | cons B Bs ih =>
      intro σ D D2 E hwf hI
      rw [wfBlocks] at hwf
      split at hwf
      next Dm hDm =>
        have hscan : Part000.AlgebraicIdentityPass.scanBlocks σ (B :: Bs)
            = ((Part000.AlgebraicIdentityPass.scan σ B).1 ::
                (Part000.AlgebraicIdentityPass.scanBlocks
                  (Part000.AlgebraicIdentityPass.scan σ B).2.1 Bs).1,
               (Part000.AlgebraicIdentityPass.scanBlocks
                 (Part000.AlgebraicIdentityPass.scan σ B).2.1 Bs).2.1,
               (Part000.AlgebraicIdentityPass.scan σ B).2.2 ||
                 (Part000.AlgebraicIdentityPass.scanBlocks
                   (Part000.AlgebraicIdentityPass.scan σ B).2.1 Bs).2.2) := by
          rw [Part000.AlgebraicIdentityPass.scanBlocks]
        obtain ⟨huseB, hinvB⟩ := p0alg_scan_closure B σ D Dm E hDm hI
        obtain ⟨huseBs, hinvBs⟩ := ih
          (Part000.AlgebraicIdentityPass.scan σ B).2.1 Dm D2
          (fun n => E n ∨
            n ∈ defIdsL (Part000.AlgebraicIdentityPass.scan σ B).1)
          hwf hinvB
        rw [hscan]
        constructor
        · intro t ht m hmt
          rw [defIdsF_cons, List.mem_append]
          rw [List.flatten_cons, List.mem_append] at ht
          rcases ht with ht | ht
          · rcases huseB t ht m hmt with hE | hdef
            · exact Or.inl hE
            · exact Or.inr (Or.inl hdef)
          · rcases huseBs t ht m hmt with (hE | hdef1) | hdef2
            · exact Or.inl hE
            · exact Or.inr (Or.inl hdef1)
            · exact Or.inr (Or.inr hdef2)
        · refine InvA_congr ?_ hinvBs
          intro n
          rw [defIdsF_cons, List.mem_append]
          tauto
      next => simp at hwf

theorem p0alg_run_noDangling (F : Func) (h : WF F = true) :
    ∀ m ∈ useRegsF (Part000.AlgebraicIdentityPass.run F).1,
      m ∈ defIdsF (Part000.AlgebraicIdentityPass.run F).1 := by
  unfold WF at h
  obtain ⟨D2, hD2⟩ := Option.isSome_iff_exists.mp h
  have hinit : InvA [] [] (fun _ => False) := by
    refine ⟨?_, ?_, ?_, ?_, ?_⟩ <;> simp
  obtain ⟨huse, _⟩ := p0alg_blocks_closure F [] [] D2 (fun _ => False)
    hD2 hinit
  intro m hm
  have hm2 : m ∈ useRegsF (Part000.AlgebraicIdentityPass.scanBlocks
      [] F).1 := hm
  unfold useRegsF at hm2
  rw [List.mem_flatten] at hm2
  obtain ⟨l, hl, hml⟩ := hm2
  rw [List.mem_map] at hl
  obtain ⟨t, ht, rfl⟩ := hl
  rcases huse t ht m hml with hF | hdef
  · exact hF.elim
  · exact hdef

theorem wfScan_mono (B : List Instr) : ∀ (D D2 : List Nat),
    wfScan D B = some D2 →
    ∀ n, D.contains n = true → D2.contains n = true := by
  induction B with
  | nil =>
      intro D D2 h n hn
      rw [wfScan, Option.some.injEq] at h
      subst h
      exact hn
  | cons i rest ih =>
      intro D D2 h n hn
      obtain ⟨hraw, hrest⟩ := wfScan_cons_eq h
      rcases hd : i.defId with _ | dj
      · rw [hd] at hrest
        exact ih D D2 hrest n hn
      · rw [hd] at hrest
        refine ih (dj :: D) D2 hrest.2 n ?_
        rw [List.contains_cons, Bool.or_eq_true]
        exact Or.inr hn

/-- Invariant for the strength-reduction scans: like `InvA`, but the emitted
set may also contain fresh ids created for the synthesized instructions: every
emitted id is either an already-scanned original id or a fresh id in
`[f0, fresh)`, and every original id is below `f0`. -/
def InvS (σ : Subs) (D : List Nat) (E : Nat → Prop) (f0 fresh : Nat) : Prop :=
  (∀ n, D.contains n = true → n ∈ σ.map Prod.fst ∨ E n) ∧
  (∀ rv ∈ σ, D.contains rv.1 = true) ∧
  (∀ rv ∈ σ, ¬ E rv.1) ∧
  (∀ rv ∈ σ, ∀ m ∈ (rv.2 : Value).regsOf, E m) ∧
  (∀ n, E n → D.contains n = true ∨ (f0 ≤ n ∧ n < fresh)) ∧
  (∀ n, D.contains n = true → n < f0) ∧
  f0 ≤ fresh

theorem InvS_congr {σ : Subs} {D : List Nat} {E F : Nat → Prop}
    {f0 fresh : Nat} (h : ∀ n, E n ↔ F n) (hI : InvS σ D E f0 fresh) :
    InvS σ D F f0 fresh := by
  obtain ⟨h1, h2, h3, h4, h5, h6, h7⟩ := hI
  refine ⟨?_, h2, ?_, ?_, ?_, h6, h7⟩
  · intro n hn
    rcases h1 n hn with hd | he
    · exact Or.inl hd
    · exact Or.inr ((h n).mp he)
  · intro rv hrv hF
    exact h3 rv hrv ((h rv.1).mpr hF)
  · intro rv hrv m hm
    exact (h m).mp (h4 rv hrv m hm)
  · intro n hn
    exact h5 n ((h n).mpr hn)

theorem InvS_freshMono {σ : Subs} {D : List Nat} {E : Nat → Prop}
    {f0 fresh fresh2 : Nat} (h : fresh ≤ fresh2)
    (hI : InvS σ D E f0 fresh) : InvS σ D E f0 fresh2 := by
  obtain ⟨h1, h2, h3, h4, h5, h6, h7⟩ := hI
  refine ⟨h1, h2, h3, h4, ?_, h6, le_trans h7 h⟩
  intro n hn
  rcases h5 n hn with hd | ⟨ha, hb⟩
  · exact Or.inl hd
  · exact Or.inr ⟨ha, lt_of_lt_of_le hb h⟩

theorem mpsr_srMatch_mul {j : Instr} {r : Nat} {x : Value}
    (h : MyPasses.StrengthReductionPass.srMatch j = some (.mulRew r x)) :
    j.defId = some r ∧ ∀ m ∈ x.regsOf, m ∈ j.useRegs := by
  unfold MyPasses.StrengthReductionPass.srMatch at h
  split at h
  next id a b =>
    split at h
    · rw [Option.some.injEq, SRAct.mulRew.injEq] at h
      obtain ⟨hr, hv⟩ := h
      subst hr
      subst hv
      refine ⟨rfl, ?_⟩
      intro m hm
      simp [Instr.useRegs, Instr.useVals, hm]
    · exact absurd h (by simp)
  next id a b =>
    split at h
    · simp at h
    · exact absurd h (by simp)
  next id a b =>
    split at h
    · simp at h
    · exact absurd h (by simp)
  next => exact absurd h (by simp)

theorem mpsr_srMatch_div {j : Instr} {r : Nat} {x : Value}
    (h : MyPasses.StrengthReductionPass.srMatch j = some (.divRew r x)) :
    j.defId = some r ∧ ∀ m ∈ x.regsOf, m ∈ j.useRegs := by
  unfold MyPasses.StrengthReductionPass.srMatch at h
  split at h
  next id a b =>
    split at h
    · simp at h
    · exact absurd h (by simp)
  next id a b =>
    split at h
    · rw [Option.some.injEq, SRAct.divRew.injEq] at h
      obtain ⟨hr, hv⟩ := h
      subst hr
      subst hv
      refine ⟨rfl, ?_⟩
      intro m hm
      simp [Instr.useRegs, Instr.useVals, hm]
    · exact absurd h (by simp)
  next id a b =>
    split at h
    · rw [Option.some.injEq, SRAct.divRew.injEq] at h
      obtain ⟨hr, hv⟩ := h
      subst hr
      subst hv
      refine ⟨rfl, ?_⟩
      intro m hm
      simp [Instr.useRegs, Instr.useVals, hm]
    · exact absurd h (by simp)
  next => exact absurd h (by simp)

theorem p0sr_srMatch_mul {j : Instr} {r : Nat} {x : Value}
    (h : Part000.StrengthReductionPass.srMatch j = some (.mulRew r x)) :
    j.defId = some r ∧ ∀ m ∈ x.regsOf, m ∈ j.useRegs := by
  unfold Part000.StrengthReductionPass.srMatch at h
  split at h
  next id a b =>
    by_cases hswap : a = Value.const 15
    · simp only [if_pos hswap] at h
      rw [Option.some.injEq, SRAct.mulRew.injEq] at h
      obtain ⟨hr, hv⟩ := h
      subst hr
      subst hv
      refine ⟨rfl, ?_⟩
      intro m hm
      simp [Instr.useRegs, Instr.useVals, hm]
    · simp only [if_neg hswap] at h
      split at h
      · rw [Option.some.injEq, SRAct.mulRew.injEq] at h
        obtain ⟨hr, hv⟩ := h
        subst hr
        subst hv
        refine ⟨rfl, ?_⟩
        intro m hm
        simp [Instr.useRegs, Instr.useVals, hm]
      · exact absurd h (by simp)
  next id a b =>
    split at h
    · simp at h
    · exact absurd h (by simp)
  next => exact absurd h (by simp)

theorem p0sr_srMatch_div {j : Instr} {r : Nat} {x : Value}
    (h : Part000.StrengthReductionPass.srMatch j = some (.divRew r x)) :
    j.defId = some r ∧ ∀ m ∈ x.regsOf, m ∈ j.useRegs := by
  unfold Part000.StrengthReductionPass.srMatch at h
  split at h
  next id a b =>
    split at h
    · simp at h
    · exact absurd h (by simp)
  next id a b =>
    split at h
    · rw [Option.some.injEq, SRAct.divRew.injEq] at h
      obtain ⟨hr, hv⟩ := h
      subst hr
      subst hv
      refine ⟨rfl, ?_⟩
      intro m hm
      simp [Instr.useRegs, Instr.useVals, hm]
    · exact absurd h (by simp)
  next => exact absurd h (by simp)

theorem mpsr_scan_closure (B : List Instr) : ∀ (fresh : Nat) (σ : Subs)
    (D D2 : List Nat) (E : Nat → Prop) (f0 : Nat),
    wfScan D B = some D2 →
    (∀ d ∈ defIdsL B, d < f0) →
    InvS σ D E f0 fresh →
    (∀ t ∈ (MyPasses.StrengthReductionPass.scan fresh σ B).1, ∀ m ∈ t.useRegs,
      E m ∨ m ∈ defIdsL (MyPasses.StrengthReductionPass.scan fresh σ B).1) ∧
    InvS (MyPasses.StrengthReductionPass.scan fresh σ B).2.1 D2
      (fun n => E n ∨ n ∈ defIdsL (MyPasses.StrengthReductionPass.scan fresh σ
        B).1)
      f0 (MyPasses.StrengthReductionPass.scan fresh σ B).2.2.2 ∧
    fresh ≤ (MyPasses.StrengthReductionPass.scan fresh σ B).2.2.2 := by
  induction B with
  | nil =>
      intro fresh σ D D2 E f0 hwf hB hI
      rw [wfScan, Option.some.injEq] at hwf
      subst hwf
      refine ⟨?_, ?_, le_refl _⟩
      · intro t ht
        simp [MyPasses.StrengthReductionPass.scan] at ht
      · refine InvS_congr ?_ hI
        intro n
        simp [MyPasses.StrengthReductionPass.scan, defIdsL]
  | cons i rest ih =>
      intro fresh σ D D2 E f0 hwf hB hI
      obtain ⟨hI1, hI2, hI3, hI4, hI5, hI6, hI7⟩ := hI
      obtain ⟨hraw, hrest⟩ := wfScan_cons_eq hwf
      have hjE : ∀ m ∈ (applyI σ i).useRegs, E m :=
        applyI_uses_closed hI1 hI3 hI4 hraw
      rcases hm : MyPasses.StrengthReductionPass.srMatch (applyI σ i)
        with _ | act
      · -- not matched: the instruction is emitted
        have hscan : MyPasses.StrengthReductionPass.scan fresh σ (i :: rest)
            = (applyI σ i :: (MyPasses.StrengthReductionPass.scan fresh σ
                rest).1,
               (MyPasses.StrengthReductionPass.scan fresh σ rest).2.1,
               (MyPasses.StrengthReductionPass.scan fresh σ rest).2.2.1,
               (MyPasses.StrengthReductionPass.scan fresh σ rest).2.2.2) := by
          rw [MyPasses.StrengthReductionPass.scan, hm]
        rcases hd : i.defId with _ | dj
        · rw [hd] at hrest
          have hjd : (applyI σ i).defId = Option.none := by
            rw [Instr.defId_applyI, hd]
          have hB2 : ∀ d ∈ defIdsL rest, d < f0 := by
            intro d hdm
            refine hB d ?_
            rw [defIdsL_cons_none hd]
            exact hdm
          obtain ⟨huse, hinv, hfr⟩ := ih fresh σ D D2 E f0 hrest hB2
            ⟨hI1, hI2, hI3, hI4, hI5, hI6, hI7⟩
          rw [hscan]
          refine ⟨?_, ?_, hfr⟩
          · intro t ht m hmt
            simp only [defIdsL_cons_none hjd]
            rcases List.mem_cons.mp ht with rfl | ht2
            · exact Or.inl (hjE m hmt)
            · exact huse t ht2 m hmt
          · refine InvS_congr ?_ hinv
            intro n
            simp only [defIdsL_cons_none hjd]
        · rw [hd] at hrest
          obtain ⟨hcdj, hwf2⟩ := hrest
          have hjd : (applyI σ i).defId = some dj := by
            rw [Instr.defId_applyI, hd]
          have hdjf : dj < f0 := by
            refine hB dj ?_
            rw [defIdsL_cons_some hd]
            exact List.mem_cons_self _ _
          have hB2 : ∀ d ∈ defIdsL rest, d < f0 := by
            intro d hdm
            refine hB d ?_
            rw [defIdsL_cons_some hd]
            exact List.mem_cons_of_mem _ hdm
          have hIE : InvS σ (dj :: D) (fun n => E n ∨ n = dj) f0 fresh := by
            refine ⟨?_, ?_, ?_, ?_, ?_, ?_, hI7⟩
            · intro n hn
              rw [List.contains_cons, Bool.or_eq_true] at hn
              rcases hn with hn | hn
              · exact Or.inr (Or.inr (beq_iff_eq.mp hn))
              · rcases hI1 n hn with hdm | he
                · exact Or.inl hdm
                · exact Or.inr (Or.inl he)
            · intro rv hrv
              rw [List.contains_cons, Bool.or_eq_true]
              exact Or.inr (hI2 rv hrv)
            · intro rv hrv hE2
              rcases hE2 with hE | hEq
              · exact hI3 rv hrv hE
              · have hc := hI2 rv hrv
                rw [hEq, hcdj] at hc
                exact absurd hc (by simp)
            · intro rv hrv m hm2
              exact Or.inl (hI4 rv hrv m hm2)
            · intro n hE2
              rcases hE2 with hE | hEq
              · rcases hI5 n hE with hc | hfr2
                · left
                  rw [List.contains_cons, Bool.or_eq_true]
                  exact Or.inr hc
                · exact Or.inr hfr2
              · left
                rw [hEq, List.contains_cons, Bool.or_eq_true]
                left
                simp
            · intro n hn
              rw [List.contains_cons, Bool.or_eq_true] at hn
              rcases hn with hn | hn
              · rw [beq_iff_eq.mp hn]
                exact hdjf
              · exact hI6 n hn
          obtain ⟨huse, hinv, hfr⟩ := ih fresh σ (dj :: D) D2
            (fun n => E n ∨ n = dj) f0 hwf2 hB2 hIE
          rw [hscan]
          refine ⟨?_, ?_, hfr⟩
          · intro t ht m hmt
            simp only [defIdsL_cons_some hjd]
            rcases List.mem_cons.mp ht with rfl | ht2
            · exact Or.inl (hjE m hmt)
            · rcases huse t ht2 m hmt with (hE | hEq) | hdef
              · exact Or.inl hE
              · right
                rw [hEq]
                exact List.mem_cons_self _ _
              · exact Or.inr (List.mem_cons_of_mem _ hdef)
          · refine InvS_congr ?_ hinv
            intro n
            simp only [defIdsL_cons_some hjd, List.mem_cons]
            tauto
      · -- matched: two sub-cases, Mul → Shl/Sub and Div → LShr
        rcases act with ⟨r, x⟩ | ⟨r, x⟩
        · -- mulRew
          obtain ⟨hjdr, hx⟩ := mpsr_srMatch_mul hm
          have hdir : i.defId = some r := by
            rw [← Instr.defId_applyI σ i]
            exact hjdr
          rw [hdir] at hrest
          obtain ⟨hcr, hwf2⟩ := hrest
          have hrf : r < f0 := by
            refine hB r ?_
            rw [defIdsL_cons_some hdir]
            exact List.mem_cons_self _ _
          have hB2 : ∀ d ∈ defIdsL rest, d < f0 := by
            intro d hdm
            refine hB d ?_
            rw [defIdsL_cons_some hdir]
            exact List.mem_cons_of_mem _ hdm
          have hxE : ∀ m ∈ x.regsOf, E m := fun m hm2 => hjE m (hx m hm2)
          have hIE : InvS (σ ++ [(r, Value.reg (fresh + 1))]) (r :: D)
              (fun n => E n ∨ n = fresh ∨ n = fresh + 1) f0 (fresh + 2) := by
            refine ⟨?_, ?_, ?_, ?_, ?_, ?_, le_trans hI7 (by omega)⟩
            · intro n hn
              rw [List.contains_cons, Bool.or_eq_true] at hn
              rcases hn with hn | hn
              · left
                rw [List.map_append, List.mem_append]
                right
                simp [beq_iff_eq.mp hn]
              · rcases hI1 n hn with hdm | he
                · left
                  rw [List.map_append, List.mem_append]
                  exact Or.inl hdm
                · exact Or.inr (Or.inl he)
            · intro rv hrv
              rw [List.mem_append] at hrv
              rcases hrv with hrv | hrv
              · rw [List.contains_cons, Bool.or_eq_true]
                exact Or.inr (hI2 rv hrv)
              · rw [List.mem_singleton] at hrv
                subst hrv
                simp [List.contains_cons]
            · intro rv hrv hE2
              rw [List.mem_append] at hrv
              rcases hrv with hrv | hrv
              · rcases hE2 with hE | hEq | hEq
                · exact hI3 rv hrv hE
                · have hlt := hI6 rv.1 (hI2 rv hrv)
                  rw [hEq] at hlt
                  exact absurd hlt (by omega)
                · have hlt := hI6 rv.1 (hI2 rv hrv)
                  rw [hEq] at hlt
                  exact absurd hlt (by omega)
              · rw [List.mem_singleton] at hrv
                subst hrv
                rcases hE2 with hE | hEq | hEq
                · rcases hI5 r hE with hc | ⟨hge, _⟩
                  · rw [hcr] at hc
                    exact absurd hc (by simp)
                  · exact absurd hge (by omega)
                · have hEq2 : r = fresh := hEq
                  omega
                · have hEq2 : r = fresh + 1 := hEq
                  omega
            · intro rv hrv m hm2
              rw [List.mem_append] at hrv
              rcases hrv with hrv | hrv
              · exact Or.inl (hI4 rv hrv m hm2)
              · rw [List.mem_singleton] at hrv
                subst hrv
                rw [show ((r, Value.reg (fresh + 1)).2 : Value).regsOf
                    = [fresh + 1] from rfl, List.mem_singleton] at hm2
                exact Or.inr (Or.inr hm2)
            · intro n hE2
              rcases hE2 with hE | hEq | hEq
              · rcases hI5 n hE with hc | ⟨hge, hlt⟩
                · left
                  rw [List.contains_cons, Bool.or_eq_true]
                  exact Or.inr hc
                · exact Or.inr ⟨hge, by omega⟩
              · exact Or.inr ⟨by omega, by omega⟩
              · refine Or.inr ⟨?_, by omega⟩
                rw [hEq]
                exact le_trans hI7 (by omega)
            · intro n hn
              rw [List.contains_cons, Bool.or_eq_true] at hn
              rcases hn with hn | hn
              · rw [beq_iff_eq.mp hn]
                exact hrf
              · exact hI6 n hn
          obtain ⟨huse, hinv, hfr⟩ := ih (fresh + 2)
            (σ ++ [(r, Value.reg (fresh + 1))]) (r :: D) D2
            (fun n => E n ∨ n = fresh ∨ n = fresh + 1) f0 hwf2 hB2 hIE
          have hscan : MyPasses.StrengthReductionPass.scan fresh σ (i :: rest)
              = (Instr.binop fresh .shl x (.const 4) ::
                   Instr.binop (fresh + 1) .sub (.reg fresh) x ::
                   (MyPasses.StrengthReductionPass.scan (fresh + 2)
                     (σ ++ [(r, Value.reg (fresh + 1))]) rest).1,
                 (MyPasses.StrengthReductionPass.scan (fresh + 2)
                   (σ ++ [(r, Value.reg (fresh + 1))]) rest).2.1,
                 true,
                 (MyPasses.StrengthReductionPass.scan (fresh + 2)
                   (σ ++ [(r, Value.reg (fresh + 1))]) rest).2.2.2) := by
            rw [MyPasses.StrengthReductionPass.scan, hm]
          have hd1 : (Instr.binop fresh Opcode.shl x (Value.const 4)).defId
              = some fresh := rfl
          have hd2 : (Instr.binop (fresh + 1) Opcode.sub (Value.reg fresh)
              x).defId = some (fresh + 1) := rfl
          rw [hscan]
          refine ⟨?_, ?_, le_trans (by omega) hfr⟩
          · intro t ht m hmt
            simp only [defIdsL_cons_some hd1, defIdsL_cons_some hd2]
            rcases List.mem_cons.mp ht with rfl | ht
            · have hmx : m ∈ x.regsOf := by
                simpa [Instr.useRegs, Instr.useVals, Value.regsOf] using hmt
              exact Or.inl (hxE m hmx)
            rcases List.mem_cons.mp ht with rfl | ht
            · have hmx : m = fresh ∨ m ∈ x.regsOf := by
                simpa [Instr.useRegs, Instr.useVals, Value.regsOf] using hmt
              rcases hmx with rfl | hmx
              · exact Or.inr (List.mem_cons_self _ _)
              · exact Or.inl (hxE m hmx)
            rcases huse t ht m hmt with (hE | hEq | hEq) | hdef
            · exact Or.inl hE
            · right
              rw [hEq]
              exact List.mem_cons_self _ _
            · right
              rw [hEq]
              exact List.mem_cons_of_mem _ (List.mem_cons_self _ _)
            · exact Or.inr (List.mem_cons_of_mem _
                (List.mem_cons_of_mem _ hdef))
          · refine InvS_congr ?_ hinv
            intro n
            simp only [defIdsL_cons_some hd1, defIdsL_cons_some hd2,
              List.mem_cons]
            tauto
        · -- divRew
          obtain ⟨hjdr, hx⟩ := mpsr_srMatch_div hm
          have hdir : i.defId = some r := by
            rw [← Instr.defId_applyI σ i]
            exact hjdr
          rw [hdir] at hrest
          obtain ⟨hcr, hwf2⟩ := hrest
          have hrf : r < f0 := by
            refine hB r ?_
            rw [defIdsL_cons_some hdir]
            exact List.mem_cons_self _ _
          have hB2 : ∀ d ∈ defIdsL rest, d < f0 := by
            intro d hdm
            refine hB d ?_
            rw [defIdsL_cons_some hdir]
            exact List.mem_cons_of_mem _ hdm
          have hxE : ∀ m ∈ x.regsOf, E m := fun m hm2 => hjE m (hx m hm2)
          have hIE : InvS (σ ++ [(r, Value.reg fresh)]) (r :: D)
              (fun n => E n ∨ n = fresh) f0 (fresh + 1) := by
            refine ⟨?_, ?_, ?_, ?_, ?_, ?_, le_trans hI7 (by omega)⟩
            · intro n hn
              rw [List.contains_cons, Bool.or_eq_true] at hn
              rcases hn with hn | hn
              · left
                rw [List.map_append, List.mem_append]
                right
                simp [beq_iff_eq.mp hn]
              · rcases hI1 n hn with hdm | he
                · left
                  rw [List.map_append, List.mem_append]
                  exact Or.inl hdm
                · exact Or.inr (Or.inl he)
            · intro rv hrv
              rw [List.mem_append] at hrv
              rcases hrv with hrv | hrv
              · rw [List.contains_cons, Bool.or_eq_true]
                exact Or.inr (hI2 rv hrv)
              · rw [List.mem_singleton] at hrv
                subst hrv
                simp [List.contains_cons]
            · intro rv hrv hE2
              rw [List.mem_append] at hrv
              rcases hrv with hrv | hrv
              · rcases hE2 with hE | hEq
                · exact hI3 rv hrv hE
                · have hlt := hI6 rv.1 (hI2 rv hrv)
                  rw [hEq] at hlt
                  exact absurd hlt (by omega)
              · rw [List.mem_singleton] at hrv
                subst hrv
                rcases hE2 with hE | hEq
                · rcases hI5 r hE with hc | ⟨hge, _⟩
                  · rw [hcr] at hc
                    exact absurd hc (by simp)
                  · exact absurd hge (by omega)
                · have hEq2 : r = fresh := hEq
                  omega
            · intro rv hrv m hm2
              rw [List.mem_append] at hrv
              rcases hrv with hrv | hrv
              · exact Or.inl (hI4 rv hrv m hm2)
              · rw [List.mem_singleton] at hrv
                subst hrv
                rw [show ((r, Value.reg fresh).2 : Value).regsOf
                    = [fresh] from rfl, List.mem_singleton] at hm2
                exact Or.inr hm2
            · intro n hE2
              rcases hE2 with hE | hEq
              · rcases hI5 n hE with hc | ⟨hge, hlt⟩
                · left
                  rw [List.contains_cons, Bool.or_eq_true]
                  exact Or.inr hc
                · exact Or.inr ⟨hge, by omega⟩
              · exact Or.inr ⟨by omega, by omega⟩
            · intro n hn
              rw [List.contains_cons, Bool.or_eq_true] at hn
              rcases hn with hn | hn
              · rw [beq_iff_eq.mp hn]
                exact hrf
              · exact hI6 n hn
          obtain ⟨huse, hinv, hfr⟩ := ih (fresh + 1)
            (σ ++ [(r, Value.reg fresh)]) (r :: D) D2
            (fun n => E n ∨ n = fresh) f0 hwf2 hB2 hIE
          have hscan : MyPasses.StrengthReductionPass.scan fresh σ (i :: rest)
              = (Instr.binop fresh .lshr x (.const 3) ::
                   (MyPasses.StrengthReductionPass.scan (fresh + 1)
                     (σ ++ [(r, Value.reg fresh)]) rest).1,
                 (MyPasses.StrengthReductionPass.scan (fresh + 1)
                   (σ ++ [(r, Value.reg fresh)]) rest).2.1,
                 true,
                 (MyPasses.StrengthReductionPass.scan (fresh + 1)
                   (σ ++ [(r, Value.reg fresh)]) rest).2.2.2) := by
            rw [MyPasses.StrengthReductionPass.scan, hm]
          have hd1 : (Instr.binop fresh Opcode.lshr x (Value.const 3)).defId
              = some fresh := rfl
          rw [hscan]
          refine ⟨?_, ?_, le_trans (by omega) hfr⟩
          · intro t ht m hmt
            simp only [defIdsL_cons_some hd1]
            rcases List.mem_cons.mp ht with rfl | ht
            · have hmx : m ∈ x.regsOf := by
                simpa [Instr.useRegs, Instr.useVals, Value.regsOf] using hmt
              exact Or.inl (hxE m hmx)
            rcases huse t ht m hmt with (hE | hEq) | hdef
            · exact Or.inl hE
            · right
              rw [hEq]
              exact List.mem_cons_self _ _
            · exact Or.inr (List.mem_cons_of_mem _ hdef)
          · refine InvS_congr ?_ hinv
            intro n
            simp only [defIdsL_cons_some hd1, List.mem_cons]
            tauto

theorem mpsr_blocks_closure (F : Func) : ∀ (fresh : Nat) (σ : Subs)
    (D D2 : List Nat) (E : Nat → Prop) (f0 : Nat),
    wfBlocks D F = some D2 →
    (∀ d ∈ defIdsF F, d < f0) →
    InvS σ D E f0 fresh →
    (∀ t ∈ ((MyPasses.StrengthReductionPass.scanBlocks fresh σ F).1).flatten,
      ∀ m ∈ t.useRegs,
      E m ∨ m ∈ defIdsF (MyPasses.StrengthReductionPass.scanBlocks fresh σ
        F).1) ∧
    InvS (MyPasses.StrengthReductionPass.scanBlocks fresh σ F).2.1 D2
      (fun n => E n ∨ n ∈ defIdsF (MyPasses.StrengthReductionPass.scanBlocks
        fresh σ F).1)
      f0 (MyPasses.StrengthReductionPass.scanBlocks fresh σ F).2.2.2 ∧
    fresh ≤ (MyPasses.StrengthReductionPass.scanBlocks fresh σ F).2.2.2 := by
  induction F with
  | nil =>
      intro fresh σ D D2 E f0 hwf hB hI
      rw [wfBlocks, Option.some.injEq] at hwf
      subst hwf
      refine ⟨?_, ?_, le_refl _⟩
      · intro t ht
        simp [MyPasses.StrengthReductionPass.scanBlocks] at ht
      · refine InvS_congr ?_ hI
        intro n
        simp [MyPasses.StrengthReductionPass.scanBlocks, defIdsF, defIdsL]
  | cons B Bs ih =>
      intro fresh σ D D2 E f0 hwf hB hI
      rw [wfBlocks] at hwf
      split at hwf
      next Dm hDm =>
        have hscan : MyPasses.StrengthReductionPass.scanBlocks fresh σ
            (B :: Bs)
            = ((MyPasses.StrengthReductionPass.scan fresh σ B).1 ::
                (MyPasses.StrengthReductionPass.scanBlocks
                  (MyPasses.StrengthReductionPass.scan fresh σ B).2.2.2
                  (MyPasses.StrengthReductionPass.scan fresh σ B).2.1 Bs).1,
               (MyPasses.StrengthReductionPass.scanBlocks
                 (MyPasses.StrengthReductionPass.scan fresh σ B).2.2.2
                 (MyPasses.StrengthReductionPass.scan fresh σ B).2.1 Bs).2.1,
               (MyPasses.StrengthReductionPass.scan fresh σ B).2.2.1 ||
                 (MyPasses.StrengthReductionPass.scanBlocks
                   (MyPasses.StrengthReductionPass.scan fresh σ B).2.2.2
                   (MyPasses.StrengthReductionPass.scan fresh σ B).2.1
                   Bs).2.2.1,
               (MyPasses.StrengthReductionPass.scanBlocks
                 (MyPasses.StrengthReductionPass.scan fresh σ B).2.2.2
                 (MyPasses.StrengthReductionPass.scan fresh σ B).2.1
                 Bs).2.2.2) := by
          rw [MyPasses.StrengthReductionPass.scanBlocks]
        have hBB : ∀ d ∈ defIdsL B, d < f0 := by
          intro d hd
          refine hB d ?_
          rw [defIdsF_cons, List.mem_append]
          exact Or.inl hd
        have hBBs : ∀ d ∈ defIdsF Bs, d < f0 := by
          intro d hd
          refine hB d ?_
          rw [defIdsF_cons, List.mem_append]
          exact Or.inr hd
        obtain ⟨huseB, hinvB, hfrB⟩ := mpsr_scan_closure B fresh σ D Dm E f0
          hDm hBB hI
        obtain ⟨huseBs, hinvBs, hfrBs⟩ := ih
          (MyPasses.StrengthReductionPass.scan fresh σ B).2.2.2
          (MyPasses.StrengthReductionPass.scan fresh σ B).2.1 Dm D2
          (fun n => E n ∨
            n ∈ defIdsL (MyPasses.StrengthReductionPass.scan fresh σ B).1)
          f0 hwf hBBs hinvB
        rw [hscan]
        refine ⟨?_, ?_, le_trans hfrB hfrBs⟩
        · intro t ht m hmt
          rw [defIdsF_cons, List.mem_append]
          rw [List.flatten_cons, List.mem_append] at ht
          rcases ht with ht | ht
          · rcases huseB t ht m hmt with hE | hdef
            · exact Or.inl hE
            · exact Or.inr (Or.inl hdef)
          · rcases huseBs t ht m hmt with (hE | hdef1) | hdef2
            · exact Or.inl hE
            · exact Or.inr (Or.inl hdef1)
            · exact Or.inr (Or.inr hdef2)
        · refine InvS_congr ?_ hinvBs
          intro n
          rw [defIdsF_cons, List.mem_append]
          tauto
      next => simp at hwf

theorem mpsr_run_noDangling (fresh : Nat) (F : Func) (h : WF F = true)
    (hb : idsBelow fresh F = true) :
    ∀ m ∈ useRegsF (MyPasses.StrengthReductionPass.run fresh F).1,
      m ∈ defIdsF (MyPasses.StrengthReductionPass.run fresh F).1 := by
  unfold WF at h
  obtain ⟨D2, hD2⟩ := Option.isSome_iff_exists.mp h
  unfold idsBelow at hb
  rw [List.all_eq_true] at hb
  have hB : ∀ d ∈ defIdsF F, d < fresh := by
    intro d hd
    have := hb d hd
    simpa using this
  have hinit : InvS [] [] (fun _ => False) fresh fresh := by
    refine ⟨?_, ?_, ?_, ?_, ?_, ?_, le_refl _⟩ <;> simp
  obtain ⟨huse, _, _⟩ := mpsr_blocks_closure F fresh [] [] D2
    (fun _ => False) fresh hD2 hB hinit
  intro m hm
  have hm2 : m ∈ useRegsF (MyPasses.StrengthReductionPass.scanBlocks fresh
      [] F).1 := hm
  unfold useRegsF at hm2
  rw [List.mem_flatten] at hm2
  obtain ⟨l, hl, hml⟩ := hm2
  rw [List.mem_map] at hl
  obtain ⟨t, ht, rfl⟩ := hl
  rcases huse t ht m hml with hF | hdef
  · exact hF.elim
  · exact hdef

theorem p0sr_scan_closure (B : List Instr) : ∀ (fresh : Nat) (σ : Subs)
    (D D2 : List Nat) (E : Nat → Prop) (f0 : Nat),
    wfScan D B = some D2 →
    (∀ d ∈ defIdsL B, d < f0) →
    InvS σ D E f0 fresh →
    (∀ t ∈ (Part000.StrengthReductionPass.scan fresh σ B).1, ∀ m ∈ t.useRegs,
      E m ∨ m ∈ defIdsL (Part000.StrengthReductionPass.scan fresh σ B).1) ∧
    InvS (Part000.StrengthReductionPass.scan fresh σ B).2.1 D2
      (fun n => E n ∨ n ∈ defIdsL (Part000.StrengthReductionPass.scan fresh σ
        B).1)
      f0 (Part000.StrengthReductionPass.scan fresh σ B).2.2.2 ∧
    fresh ≤ (Part000.StrengthReductionPass.scan fresh σ B).2.2.2 := by
  induction B with
  | nil =>
      intro fresh σ D D2 E f0 hwf hB hI
      rw [wfScan, Option.some.injEq] at hwf
      subst hwf
      refine ⟨?_, ?_, le_refl _⟩
      · intro t ht
        simp [Part000.StrengthReductionPass.scan] at ht
      · refine InvS_congr ?_ hI
        intro n
        simp [Part000.StrengthReductionPass.scan, defIdsL]
  | cons i rest ih =>
      intro fresh σ D D2 E f0 hwf hB hI
      obtain ⟨hI1, hI2, hI3, hI4, hI5, hI6, hI7⟩ := hI
      obtain ⟨hraw, hrest⟩ := wfScan_cons_eq hwf
      have hjE : ∀ m ∈ (applyI σ i).useRegs, E m :=
        applyI_uses_closed hI1 hI3 hI4 hraw
      rcases hm : Part000.StrengthReductionPass.srMatch (applyI σ i)
        with _ | act
      · -- not matched: the instruction is emitted
        have hscan : Part000.StrengthReductionPass.scan fresh σ (i :: rest)
            = (applyI σ i :: (Part000.StrengthReductionPass.scan fresh σ
                rest).1,
               (Part000.StrengthReductionPass.scan fresh σ rest).2.1,
               (Part000.StrengthReductionPass.scan fresh σ rest).2.2.1,
               (Part000.StrengthReductionPass.scan fresh σ rest).2.2.2) := by
          rw [Part000.StrengthReductionPass.scan, hm]
        rcases hd : i.defId with _ | dj
        · rw [hd] at hrest
          have hjd : (applyI σ i).defId = Option.none := by
            rw [Instr.defId_applyI, hd]
          have hB2 : ∀ d ∈ defIdsL rest, d < f0 := by
            intro d hdm
            refine hB d ?_
            rw [defIdsL_cons_none hd]
            exact hdm
          obtain ⟨huse, hinv, hfr⟩ := ih fresh σ D D2 E f0 hrest hB2
            ⟨hI1, hI2, hI3, hI4, hI5, hI6, hI7⟩
          rw [hscan]
          refine ⟨?_, ?_, hfr⟩
          · intro t ht m hmt
            simp only [defIdsL_cons_none hjd]
            rcases List.mem_cons.mp ht with rfl | ht2
            · exact Or.inl (hjE m hmt)
            · exact huse t ht2 m hmt
          · refine InvS_congr ?_ hinv
            intro n
            simp only [defIdsL_cons_none hjd]
        · rw [hd] at hrest
          obtain ⟨hcdj, hwf2⟩ := hrest
          have hjd : (applyI σ i).defId = some dj := by
            rw [Instr.defId_applyI, hd]
          have hdjf : dj < f0 := by
            refine hB dj ?_
            rw [defIdsL_cons_some hd]
            exact List.mem_cons_self _ _
          have hB2 : ∀ d ∈ defIdsL rest, d < f0 := by
            intro d hdm
            refine hB d ?_
            rw [defIdsL_cons_some hd]
            exact List.mem_cons_of_mem _ hdm
          have hIE : InvS σ (dj :: D) (fun n => E n ∨ n = dj) f0 fresh := by
            refine ⟨?_, ?_, ?_, ?_, ?_, ?_, hI7⟩
            · intro n hn
              rw [List.contains_cons, Bool.or_eq_true] at hn
              rcases hn with hn | hn
              · exact Or.inr (Or.inr (beq_iff_eq.mp hn))
              · rcases hI1 n hn with hdm | he
                · exact Or.inl hdm
                · exact Or.inr (Or.inl he)
            · intro rv hrv
              rw [List.contains_cons, Bool.or_eq_true]
              exact Or.inr (hI2 rv hrv)
            · intro rv hrv hE2
              rcases hE2 with hE | hEq
              · exact hI3 rv hrv hE
              · have hc := hI2 rv hrv
                rw [hEq, hcdj] at hc
                exact absurd hc (by simp)
            · intro rv hrv m hm2
              exact Or.inl (hI4 rv hrv m hm2)
            · intro n hE2
              rcases hE2 with hE | hEq
              · rcases hI5 n hE with hc | hfr2
                · left
                  rw [List.contains_cons, Bool.or_eq_true]
                  exact Or.inr hc
                · exact Or.inr hfr2
              · left
                rw [hEq, List.contains_cons, Bool.or_eq_true]
                left
                simp
            · intro n hn
              rw [List.contains_cons, Bool.or_eq_true] at hn
              rcases hn with hn | hn
              · rw [beq_iff_eq.mp hn]
                exact hdjf
              · exact hI6 n hn
          obtain ⟨huse, hinv, hfr⟩ := ih fresh σ (dj :: D) D2
            (fun n => E n ∨ n = dj) f0 hwf2 hB2 hIE
          rw [hscan]
          refine ⟨?_, ?_, hfr⟩
          · intro t ht m hmt
            simp only [defIdsL_cons_some hjd]
            rcases List.mem_cons.mp ht with rfl | ht2
            · exact Or.inl (hjE m hmt)
            · rcases huse t ht2 m hmt with (hE | hEq) | hdef
              · exact Or.inl hE
              · right
                rw [hEq]
                exact List.mem_cons_self _ _
              · exact Or.inr (List.mem_cons_of_mem _ hdef)
          · refine InvS_congr ?_ hinv
            intro n
            simp only [defIdsL_cons_some hjd, List.mem_cons]
            tauto
      · -- matched: two sub-cases, Mul → Shl/Sub and Div → LShr
        rcases act with ⟨r, x⟩ | ⟨r, x⟩
        · -- mulRew
          obtain ⟨hjdr, hx⟩ := p0sr_srMatch_mul hm
          have hdir : i.defId = some r := by
            rw [← Instr.defId_applyI σ i]
            exact hjdr
          rw [hdir] at hrest
          obtain ⟨hcr, hwf2⟩ := hrest
          have hrf : r < f0 := by
            refine hB r ?_
            rw [defIdsL_cons_some hdir]
            exact List.mem_cons_self _ _
          have hB2 : ∀ d ∈ defIdsL rest, d < f0 := by
            intro d hdm
            refine hB d ?_
            rw [defIdsL_cons_some hdir]
            exact List.mem_cons_of_mem _ hdm
          have hxE : ∀ m ∈ x.regsOf, E m := fun m hm2 => hjE m (hx m hm2)
          have hIE : InvS (σ ++ [(r, Value.reg (fresh + 1))]) (r :: D)
              (fun n => E n ∨ n = fresh ∨ n = fresh + 1) f0 (fresh + 2) := by
            refine ⟨?_, ?_, ?_, ?_, ?_, ?_, le_trans hI7 (by omega)⟩
            · intro n hn
              rw [List.contains_cons, Bool.or_eq_true] at hn
              rcases hn with hn | hn
              · left
                rw [List.map_append, List.mem_append]
                right
                simp [beq_iff_eq.mp hn]
              · rcases hI1 n hn with hdm | he
                · left
                  rw [List.map_append, List.mem_append]
                  exact Or.inl hdm
                · exact Or.inr (Or.inl he)
            · intro rv hrv
              rw [List.mem_append] at hrv
              rcases hrv with hrv | hrv
              · rw [List.contains_cons, Bool.or_eq_true]
                exact Or.inr (hI2 rv hrv)
              · rw [List.mem_singleton] at hrv
                subst hrv
                simp [List.contains_cons]
            · intro rv hrv hE2
              rw [List.mem_append] at hrv
              rcases hrv with hrv | hrv
              · rcases hE2 with hE | hEq | hEq
                · exact hI3 rv hrv hE
                · have hlt := hI6 rv.1 (hI2 rv hrv)
                  rw [hEq] at hlt
                  exact absurd hlt (by omega)
                · have hlt := hI6 rv.1 (hI2 rv hrv)
                  rw [hEq] at hlt
                  exact absurd hlt (by omega)
              · rw [List.mem_singleton] at hrv
                subst hrv
                rcases hE2 with hE | hEq | hEq
                · rcases hI5 r hE with hc | ⟨hge, _⟩
                  · rw [hcr] at hc
                    exact absurd hc (by simp)
                  · exact absurd hge (by omega)
                · have hEq2 : r = fresh := hEq
                  omega
                · have hEq2 : r = fresh + 1 := hEq
                  omega
            · intro rv hrv m hm2
              rw [List.mem_append] at hrv
              rcases hrv with hrv | hrv
              · exact Or.inl (hI4 rv hrv m hm2)
              · rw [List.mem_singleton] at hrv
                subst hrv
                rw [show ((r, Value.reg (fresh + 1)).2 : Value).regsOf
                    = [fresh + 1] from rfl, List.mem_singleton] at hm2
                exact Or.inr (Or.inr hm2)
            · intro n hE2
              rcases hE2 with hE | hEq | hEq
              · rcases hI5 n hE with hc | ⟨hge, hlt⟩
                · left
                  rw [List.contains_cons, Bool.or_eq_true]
                  exact Or.inr hc
                · exact Or.inr ⟨hge, by omega⟩
              · exact Or.inr ⟨by omega, by omega⟩
              · refine Or.inr ⟨?_, by omega⟩
                rw [hEq]
                exact le_trans hI7 (by omega)
            · intro n hn
              rw [List.contains_cons, Bool.or_eq_true] at hn
              rcases hn with hn | hn
              · rw [beq_iff_eq.mp hn]
                exact hrf
              · exact hI6 n hn
          obtain ⟨huse, hinv, hfr⟩ := ih (fresh + 2)
            (σ ++ [(r, Value.reg (fresh + 1))]) (r :: D) D2
            (fun n => E n ∨ n = fresh ∨ n = fresh + 1) f0 hwf2 hB2 hIE
          have hscan : Part000.StrengthReductionPass.scan fresh σ (i :: rest)
              = (Instr.binop fresh .shl x (.const 4) ::
                   Instr.binop (fresh + 1) .sub (.reg fresh) x ::
                   (Part000.StrengthReductionPass.scan (fresh + 2)
                     (σ ++ [(r, Value.reg (fresh + 1))]) rest).1,
                 (Part000.StrengthReductionPass.scan (fresh + 2)
                   (σ ++ [(r, Value.reg (fresh + 1))]) rest).2.1,
                 true,
                 (Part000.StrengthReductionPass.scan (fresh + 2)
                   (σ ++ [(r, Value.reg (fresh + 1))]) rest).2.2.2) := by
            rw [Part000.StrengthReductionPass.scan, hm]
          have hd1 : (Instr.binop fresh Opcode.shl x (Value.const 4)).defId
              = some fresh := rfl
          have hd2 : (Instr.binop (fresh + 1) Opcode.sub (Value.reg fresh)
              x).defId = some (fresh + 1) := rfl
          rw [hscan]
          refine ⟨?_, ?_, le_trans (by omega) hfr⟩
          · intro t ht m hmt
            simp only [defIdsL_cons_some hd1, defIdsL_cons_some hd2]
            rcases List.mem_cons.mp ht with rfl | ht
            · have hmx : m ∈ x.regsOf := by
                simpa [Instr.useRegs, Instr.useVals, Value.regsOf] using hmt
              exact Or.inl (hxE m hmx)
            rcases List.mem_cons.mp ht with rfl | ht
            · have hmx : m = fresh ∨ m ∈ x.regsOf := by
                simpa [Instr.useRegs, Instr.useVals, Value.regsOf] using hmt
              rcases hmx with rfl | hmx
              · exact Or.inr (List.mem_cons_self _ _)
              · exact Or.inl (hxE m hmx)
            rcases huse t ht m hmt with (hE | hEq | hEq) | hdef
            · exact Or.inl hE
            · right
              rw [hEq]
              exact List.mem_cons_self _ _
            · right
              rw [hEq]
              exact List.mem_cons_of_mem _ (List.mem_cons_self _ _)
            · exact Or.inr (List.mem_cons_of_mem _
                (List.mem_cons_of_mem _ hdef))
          · refine InvS_congr ?_ hinv
            intro n
            simp only [defIdsL_cons_some hd1, defIdsL_cons_some hd2,
              List.mem_cons]
            tauto
        · -- divRew
          obtain ⟨hjdr, hx⟩ := p0sr_srMatch_div hm
          have hdir : i.defId = some r := by
            rw [← Instr.defId_applyI σ i]
            exact hjdr
          rw [hdir] at hrest
          obtain ⟨hcr, hwf2⟩ := hrest
          have hrf : r < f0 := by
            refine hB r ?_
            rw [defIdsL_cons_some hdir]
            exact List.mem_cons_self _ _
          have hB2 : ∀ d ∈ defIdsL rest, d < f0 := by
            intro d hdm
            refine hB d ?_
            rw [defIdsL_cons_some hdir]
            exact List.mem_cons_of_mem _ hdm
          have hxE : ∀ m ∈ x.regsOf, E m := fun m hm2 => hjE m (hx m hm2)
          have hIE : InvS (σ ++ [(r, Value.reg fresh)]) (r :: D)
              (fun n => E n ∨ n = fresh) f0 (fresh + 1) := by
            refine ⟨?_, ?_, ?_, ?_, ?_, ?_, le_trans hI7 (by omega)⟩
            · intro n hn
              rw [List.contains_cons, Bool.or_eq_true] at hn
              rcases hn with hn | hn
              · left
                rw [List.map_append, List.mem_append]
                right
                simp [beq_iff_eq.mp hn]
              · rcases hI1 n hn with hdm | he
                · left
                  rw [List.map_append, List.mem_append]
                  exact Or.inl hdm
                · exact Or.inr (Or.inl he)
            · intro rv hrv
              rw [List.mem_append] at hrv
              rcases hrv with hrv | hrv
              · rw [List.contains_cons, Bool.or_eq_true]
                exact Or.inr (hI2 rv hrv)
              · rw [List.mem_singleton] at hrv
                subst hrv
                simp [List.contains_cons]
            · intro rv hrv hE2
              rw [List.mem_append] at hrv
              rcases hrv with hrv | hrv
              · rcases hE2 with hE | hEq
                · exact hI3 rv hrv hE
                · have hlt := hI6 rv.1 (hI2 rv hrv)
                  rw [hEq] at hlt
                  exact absurd hlt (by omega)
              · rw [List.mem_singleton] at hrv
                subst hrv
                rcases hE2 with hE | hEq
                · rcases hI5 r hE with hc | ⟨hge, _⟩
                  · rw [hcr] at hc
                    exact absurd hc (by simp)
                  · exact absurd hge (by omega)
                · have hEq2 : r = fresh := hEq
                  omega
            · intro rv hrv m hm2
              rw [List.mem_append] at hrv
              rcases hrv with hrv | hrv
              · exact Or.inl (hI4 rv hrv m hm2)
              · rw [List.mem_singleton] at hrv
                subst hrv
                rw [show ((r, Value.reg fresh).2 : Value).regsOf
                    = [fresh] from rfl, List.mem_singleton] at hm2
                exact Or.inr hm2
            · intro n hE2
              rcases hE2 with hE | hEq
              · rcases hI5 n hE with hc | ⟨hge, hlt⟩
                · left
                  rw [List.contains_cons, Bool.or_eq_true]
                  exact Or.inr hc
                · exact Or.inr ⟨hge, by omega⟩
              · exact Or.inr ⟨by omega, by omega⟩
            · intro n hn
              rw [List.contains_cons, Bool.or_eq_true] at hn
              rcases hn with hn | hn
              · rw [beq_iff_eq.mp hn]
                exact hrf
              · exact hI6 n hn
          obtain ⟨huse, hinv, hfr⟩ := ih (fresh + 1)
            (σ ++ [(r, Value.reg fresh)]) (r :: D) D2
            (fun n => E n ∨ n = fresh) f0 hwf2 hB2 hIE
          have hscan : Part000.StrengthReductionPass.scan fresh σ (i :: rest)
              = (Instr.binop fresh .ashr x (.const 3) ::
                   (Part000.StrengthReductionPass.scan (fresh + 1)
                     (σ ++ [(r, Value.reg fresh)]) rest).1,
                 (Part000.StrengthReductionPass.scan (fresh + 1)
                   (σ ++ [(r, Value.reg fresh)]) rest).2.1,
                 true,
                 (Part000.StrengthReductionPass.scan (fresh + 1)
                   (σ ++ [(r, Value.reg fresh)]) rest).2.2.2) := by
            rw [Part000.StrengthReductionPass.scan, hm]
          have hd1 : (Instr.binop fresh Opcode.ashr x (Value.const 3)).defId
              = some fresh := rfl
          rw [hscan]
          refine ⟨?_, ?_, le_trans (by omega) hfr⟩
          · intro t ht m hmt
            simp only [defIdsL_cons_some hd1]
            rcases List.mem_cons.mp ht with rfl | ht
            · have hmx : m ∈ x.regsOf := by
                simpa [Instr.useRegs, Instr.useVals, Value.regsOf] using hmt
              exact Or.inl (hxE m hmx)
            rcases huse t ht m hmt with (hE | hEq) | hdef
            · exact Or.inl hE
            · right
              rw [hEq]
              exact List.mem_cons_self _ _
            · exact Or.inr (List.mem_cons_of_mem _ hdef)
          · refine InvS_congr ?_ hinv
            intro n
            simp only [defIdsL_cons_some hd1, List.mem_cons]
            tauto

theorem p0sr_blocks_closure (F : Func) : ∀ (fresh : Nat) (σ : Subs)
    (D D2 : List Nat) (E : Nat → Prop) (f0 : Nat),
    wfBlocks D F = some D2 →
    (∀ d ∈ defIdsF F, d < f0) →
    InvS σ D E f0 fresh →
    (∀ t ∈ ((Part000.StrengthReductionPass.scanBlocks fresh σ F).1).flatten,
      ∀ m ∈ t.useRegs,
      E m ∨ m ∈ defIdsF (Part000.StrengthReductionPass.scanBlocks fresh σ
        F).1) ∧
    InvS (Part000.StrengthReductionPass.scanBlocks fresh σ F).2.1 D2
      (fun n => E n ∨ n ∈ defIdsF (Part000.StrengthReductionPass.scanBlocks
        fresh σ F).1)
      f0 (Part000.StrengthReductionPass.scanBlocks fresh σ F).2.2.2 ∧
    fresh ≤ (Part000.StrengthReductionPass.scanBlocks fresh σ F).2.2.2 := by
  induction F with
  | nil =>
      intro fresh σ D D2 E f0 hwf hB hI
      rw [wfBlocks, Option.some.injEq] at hwf
      subst hwf
      refine ⟨?_, ?_, le_refl _⟩
      · intro t ht
        simp [Part000.StrengthReductionPass.scanBlocks] at ht
      · refine InvS_congr ?_ hI
        intro n
        simp [Part000.StrengthReductionPass.scanBlocks, defIdsF, defIdsL]
  | cons B Bs ih =>
      intro fresh σ D D2 E f0 hwf hB hI
      rw [wfBlocks] at hwf
      split at hwf
      next Dm hDm =>
        have hscan : Part000.StrengthReductionPass.scanBlocks fresh σ
            (B :: Bs)
            = ((Part000.StrengthReductionPass.scan fresh σ B).1 ::
                (Part000.StrengthReductionPass.scanBlocks
                  (Part000.StrengthReductionPass.scan fresh σ B).2.2.2
                  (Part000.StrengthReductionPass.scan fresh σ B).2.1 Bs).1,
               (Part000.StrengthReductionPass.scanBlocks
                 (Part000.StrengthReductionPass.scan fresh σ B).2.2.2
                 (Part000.StrengthReductionPass.scan fresh σ B).2.1 Bs).2.1,
               (Part000.StrengthReductionPass.scan fresh σ B).2.2.1 ||
                 (Part000.StrengthReductionPass.scanBlocks
                   (Part000.StrengthReductionPass.scan fresh σ B).2.2.2
                   (Part000.StrengthReductionPass.scan fresh σ B).2.1
                   Bs).2.2.1,
               (Part000.StrengthReductionPass.scanBlocks
                 (Part000.StrengthReductionPass.scan fresh σ B).2.2.2
                 (Part000.StrengthReductionPass.scan fresh σ B).2.1
                 Bs).2.2.2) := by
          rw [Part000.StrengthReductionPass.scanBlocks]
        have hBB : ∀ d ∈ defIdsL B, d < f0 := by
          intro d hd
          refine hB d ?_
          rw [defIdsF_cons, List.mem_append]
          exact Or.inl hd
        have hBBs : ∀ d ∈ defIdsF Bs, d < f0 := by
          intro d hd
          refine hB d ?_
          rw [defIdsF_cons, List.mem_append]
          exact Or.inr hd
        obtain ⟨huseB, hinvB, hfrB⟩ := p0sr_scan_closure B fresh σ D Dm E f0
          hDm hBB hI
        obtain ⟨huseBs, hinvBs, hfrBs⟩ := ih
          (Part000.StrengthReductionPass.scan fresh σ B).2.2.2
          (Part000.StrengthReductionPass.scan fresh σ B).2.1 Dm D2
          (fun n => E n ∨
            n ∈ defIdsL (Part000.StrengthReductionPass.scan fresh σ B).1)
          f0 hwf hBBs hinvB
        rw [hscan]
        refine ⟨?_, ?_, le_trans hfrB hfrBs⟩
        · intro t ht m hmt
          rw [defIdsF_cons, List.mem_append]
          rw [List.flatten_cons, List.mem_append] at ht
          rcases ht with ht | ht
          · rcases huseB t ht m hmt with hE | hdef
            · exact Or.inl hE
            · exact Or.inr (Or.inl hdef)
          · rcases huseBs t ht m hmt with (hE | hdef1) | hdef2
            · exact Or.inl hE
            · exact Or.inr (Or.inl hdef1)
            · exact Or.inr (Or.inr hdef2)
        · refine InvS_congr ?_ hinvBs
          intro n
          rw [defIdsF_cons, List.mem_append]
          tauto
      next => simp at hwf

theorem p0sr_run_noDangling (fresh : Nat) (F : Func) (h : WF F = true)
    (hb : idsBelow fresh F = true) :
    ∀ m ∈ useRegsF (Part000.StrengthReductionPass.run fresh F).1,
      m ∈ defIdsF (Part000.StrengthReductionPass.run fresh F).1 := by
  unfold WF at h
  obtain ⟨D2, hD2⟩ := Option.isSome_iff_exists.mp h
  unfold idsBelow at hb
  rw [List.all_eq_true] at hb
  have hB : ∀ d ∈ defIdsF F, d < fresh := by
    intro d hd
    have := hb d hd
    simpa using this
  have hinit : InvS [] [] (fun _ => False) fresh fresh := by
    refine ⟨?_, ?_, ?_, ?_, ?_, ?_, le_refl _⟩ <;> simp
  obtain ⟨huse, _, _⟩ := p0sr_blocks_closure F fresh [] [] D2
    (fun _ => False) fresh hD2 hB hinit
  intro m hm
  have hm2 : m ∈ useRegsF (Part000.StrengthReductionPass.scanBlocks fresh
      [] F).1 := hm
  unfold useRegsF at hm2
  rw [List.mem_flatten] at hm2
  obtain ⟨l, hl, hml⟩ := hm2
  rw [List.mem_map] at hl
  obtain ⟨t, ht, rfl⟩ := hl
  rcases huse t ht m hml with hF | hdef
  · exact hF.elim
  · exact hdef

/-- Invariant for `TestPass.cpp`'s multi-instruction scan: `A` is the list of
already emitted instructions (earlier blocks' output plus the current block's
scanned prefix).  Every id recorded as defined so far (`D`) is either erased
(σ-domain) or defined in `A`; σ maps erased ids to values whose registers are
defined in `A`; and every register used by an emitted instruction is defined
in `A`. -/
def InvM (σ : Subs) (D : List Nat) (A : List Instr) : Prop :=
  (∀ n, D.contains n = true → n ∈ σ.map Prod.fst ∨ n ∈ defIdsL A) ∧
  (∀ rv ∈ σ, D.contains rv.1 = true) ∧
  (∀ rv ∈ σ, rv.1 ∉ defIdsL A) ∧
  (∀ rv ∈ σ, ∀ m ∈ (rv.2 : Value).regsOf, m ∈ defIdsL A) ∧
  (∀ n, n ∈ defIdsL A → D.contains n = true) ∧
  (∀ t ∈ A, ∀ m ∈ t.useRegs, m ∈ defIdsL A)

theorem InvM_emit_none {σ : Subs} {D : List Nat} {A : List Instr} {i : Instr}
    (hM : InvM σ D A)
    (hraw : (i.useRegs.all fun n => D.contains n) = true)
    (hd : i.defId = Option.none) :
    InvM σ D (A ++ [applyI σ i]) := by
  obtain ⟨h1, h2, h3, h4, h5, h6⟩ := hM
  have hjd : (applyI σ i).defId = Option.none := by
    rw [Instr.defId_applyI, hd]
  have hA : defIdsL (A ++ [applyI σ i]) = defIdsL A := by
    rw [defIdsL_append, defIdsL_cons_none hjd]
    simp [defIdsL]
  have hjE : ∀ m ∈ (applyI σ i).useRegs, m ∈ defIdsL A :=
    applyI_uses_closed h1 h3 h4 hraw
  rw [InvM, hA]
  refine ⟨h1, h2, h3, h4, h5, ?_⟩
  intro t ht m hm
  rw [List.mem_append, List.mem_singleton] at ht
  rcases ht with ht | rfl
  · exact h6 t ht m hm
  · exact hjE m hm

theorem InvM_emit_some {σ : Subs} {D : List Nat} {A : List Instr} {i : Instr}
    {dj : Nat} (hM : InvM σ D A)
    (hraw : (i.useRegs.all fun n => D.contains n) = true)
    (hd : i.defId = some dj) (hcd : D.contains dj = false) :
    InvM σ (dj :: D) (A ++ [applyI σ i]) := by
  obtain ⟨h1, h2, h3, h4, h5, h6⟩ := hM
  have hjd : (applyI σ i).defId = some dj := by
    rw [Instr.defId_applyI, hd]
  have hA : ∀ n, n ∈ defIdsL (A ++ [applyI σ i]) ↔ n ∈ defIdsL A ∨ n = dj := by
    intro n
    rw [defIdsL_append, defIdsL_cons_some hjd, List.mem_append]
    simp [defIdsL]
  have hjE : ∀ m ∈ (applyI σ i).useRegs, m ∈ defIdsL A :=
    applyI_uses_closed h1 h3 h4 hraw
  refine ⟨?_, ?_, ?_, ?_, ?_, ?_⟩
  · intro n hn
    rw [List.contains_cons, Bool.or_eq_true] at hn
    rcases hn with hn | hn
    · refine Or.inr ((hA n).mpr (Or.inr (beq_iff_eq.mp hn)))
    · rcases h1 n hn with hσ | hdef
      · exact Or.inl hσ
      · exact Or.inr ((hA n).mpr (Or.inl hdef))
  · intro rv hrv
    rw [List.contains_cons, Bool.or_eq_true]
    exact Or.inr (h2 rv hrv)
  · intro rv hrv hmem
    rcases (hA rv.1).mp hmem with hdef | heq
    · exact h3 rv hrv hdef
    · have hc := h2 rv hrv
      rw [heq, hcd] at hc
      exact absurd hc (by simp)
  · intro rv hrv m hm
    exact (hA m).mpr (Or.inl (h4 rv hrv m hm))
  · intro n hn
    rw [List.contains_cons, Bool.or_eq_true]
    rcases (hA n).mp hn with hdef | heq
    · exact Or.inr (h5 n hdef)
    · left
      rw [heq]
      simp
  · intro t ht m hm
    rw [List.mem_append, List.mem_singleton] at ht
    rcases ht with ht | rfl
    · exact (hA m).mpr (Or.inl (h6 t ht m hm))
    · exact (hA m).mpr (Or.inl (hjE m hm))

theorem InvM_rewrite {σ : Subs} {D : List Nat} {A : List Instr} {r : Nat}
    {b : Value} (hM : InvM σ D A)
    (hcd : D.contains r = false)
    (hb : ∀ m ∈ b.regsOf, m ∈ defIdsL A) :
    InvM (σ ++ [(r, b)]) (r :: D) A := by
  obtain ⟨h1, h2, h3, h4, h5, h6⟩ := hM
  refine ⟨?_, ?_, ?_, ?_, ?_, h6⟩
  · intro n hn
    rw [List.contains_cons, Bool.or_eq_true] at hn
    rcases hn with hn | hn
    · left
      rw [List.map_append, List.mem_append]
      right
      simp [beq_iff_eq.mp hn]
    · rcases h1 n hn with hσ | hdef
      · left
        rw [List.map_append, List.mem_append]
        exact Or.inl hσ
      · exact Or.inr hdef
  · intro rv hrv
    rw [List.mem_append] at hrv
    rcases hrv with hrv | hrv
    · rw [List.contains_cons, Bool.or_eq_true]
      exact Or.inr (h2 rv hrv)
    · rw [List.mem_singleton] at hrv
      subst hrv
      simp [List.contains_cons]
  · intro rv hrv hmem
    rw [List.mem_append] at hrv
    rcases hrv with hrv | hrv
    · exact h3 rv hrv hmem
    · rw [List.mem_singleton] at hrv
      subst hrv
      have hc := h5 r hmem
      rw [hcd] at hc
      exact absurd hc (by simp)
  · intro rv hrv m hm
    rw [List.mem_append] at hrv
    rcases hrv with hrv | hrv
    · exact h4 rv hrv m hm
    · rw [List.mem_singleton] at hrv
      subst hrv
      exact hb m hm
  · intro n hn
    rw [List.contains_cons, Bool.or_eq_true]
    exact Or.inr (h5 n hn)

theorem mpm_scan_skip (preCtx : List Instr) (postRaw : Func) (σ : Subs)
    (done : List Instr) (i : Instr) (rest : List Instr)
    (hno : ∀ r n, applyI σ i = Instr.binop r .sub (.reg n) (.const 1) →
      ∀ id b, findDef (preCtx ++ done ++ (applyI σ i :: rest.map (applyI σ))
          ++ (postRaw.flatten.map (applyI σ))) n =
          some (Instr.binop id .add b (.const 1)) → False) :
    MyPasses.MultiInstructionOptPass.scan preCtx postRaw σ done (i :: rest)
      = MyPasses.MultiInstructionOptPass.scan preCtx postRaw σ
          (done ++ [applyI σ i]) rest := by
  rw [MyPasses.MultiInstructionOptPass.scan]
  split
  next r n happ =>
    split
    next id b hfd => exact absurd hfd (fun h => hno r n happ id b h)
    next => rfl
  next => rfl

theorem mpmulti_scan_closure (preCtx : List Instr) (postRaw : Func) :
    ∀ (σ : Subs) (done todo : List Instr), ∀ (D D2 : List Nat),
    wfScan D todo = some D2 →
    InvM σ D (preCtx ++ done) →
    InvM (MyPasses.MultiInstructionOptPass.scan preCtx postRaw σ done
        todo).2.1 D2
      (preCtx ++ (MyPasses.MultiInstructionOptPass.scan preCtx postRaw σ done
        todo).1) := by
  intro σ done todo
  induction σ, done, todo
    using MyPasses.MultiInstructionOptPass.scan.induct preCtx postRaw with
  | case1 σ done =>
      intro D D2 hwf hM
      rw [wfScan, Option.some.injEq] at hwf
      subst hwf
      exact hM
  | case2 σ done i rest r n happ id b hfd ih =>
      intro D D2 hwf hM
      obtain ⟨hraw, hrest⟩ := wfScan_cons_eq hwf
      have hfd0 := hfd
      have hdi : i.defId = some r := by
        rw [← Instr.defId_applyI σ i, happ]
        rfl
      rw [hdi] at hrest
      obtain ⟨hcr, hwf2⟩ := hrest
      obtain ⟨hM1, hM2, hM3, hM4, hM5, hM6⟩ := hM
      have hjE : ∀ m ∈ (applyI σ i).useRegs, m ∈ defIdsL (preCtx ++ done) :=
        applyI_uses_closed hM1 hM3 hM4 hraw
      have hnA : n ∈ defIdsL (preCtx ++ done) := by
        refine hjE n ?_
        rw [happ]
        simp [Instr.useRegs, Instr.useVals, Value.regsOf]
      obtain ⟨d, hd⟩ := findDef_of_mem_defIds hnA
      have h2 := findDef_append_left hd
        ((applyI σ i :: rest.map (applyI σ))
          ++ (postRaw.flatten.map (applyI σ)))
      simp only [List.append_assoc, List.cons_append] at h2 hfd
      rw [h2, Option.some.injEq] at hfd
      obtain ⟨hdmem, _⟩ := findDef_mem hd
      rw [hfd] at hdmem
      have hb : ∀ m ∈ b.regsOf, m ∈ defIdsL (preCtx ++ done) := by
        intro m hm
        refine hM6 _ hdmem m ?_
        simp [Instr.useRegs, Instr.useVals, hm]
      have hM2' : InvM (σ ++ [(r, b)]) (r :: D) (preCtx ++ done) :=
        InvM_rewrite ⟨hM1, hM2, hM3, hM4, hM5, hM6⟩ hcr hb
      have hres := ih (r :: D) D2 hwf2 hM2'
      have hscan : MyPasses.MultiInstructionOptPass.scan preCtx postRaw σ
          done (i :: rest)
          = ((MyPasses.MultiInstructionOptPass.scan preCtx postRaw
                (σ ++ [(r, b)]) done rest).1,
             (MyPasses.MultiInstructionOptPass.scan preCtx postRaw
                (σ ++ [(r, b)]) done rest).2.1, true) := by
        rw [MyPasses.MultiInstructionOptPass.scan]
        split
        next r' n' happ' =>
          rw [happ] at happ'
          rw [Instr.binop.injEq] at happ'
          obtain ⟨hr', _, hn', _⟩ := happ'
          rw [Value.reg.injEq] at hn'
          subst hr'
          subst hn'
          split
          next id' b' hfd' =>
            rw [hfd0, Option.some.injEq, Instr.binop.injEq] at hfd'
            obtain ⟨_, _, hb', _⟩ := hfd'
            rw [← hb']
          next hno' => exact absurd hfd0 (fun h => hno' id b h)
        next hnot => exact absurd happ (fun h => hnot r n h)
      rw [hscan]
      exact hres
  | case3 σ done i rest r n happ hno ih =>
      intro D D2 hwf hM
      obtain ⟨hraw, hrest⟩ := wfScan_cons_eq hwf
      have hdi : i.defId = some r := by
        rw [← Instr.defId_applyI σ i, happ]
        rfl
      rw [hdi] at hrest
      obtain ⟨hcr, hwf2⟩ := hrest
      have hM2' : InvM σ (r :: D) ((preCtx ++ done) ++ [applyI σ i]) :=
        InvM_emit_some hM hraw hdi hcr
      rw [List.append_assoc] at hM2'
      have hres := ih (r :: D) D2 hwf2 hM2'
      have hskip := mpm_scan_skip preCtx postRaw σ done i rest
        (by
          intro r' n' happ' id' b' hfd'
          rw [happ] at happ'
          rw [Instr.binop.injEq] at happ'
          obtain ⟨_, _, hv, _⟩ := happ'
          rw [Value.reg.injEq] at hv
          exact hno id' b' (by rw [← hv] at hfd'; exact hfd'))
      rw [hskip]
      exact hres
  | case4 σ done i rest hnot ih =>
      intro D D2 hwf hM
      obtain ⟨hraw, hrest⟩ := wfScan_cons_eq hwf
      have hskip := mpm_scan_skip preCtx postRaw σ done i rest
        (by
          intro r' n' happ' id' b' hfd'
          exact hnot r' n' happ')
      rcases hd : i.defId with _ | dj
      · rw [hd] at hrest
        have hM2' : InvM σ D ((preCtx ++ done) ++ [applyI σ i]) :=
          InvM_emit_none hM hraw hd
        rw [List.append_assoc] at hM2'
        have hres := ih D D2 hrest hM2'
        rw [hskip]
        exact hres
      · rw [hd] at hrest
        obtain ⟨hcd, hwf2⟩ := hrest
        have hM2' : InvM σ (dj :: D) ((preCtx ++ done) ++ [applyI σ i]) :=
          InvM_emit_some hM hraw hd hcd
        rw [List.append_assoc] at hM2'
        have hres := ih (dj :: D) D2 hwf2 hM2'
        rw [hskip]
        exact hres

theorem mpmulti_blocks_closure (F : Func) : ∀ (preCtx : List Instr) (σ : Subs)
    (D D2 : List Nat),
    wfBlocks D F = some D2 →
    InvM σ D preCtx →
    InvM (MyPasses.MultiInstructionOptPass.scanBlocks preCtx σ F).2.1 D2
      (preCtx ++ ((MyPasses.MultiInstructionOptPass.scanBlocks preCtx σ
        F).1).flatten) := by
  induction F with
  | nil =>
      intro preCtx σ D D2 hwf hM
      rw [wfBlocks, Option.some.injEq] at hwf
      subst hwf
      have : (MyPasses.MultiInstructionOptPass.scanBlocks preCtx σ [])
          = ([], σ, false) := rfl
      rw [this]
      simpa using hM
  | cons B Bs ih =>
      intro preCtx σ D D2 hwf hM
      rw [wfBlocks] at hwf
      split at hwf
      next Dm hDm =>
        have hscan : MyPasses.MultiInstructionOptPass.scanBlocks preCtx σ
            (B :: Bs)
            = ((MyPasses.MultiInstructionOptPass.scan preCtx Bs σ [] B).1 ::
                (MyPasses.MultiInstructionOptPass.scanBlocks
                  (preCtx ++ (MyPasses.MultiInstructionOptPass.scan preCtx Bs
                    σ [] B).1)
                  (MyPasses.MultiInstructionOptPass.scan preCtx Bs σ []
                    B).2.1 Bs).1,
               (MyPasses.MultiInstructionOptPass.scanBlocks
                 (preCtx ++ (MyPasses.MultiInstructionOptPass.scan preCtx Bs
                   σ [] B).1)
                 (MyPasses.MultiInstructionOptPass.scan preCtx Bs σ []
                   B).2.1 Bs).2.1,
               (MyPasses.MultiInstructionOptPass.scan preCtx Bs σ [] B).2.2 ||
                 (MyPasses.MultiInstructionOptPass.scanBlocks
                   (preCtx ++ (MyPasses.MultiInstructionOptPass.scan preCtx
                     Bs σ [] B).1)
                   (MyPasses.MultiInstructionOptPass.scan preCtx Bs σ []
                     B).2.1 Bs).2.2) := by
          rw [MyPasses.MultiInstructionOptPass.scanBlocks]
        have hM0 : InvM σ D (preCtx ++ []) := by
          rw [List.append_nil]
          exact hM
        have hB := mpmulti_scan_closure preCtx Bs σ [] B D Dm hDm hM0
        have hBs := ih
          (preCtx ++ (MyPasses.MultiInstructionOptPass.scan preCtx Bs σ []
            B).1)
          (MyPasses.MultiInstructionOptPass.scan preCtx Bs σ [] B).2.1
          Dm D2 hwf hB
        rw [hscan]
        rw [List.flatten_cons, ← List.append_assoc]
        exact hBs
      next => simp at hwf

theorem mpmulti_run_noDangling (F : Func) (h : WF F = true) :
    ∀ m ∈ useRegsF (MyPasses.MultiInstructionOptPass.run F).1,
      m ∈ defIdsF (MyPasses.MultiInstructionOptPass.run F).1 := by
  unfold WF at h
  obtain ⟨D2, hD2⟩ := Option.isSome_iff_exists.mp h
  have hinit : InvM [] [] [] := by
    refine ⟨?_, ?_, ?_, ?_, ?_, ?_⟩ <;> simp [defIdsL]
  have hM := mpmulti_blocks_closure F [] [] [] D2 hD2 hinit
  rw [List.nil_append] at hM
  obtain ⟨_, _, _, _, _, hM6⟩ := hM
  intro m hm
  have hm2 : m ∈ useRegsF (MyPasses.MultiInstructionOptPass.scanBlocks
      [] [] F).1 := hm
  unfold useRegsF at hm2
  rw [List.mem_flatten] at hm2
  obtain ⟨l, hl, hml⟩ := hm2
  rw [List.mem_map] at hl
  obtain ⟨t, ht, rfl⟩ := hl
  exact hM6 t ht m hml

theorem wfScan_allUses (B : List Instr) : ∀ (D D2 : List Nat),
    wfScan D B = some D2 →
    ∀ t ∈ B, ∀ m ∈ t.useRegs, D2.contains m = true := by
  induction B with
  | nil =>
      intro D D2 h t ht
      simp at ht
  | cons i rest ih =>
      intro D D2 h t ht m hm
      obtain ⟨hraw, hrest⟩ := wfScan_cons_eq h
      rcases List.mem_cons.mp ht with rfl | ht2
      · rw [List.all_eq_true] at hraw
        have hmD : D.contains m = true := hraw m hm
        rcases hd : t.defId with _ | dj
        · rw [hd] at hrest
          exact wfScan_mono rest D D2 hrest m hmD
        · rw [hd] at hrest
          refine wfScan_mono rest (dj :: D) D2 hrest.2 m ?_
          rw [List.contains_cons, Bool.or_eq_true]
          exact Or.inr hmD
      · rcases hd : i.defId with _ | dj
        · rw [hd] at hrest
          exact ih D D2 hrest t ht2 m hm
        · rw [hd] at hrest
          exact ih (dj :: D) D2 hrest.2 t ht2 m hm

theorem wfScan_sub (B : List Instr) : ∀ (D D2 : List Nat),
    wfScan D B = some D2 →
    ∀ n, D2.contains n = true → D.contains n = true ∨ n ∈ defIdsL B := by
  induction B with
  | nil =>
      intro D D2 h n hn
      rw [wfScan, Option.some.injEq] at h
      subst h
      exact Or.inl hn
  | cons i rest ih =>
      intro D D2 h n hn
      obtain ⟨hraw, hrest⟩ := wfScan_cons_eq h
      rcases hd : i.defId with _ | dj
      · rw [hd] at hrest
        rcases ih D D2 hrest n hn with h1 | h1
        · exact Or.inl h1
        · right
          rw [defIdsL_cons_none hd]
          exact h1
      · rw [hd] at hrest
        rcases ih (dj :: D) D2 hrest.2 n hn with h1 | h1
        · rw [List.contains_cons, Bool.or_eq_true] at h1
          rcases h1 with h1 | h1
          · right
            rw [defIdsL_cons_some hd]
            exact List.mem_cons.mpr (Or.inl (beq_iff_eq.mp h1))
          · exact Or.inl h1
        · right
          rw [defIdsL_cons_some hd]
          exact List.mem_cons_of_mem _ h1

theorem wfBlocks_mono (F : Func) : ∀ (D D2 : List Nat),
    wfBlocks D F = some D2 →
    ∀ n, D.contains n = true → D2.contains n = true := by
  induction F with
  | nil =>
      intro D D2 h n hn
      rw [wfBlocks, Option.some.injEq] at h
      subst h
      exact hn
  | cons B Bs ih =>
      intro D D2 h n hn
      rw [wfBlocks] at h
      split at h
      next Dm hDm => exact ih Dm D2 h n (wfScan_mono B D Dm hDm n hn)
      next => simp at h

theorem wfBlocks_allUses (F : Func) : ∀ (D D2 : List Nat),
    wfBlocks D F = some D2 →
    ∀ t ∈ F.flatten, ∀ m ∈ t.useRegs, D2.contains m = true := by
  induction F with
  | nil =>
      intro D D2 h t ht
      simp at ht
  | cons B Bs ih =>
      intro D D2 h t ht m hm
      rw [wfBlocks] at h
      split at h
      next Dm hDm =>
        rw [List.flatten_cons, List.mem_append] at ht
        rcases ht with ht | ht
        · exact wfBlocks_mono Bs Dm D2 h m
            (wfScan_allUses B D Dm hDm t ht m hm)
        · exact ih Dm D2 h t ht m hm
      next => simp at h

theorem wfBlocks_sub (F : Func) : ∀ (D D2 : List Nat),
    wfBlocks D F = some D2 →
    ∀ n, D2.contains n = true → D.contains n = true ∨ n ∈ defIdsF F := by
  induction F with
  | nil =>
      intro D D2 h n hn
      rw [wfBlocks, Option.some.injEq] at h
      subst h
      exact Or.inl hn
  | cons B Bs ih =>
      intro D D2 h n hn
      rw [wfBlocks] at h
      split at h
      next Dm hDm =>
        rcases ih Dm D2 h n hn with h1 | h1
        · rcases wfScan_sub B D Dm hDm n h1 with h2 | h2
          · exact Or.inl h2
          · right
            rw [defIdsF_cons, List.mem_append]
            exact Or.inl h2
        · right
          rw [defIdsF_cons, List.mem_append]
          exact Or.inr h1
      next => simp at h

/-- A well-formed input function has no dangling register uses: every
register used anywhere is defined by some instruction of the function. -/
theorem WF_noDangling (F : Func) (h : WF F = true) :
    ∀ m ∈ useRegsF F, m ∈ defIdsF F := by
  unfold WF at h
  obtain ⟨D2, hD2⟩ := Option.isSome_iff_exists.mp h
  intro m hm
  unfold useRegsF at hm
  rw [List.mem_flatten] at hm
  obtain ⟨l, hl, hml⟩ := hm
  rw [List.mem_map] at hl
  obtain ⟨t, ht, rfl⟩ := hl
  have hc := wfBlocks_allUses F [] D2 hD2 t ht m hml
  rcases wfBlocks_sub F [] D2 hD2 m hc with h1 | h1
  · simp at h1
  · exact h1

theorem p0multi_scan_uses (B : List Instr) :
    ∀ t ∈ (Part000.MultiInstructionOptimizationPass.scan B).1,
      ∀ m ∈ t.useRegs, ∃ s ∈ B, m ∈ s.useRegs := by
  induction B using Part000.MultiInstructionOptimizationPass.scan.induct with
  | case1 aId x y sv sp lId lp sId s0 s1 more b hb hcond ih =>
      have hscan : Part000.MultiInstructionOptimizationPass.scan
          (Instr.binop aId .add x y :: Instr.store sv sp ::
            Instr.load lId lp :: Instr.binop sId .sub s0 s1 :: more)
          = (Instr.binop aId .add x y :: Instr.store sv sp ::
              Instr.load lId lp :: Instr.binop sId .sub b s1 ::
              (Part000.MultiInstructionOptimizationPass.scan more).1,
             true) := by
        simp only [Part000.MultiInstructionOptimizationPass.scan, hb,
          if_pos hcond]
      rw [hscan]
      intro t ht m hm
      rcases List.mem_cons.mp ht with rfl | ht
      · exact ⟨_, List.mem_cons_self _ _, hm⟩
      rcases List.mem_cons.mp ht with rfl | ht
      · exact ⟨_, List.mem_cons_of_mem _ (List.mem_cons_self _ _), hm⟩
      rcases List.mem_cons.mp ht with rfl | ht
      · exact ⟨_, List.mem_cons_of_mem _ (List.mem_cons_of_mem _
          (List.mem_cons_self _ _)), hm⟩
      rcases List.mem_cons.mp ht with rfl | ht
      · have hm2 : m ∈ b.regsOf ∨ m ∈ s1.regsOf := by
          simpa [Instr.useRegs, Instr.useVals] using hm
        rcases hm2 with hm2 | hm2
        · rcases addOneOperand_mem hb with rfl | rfl
          · exact ⟨Instr.binop aId .add b y, List.mem_cons_self _ _,
              by simp [Instr.useRegs, Instr.useVals, hm2]⟩
          · exact ⟨Instr.binop aId .add x b, List.mem_cons_self _ _,
              by simp [Instr.useRegs, Instr.useVals, hm2]⟩
        · refine ⟨Instr.binop sId .sub s0 s1, ?_, ?_⟩
          · exact List.mem_cons_of_mem _ (List.mem_cons_of_mem _
              (List.mem_cons_of_mem _ (List.mem_cons_self _ _)))
          · simp [Instr.useRegs, Instr.useVals, hm2]
      · obtain ⟨s, hs, hms⟩ := ih t ht m hm
        exact ⟨s, List.mem_cons_of_mem _ (List.mem_cons_of_mem _
          (List.mem_cons_of_mem _ (List.mem_cons_of_mem _ hs))), hms⟩
  | case2 aId x y sv sp lId lp sId s0 s1 more b hb hcond ih =>
      have hscan : Part000.MultiInstructionOptimizationPass.scan
          (Instr.binop aId .add x y :: Instr.store sv sp ::
            Instr.load lId lp :: Instr.binop sId .sub s0 s1 :: more)
          = (Instr.binop aId .add x y :: Instr.store sv sp ::
              Instr.load lId lp :: Instr.binop sId .sub s0 s1 ::
              (Part000.MultiInstructionOptimizationPass.scan more).1,
             (Part000.MultiInstructionOptimizationPass.scan more).2) := by
        simp only [Part000.MultiInstructionOptimizationPass.scan, hb,
          if_neg hcond]
      rw [hscan]
      intro t ht m hm
      rcases List.mem_cons.mp ht with rfl | ht
      · exact ⟨_, List.mem_cons_self _ _, hm⟩
      rcases List.mem_cons.mp ht with rfl | ht
      · exact ⟨_, List.mem_cons_of_mem _ (List.mem_cons_self _ _), hm⟩
      rcases List.mem_cons.mp ht with rfl | ht
      · exact ⟨_, List.mem_cons_of_mem _ (List.mem_cons_of_mem _
          (List.mem_cons_self _ _)), hm⟩
      rcases List.mem_cons.mp ht with rfl | ht
      · exact ⟨_, List.mem_cons_of_mem _ (List.mem_cons_of_mem _
          (List.mem_cons_of_mem _ (List.mem_cons_self _ _))), hm⟩
      · obtain ⟨s, hs, hms⟩ := ih t ht m hm
        exact ⟨s, List.mem_cons_of_mem _ (List.mem_cons_of_mem _
          (List.mem_cons_of_mem _ (List.mem_cons_of_mem _ hs))), hms⟩
  | case3 aId x y sv sp lId lp sId s0 s1 more hb ih =>
      have hscan : Part000.MultiInstructionOptimizationPass.scan
          (Instr.binop aId .add x y :: Instr.store sv sp ::
            Instr.load lId lp :: Instr.binop sId .sub s0 s1 :: more)
          = (Instr.binop aId .add x y :: Instr.store sv sp ::
              Instr.load lId lp :: Instr.binop sId .sub s0 s1 ::
              (Part000.MultiInstructionOptimizationPass.scan more).1,
             (Part000.MultiInstructionOptimizationPass.scan more).2) := by
        simp only [Part000.MultiInstructionOptimizationPass.scan, hb]
      rw [hscan]
      intro t ht m hm
      rcases List.mem_cons.mp ht with rfl | ht
      · exact ⟨_, List.mem_cons_self _ _, hm⟩
      rcases List.mem_cons.mp ht with rfl | ht
      · exact ⟨_, List.mem_cons_of_mem _ (List.mem_cons_self _ _), hm⟩
      rcases List.mem_cons.mp ht with rfl | ht
      · exact ⟨_, List.mem_cons_of_mem _ (List.mem_cons_of_mem _
          (List.mem_cons_self _ _)), hm⟩
      rcases List.mem_cons.mp ht with rfl | ht
      · exact ⟨_, List.mem_cons_of_mem _ (List.mem_cons_of_mem _
          (List.mem_cons_of_mem _ (List.mem_cons_self _ _))), hm⟩
      · obtain ⟨s, hs, hms⟩ := ih t ht m hm
        exact ⟨s, List.mem_cons_of_mem _ (List.mem_cons_of_mem _
          (List.mem_cons_of_mem _ (List.mem_cons_of_mem _ hs))), hms⟩
  | case4 i rest h ih =>
      rw [p0m_scan_catchall i rest h]
      intro t ht m hm
      rcases List.mem_cons.mp ht with rfl | ht
      · exact ⟨_, List.mem_cons_self _ _, hm⟩
      · obtain ⟨s, hs, hms⟩ := ih t ht m hm
        exact ⟨s, List.mem_cons_of_mem _ hs, hms⟩
  | case5 =>
      intro t ht
      simp [Part000.MultiInstructionOptimizationPass.scan] at ht

theorem p0multi_scan_defIds (B : List Instr) :
    defIdsL (Part000.MultiInstructionOptimizationPass.scan B).1
      = defIdsL B := by
  induction B using Part000.MultiInstructionOptimizationPass.scan.induct with
  | case1 aId x y sv sp lId lp sId s0 s1 more b hb hcond ih =>
      simp only [Part000.MultiInstructionOptimizationPass.scan, hb, hcond,
        defIdsL, Instr.defId, List.filterMap_cons]
      unfold defIdsL at ih
      simp [List.filterMap_cons, Instr.defId, ih]
  | case2 aId x y sv sp lId lp sId s0 s1 more b hb hcond ih =>
      simp only [Part000.MultiInstructionOptimizationPass.scan, hb, hcond,
        defIdsL, Instr.defId, List.filterMap_cons]
      unfold defIdsL at ih
      simp [List.filterMap_cons, Instr.defId, ih]
  | case3 aId x y sv sp lId lp sId s0 s1 more hb ih =>
      simp only [Part000.MultiInstructionOptimizationPass.scan, hb,
        defIdsL, Instr.defId, List.filterMap_cons]
      unfold defIdsL at ih
      simp [List.filterMap_cons, Instr.defId, ih]
  | case4 i rest h ih =>
      rw [p0m_scan_catchall i rest h]
      unfold defIdsL at ih ⊢
      rw [List.filterMap_cons, List.filterMap_cons]
      cases i.defId <;> simp [ih]
  | case5 => rfl

theorem p0multi_blocks_uses (F : Func) :
    ∀ t ∈ ((Part000.MultiInstructionOptimizationPass.scanBlocks F).1).flatten,
      ∀ m ∈ t.useRegs, ∃ s ∈ F.flatten, m ∈ s.useRegs := by
  induction F with
  | nil =>
      intro t ht
      simp [Part000.MultiInstructionOptimizationPass.scanBlocks] at ht
  | cons B Bs ih =>
      intro t ht m hm
      have hscan : Part000.MultiInstructionOptimizationPass.scanBlocks
          (B :: Bs)
          = ((Part000.MultiInstructionOptimizationPass.scan B).1 ::
              (Part000.MultiInstructionOptimizationPass.scanBlocks Bs).1,
             (Part000.MultiInstructionOptimizationPass.scan B).2 ||
              (Part000.MultiInstructionOptimizationPass.scanBlocks Bs).2) :=
        rfl
      rw [hscan, List.flatten_cons, List.mem_append] at ht
      rw [List.flatten_cons]
      rcases ht with ht | ht
      · obtain ⟨s, hs, hms⟩ := p0multi_scan_uses B t ht m hm
        exact ⟨s, List.mem_append.mpr (Or.inl hs), hms⟩
      · obtain ⟨s, hs, hms⟩ := ih t ht m hm
        exact ⟨s, List.mem_append.mpr (Or.inr hs), hms⟩

theorem p0multi_blocks_defIds (F : Func) :
    defIdsF (Part000.MultiInstructionOptimizationPass.scanBlocks F).1
      = defIdsF F := by
  induction F with
  | nil => rfl
  | cons B Bs ih =>
      have hscan : Part000.MultiInstructionOptimizationPass.scanBlocks
          (B :: Bs)
          = ((Part000.MultiInstructionOptimizationPass.scan B).1 ::
              (Part000.MultiInstructionOptimizationPass.scanBlocks Bs).1,
             (Part000.MultiInstructionOptimizationPass.scan B).2 ||
              (Part000.MultiInstructionOptimizationPass.scanBlocks Bs).2) :=
        rfl
      rw [hscan, defIdsF_cons, defIdsF_cons, p0multi_scan_defIds, ih]

theorem p0multi_run_noDangling (F : Func) (h : WF F = true) :
    ∀ m ∈ useRegsF (Part000.MultiInstructionOptimizationPass.run F).1,
      m ∈ defIdsF (Part000.MultiInstructionOptimizationPass.run F).1 := by
  intro m hm
  have hm2 : m ∈ useRegsF (Part000.MultiInstructionOptimizationPass.scanBlocks
      F).1 := hm
  unfold useRegsF at hm2
  rw [List.mem_flatten] at hm2
  obtain ⟨l, hl, hml⟩ := hm2
  rw [List.mem_map] at hl
  obtain ⟨t, ht, rfl⟩ := hl
  obtain ⟨s, hs, hms⟩ := p0multi_blocks_uses F t ht m hml
  have hmF : m ∈ useRegsF F := by
    unfold useRegsF
    rw [List.mem_flatten]
    exact ⟨s.useRegs, List.mem_map.mpr ⟨s, hs, rfl⟩, hms⟩
  have hdF := WF_noDangling F h m hmF
  have : m ∈ defIdsF (Part000.MultiInstructionOptimizationPass.scanBlocks
      F).1 := by
    rw [p0multi_blocks_defIds]
    exact hdF
  exact this

/-- A function-wide instruction list is combiner-clean when no
`Sub(%n, 1)` in it has `%n` defined by an `Add(b, 1)` of the list: the
matcher of `TestPass.cpp`'s multi-instruction pass can fire nowhere. -/
def SubClean (L : List Instr) : Prop :=
  ∀ r n, Instr.binop r .sub (.reg n) (.const 1) ∈ L →
    ∀ id b, ¬ (findDef L n = some (Instr.binop id .add b (.const 1)))

theorem mpm_scan_clean (preCtx : List Instr) (post : Func) (L : List Instr)
    (hL : SubClean L) :
    ∀ (todo done : List Instr),
    preCtx ++ (done ++ (todo ++ post.flatten)) = L →
    MyPasses.MultiInstructionOptPass.scan preCtx post [] done todo
      = (done ++ todo, [], false) := by
  intro todo
  induction todo with
  | nil =>
      intro done hctx
      rw [MyPasses.MultiInstructionOptPass.scan]
      simp
  | cons i rest ih =>
      intro hdone hctx
      have hiL : i ∈ L := by
        rw [← hctx]
        simp
      have hskip := mpm_scan_skip preCtx post [] hdone i rest
        (by
          intro r' n' happ' id' b' hfd'
          rw [applyI_nil] at happ'
          subst happ'
          simp only [applyI_nil, map_applyI_nil, List.append_assoc,
            List.cons_append] at hfd'
          have hctx2 := hctx
          simp only [List.append_assoc, List.cons_append] at hctx2
          rw [hctx2] at hfd'
          exact hL r' n' hiL id' b' hfd')
      rw [hskip, applyI_nil]
      have hctx3 : preCtx ++ ((hdone ++ [i]) ++ (rest ++ post.flatten))
          = L := by
        simpa [List.append_assoc, List.cons_append] using hctx
      rw [ih (hdone ++ [i]) hctx3]
      simp

theorem mpm_blocks_clean (L : List Instr) (hL : SubClean L) :
    ∀ (Bs : Func) (preCtx : List Instr),
    preCtx ++ Bs.flatten = L →
    MyPasses.MultiInstructionOptPass.scanBlocks preCtx [] Bs
      = (Bs, [], false) := by
  intro Bs
  induction Bs with
  | nil => intro preCtx h; rfl
  | cons B Bs2 ih =>
      intro preCtx hctx
      have hB : MyPasses.MultiInstructionOptPass.scan preCtx Bs2 [] [] B
          = (B, [], false) := by
        refine mpm_scan_clean preCtx Bs2 L hL B [] ?_
        simpa [List.flatten_cons, List.append_assoc] using hctx
      have hBs : MyPasses.MultiInstructionOptPass.scanBlocks (preCtx ++ B)
          [] Bs2 = (Bs2, [], false) := by
        refine ih (preCtx ++ B) ?_
        simpa [List.flatten_cons, List.append_assoc] using hctx
      rw [MyPasses.MultiInstructionOptPass.scanBlocks, hB]
      simp only []
      rw [hBs]
      simp

/-- When the combiner can fire nowhere, `TestPass.cpp`'s multi-instruction
pass is the identity and reports all analyses preserved. -/
theorem mpm_run_clean (G : Func) (h : SubClean G.flatten) :
    MyPasses.MultiInstructionOptPass.run G = (G, .all) := by
  unfold MyPasses.MultiInstructionOptPass.run
  rw [mpm_blocks_clean G.flatten h G [] rfl]
  simp

/-- Certification invariant for the already emitted prefix `A` of
`TestPass.cpp`'s multi-instruction scan: every emitted `Sub(%n, 1)` has its
operand's definition present in `A` and that definition is not an
`Add(b, 1)` (otherwise the scan would have fired and erased the `Sub`). -/
def CertA (A : List Instr) : Prop :=
  ∀ r n, Instr.binop r .sub (.reg n) (.const 1) ∈ A →
    ∃ d, findDef A n = some d ∧
      ∀ id b, d ≠ Instr.binop id .add b (.const 1)

theorem CertA_append {A : List Instr} {j : Instr} (hC : CertA A)
    (hj : ∀ r n, j = Instr.binop r .sub (.reg n) (.const 1) →
      ∃ d, findDef A n = some d ∧
        ∀ id b, d ≠ Instr.binop id .add b (.const 1)) :
    CertA (A ++ [j]) := by
  intro r n hmem
  rw [List.mem_append, List.mem_singleton] at hmem
  rcases hmem with hmem | heq
  · obtain ⟨d, hd, hne⟩ := hC r n hmem
    exact ⟨d, findDef_append_left hd [j], hne⟩
  · obtain ⟨d, hd, hne⟩ := hj r n heq.symm
    exact ⟨d, findDef_append_left hd [j], hne⟩

theorem mpmulti_scan_cert (preCtx : List Instr) (postRaw : Func) :
    ∀ (σ : Subs) (done todo : List Instr), ∀ (D D2 : List Nat),
    wfScan D todo = some D2 →
    InvM σ D (preCtx ++ done) →
    CertA (preCtx ++ done) →
    CertA (preCtx ++ (MyPasses.MultiInstructionOptPass.scan preCtx postRaw σ
      done todo).1) := by
  intro σ done todo
  induction σ, done, todo
    using MyPasses.MultiInstructionOptPass.scan.induct preCtx postRaw with
  | case1 σ done =>
      intro D D2 hwf hM hC
      exact hC
  | case2 σ done i rest r n happ id b hfd ih =>
      intro D D2 hwf hM hC
      obtain ⟨hraw, hrest⟩ := wfScan_cons_eq hwf
      have hfd0 := hfd
      have hdi : i.defId = some r := by
        rw [← Instr.defId_applyI σ i, happ]
        rfl
      rw [hdi] at hrest
      obtain ⟨hcr, hwf2⟩ := hrest
      obtain ⟨hM1, hM2, hM3, hM4, hM5, hM6⟩ := hM
      have hjE : ∀ m ∈ (applyI σ i).useRegs, m ∈ defIdsL (preCtx ++ done) :=
        applyI_uses_closed hM1 hM3 hM4 hraw
      have hnA : n ∈ defIdsL (preCtx ++ done) := by
        refine hjE n ?_
        rw [happ]
        simp [Instr.useRegs, Instr.useVals, Value.regsOf]
      obtain ⟨d, hd⟩ := findDef_of_mem_defIds hnA
      have h2 := findDef_append_left hd
        ((applyI σ i :: rest.map (applyI σ))
          ++ (postRaw.flatten.map (applyI σ)))
      simp only [List.append_assoc, List.cons_append] at h2 hfd
      rw [h2, Option.some.injEq] at hfd
      obtain ⟨hdmem, _⟩ := findDef_mem hd
      rw [hfd] at hdmem
      have hb : ∀ m ∈ b.regsOf, m ∈ defIdsL (preCtx ++ done) := by
        intro m hm
        refine hM6 _ hdmem m ?_
        simp [Instr.useRegs, Instr.useVals, hm]
      have hM2' : InvM (σ ++ [(r, b)]) (r :: D) (preCtx ++ done) :=
        InvM_rewrite ⟨hM1, hM2, hM3, hM4, hM5, hM6⟩ hcr hb
      have hres := ih (r :: D) D2 hwf2 hM2' hC
      have hscan : MyPasses.MultiInstructionOptPass.scan preCtx postRaw σ
          done (i :: rest)
          = ((MyPasses.MultiInstructionOptPass.scan preCtx postRaw
                (σ ++ [(r, b)]) done rest).1,
             (MyPasses.MultiInstructionOptPass.scan preCtx postRaw
                (σ ++ [(r, b)]) done rest).2.1, true) := by
        rw [MyPasses.MultiInstructionOptPass.scan]
        split
        next r' n' happ' =>
          rw [happ] at happ'
          rw [Instr.binop.injEq] at happ'
          obtain ⟨hr', _, hn', _⟩ := happ'
          rw [Value.reg.injEq] at hn'
          subst hr'
          subst hn'
          split
          next id' b' hfd' =>
            rw [hfd0, Option.some.injEq, Instr.binop.injEq] at hfd'
            obtain ⟨_, _, hb', _⟩ := hfd'
            rw [← hb']
          next hno' => exact absurd hfd0 (fun h => hno' id b h)
        next hnot => exact absurd happ (fun h => hnot r n h)
      rw [hscan]
      exact hres
  | case3 σ done i rest r n happ hno ih =>
      intro D D2 hwf hM hC
      obtain ⟨hraw, hrest⟩ := wfScan_cons_eq hwf
      have hdi : i.defId = some r := by
        rw [← Instr.defId_applyI σ i, happ]
        rfl
      rw [hdi] at hrest
      obtain ⟨hcr, hwf2⟩ := hrest
      obtain ⟨hM1, hM2, hM3, hM4, hM5, hM6⟩ := hM
      have hjE : ∀ m ∈ (applyI σ i).useRegs, m ∈ defIdsL (preCtx ++ done) :=
        applyI_uses_closed hM1 hM3 hM4 hraw
      have hnA : n ∈ defIdsL (preCtx ++ done) := by
        refine hjE n ?_
        rw [happ]
        simp [Instr.useRegs, Instr.useVals, Value.regsOf]
      have hM2' : InvM σ (r :: D) ((preCtx ++ done) ++ [applyI σ i]) :=
        InvM_emit_some ⟨hM1, hM2, hM3, hM4, hM5, hM6⟩ hraw hdi hcr
      have hC2 : CertA ((preCtx ++ done) ++ [applyI σ i]) := by
        refine CertA_append hC ?_
        intro r' n' happ'
        rw [happ] at happ'
        rw [Instr.binop.injEq] at happ'
        obtain ⟨_, _, hn', _⟩ := happ'
        rw [Value.reg.injEq] at hn'
        subst hn'
        obtain ⟨d, hd⟩ := findDef_of_mem_defIds hnA
        refine ⟨d, hd, ?_⟩
        intro id' b' hdadd
        have h2 := findDef_append_left hd
          ((applyI σ i :: rest.map (applyI σ))
            ++ (postRaw.flatten.map (applyI σ)))
        rw [hdadd] at h2
        refine hno id' b' ?_
        simp only [List.append_assoc, List.cons_append] at h2 ⊢
        exact h2
      rw [List.append_assoc] at hM2' hC2
      have hres := ih (r :: D) D2 hwf2 hM2' hC2
      have hskip := mpm_scan_skip preCtx postRaw σ done i rest
        (by
          intro r' n' happ' id' b' hfd'
          rw [happ] at happ'
          rw [Instr.binop.injEq] at happ'
          obtain ⟨_, _, hv, _⟩ := happ'
          rw [Value.reg.injEq] at hv
          exact hno id' b' (by rw [← hv] at hfd'; exact hfd'))
      rw [hskip]
      exact hres
  | case4 σ done i rest hnot ih =>
      intro D D2 hwf hM hC
      obtain ⟨hraw, hrest⟩ := wfScan_cons_eq hwf
      have hC2 : CertA ((preCtx ++ done) ++ [applyI σ i]) := by
        refine CertA_append hC ?_
        intro r' n' happ'
        exact absurd happ' (fun h => hnot r' n' (by rw [h]))
      rw [List.append_assoc] at hC2
      have hskip := mpm_scan_skip preCtx postRaw σ done i rest
        (by
          intro r' n' happ' id' b' hfd'
          exact hnot r' n' happ')
      rcases hd : i.defId with _ | dj
      · rw [hd] at hrest
        have hM2' : InvM σ D ((preCtx ++ done) ++ [applyI σ i]) :=
          InvM_emit_none hM hraw hd
        rw [List.append_assoc] at hM2'
        have hres := ih D D2 hrest hM2' hC2
        rw [hskip]
        exact hres
      · rw [hd] at hrest
        obtain ⟨hcd, hwf2⟩ := hrest
        have hM2' : InvM σ (dj :: D) ((preCtx ++ done) ++ [applyI σ i]) :=
          InvM_emit_some hM hraw hd hcd
        rw [List.append_assoc] at hM2'
        have hres := ih (dj :: D) D2 hwf2 hM2' hC2
        rw [hskip]
        exact hres

theorem mpmulti_blocks_cert (F : Func) : ∀ (preCtx : List Instr) (σ : Subs)
    (D D2 : List Nat),
    wfBlocks D F = some D2 →
    InvM σ D preCtx →
    CertA preCtx →
    CertA (preCtx ++ ((MyPasses.MultiInstructionOptPass.scanBlocks preCtx σ
      F).1).flatten) := by
  induction F with
  | nil =>
      intro preCtx σ D D2 hwf hM hC
      have : (MyPasses.MultiInstructionOptPass.scanBlocks preCtx σ [])
          = ([], σ, false) := rfl
      rw [this]
      simpa using hC
  | cons B Bs ih =>
      intro preCtx σ D D2 hwf hM hC
      rw [wfBlocks] at hwf
      split at hwf
      next Dm hDm =>
        have hscan : MyPasses.MultiInstructionOptPass.scanBlocks preCtx σ
            (B :: Bs)
            = ((MyPasses.MultiInstructionOptPass.scan preCtx Bs σ [] B).1 ::
                (MyPasses.MultiInstructionOptPass.scanBlocks
                  (preCtx ++ (MyPasses.MultiInstructionOptPass.scan preCtx Bs
                    σ [] B).1)
                  (MyPasses.MultiInstructionOptPass.scan preCtx Bs σ []
                    B).2.1 Bs).1,
               (MyPasses.MultiInstructionOptPass.scanBlocks
                 (preCtx ++ (MyPasses.MultiInstructionOptPass.scan preCtx Bs
                   σ [] B).1)
                 (MyPasses.MultiInstructionOptPass.scan preCtx Bs σ []
                   B).2.1 Bs).2.1,
               (MyPasses.MultiInstructionOptPass.scan preCtx Bs σ [] B).2.2 ||
                 (MyPasses.MultiInstructionOptPass.scanBlocks
                   (preCtx ++ (MyPasses.MultiInstructionOptPass.scan preCtx
                     Bs σ [] B).1)
                   (MyPasses.MultiInstructionOptPass.scan preCtx Bs σ []
                     B).2.1 Bs).2.2) := by
          rw [MyPasses.MultiInstructionOptPass.scanBlocks]
        have hM0 : InvM σ D (preCtx ++ []) := by
          rw [List.append_nil]
          exact hM
        have hC0 : CertA (preCtx ++ []) := by
          rw [List.append_nil]
          exact hC
        have hMB := mpmulti_scan_closure preCtx Bs σ [] B D Dm hDm hM0
        have hCB := mpmulti_scan_cert preCtx Bs σ [] B D Dm hDm hM0 hC0
        have hres := ih
          (preCtx ++ (MyPasses.MultiInstructionOptPass.scan preCtx Bs σ []
            B).1)
          (MyPasses.MultiInstructionOptPass.scan preCtx Bs σ [] B).2.1
          Dm D2 hwf hMB hCB
        rw [hscan]
        rw [List.flatten_cons, ← List.append_assoc]
        exact hres
      next => simp at hwf

theorem CertA_subClean {L : List Instr} (h : CertA L) : SubClean L := by
  intro r n hmem id b hfd
  obtain ⟨d, hd, hne⟩ := h r n hmem
  rw [hd, Option.some.injEq] at hfd
  exact hne id b hfd

/-- On a well-formed input, after one run of `TestPass.cpp`'s
multi-instruction pass no remaining `Sub(%n, 1)` has its operand defined by an
`Add(b, 1)`: the combiner can fire nowhere in the output. -/
theorem mpmulti_run_cert (F : Func) (h : WF F = true) :
    SubClean (((MyPasses.MultiInstructionOptPass.run F).1).flatten) := by
  unfold WF at h
  obtain ⟨D2, hD2⟩ := Option.isSome_iff_exists.mp h
  have hinit : InvM [] [] [] := by
    refine ⟨?_, ?_, ?_, ?_, ?_, ?_⟩ <;> simp [defIdsL]
  have hcinit : CertA [] := by
    intro r n hmem
    simp at hmem
  have hres := mpmulti_blocks_cert F [] [] [] D2 hD2 hinit hcinit
  rw [List.nil_append] at hres
  have hres2 : CertA (((MyPasses.MultiInstructionOptPass.run F).1).flatten) :=
    hres
  exact CertA_subClean hres2

/-- C7: in all six optimizers (both variants), every erasure is preceded — in
the same rewrite step — by redirecting all uses of the erased instruction's
value: consequently, on a well-formed input function (SSA def-before-use and
unique ids, `WF`), with the strength-reduction passes' fresh-id supply not
colliding with existing ids (`idsBelow`), the output of one run of each pass
has no dangling register use — every register used anywhere in the output is
defined by an instruction still present in the output. -/
theorem C7_no_erase_with_outstanding_uses (F : Func) (fresh : Nat)
    (hwf : WF F = true) (hfr : idsBelow fresh F = true) :
    (∀ m ∈ useRegsF (Part000.AlgebraicIdentityPass.run F).1,
       m ∈ defIdsF (Part000.AlgebraicIdentityPass.run F).1) ∧
    (∀ m ∈ useRegsF (MyPasses.AlgebraicIdentityPass.run F).1,
       m ∈ defIdsF (MyPasses.AlgebraicIdentityPass.run F).1) ∧
    (∀ m ∈ useRegsF (Part000.StrengthReductionPass.run fresh F).1,
       m ∈ defIdsF (Part000.StrengthReductionPass.run fresh F).1) ∧
    (∀ m ∈ useRegsF (MyPasses.StrengthReductionPass.run fresh F).1,
       m ∈ defIdsF (MyPasses.StrengthReductionPass.run fresh F).1) ∧
    (∀ m ∈ useRegsF (Part000.MultiInstructionOptimizationPass.run F).1,
       m ∈ defIdsF (Part000.MultiInstructionOptimizationPass.run F).1) ∧
    (∀ m ∈ useRegsF (MyPasses.MultiInstructionOptPass.run F).1,
       m ∈ defIdsF (MyPasses.MultiInstructionOptPass.run F).1) :=
  ⟨p0alg_run_noDangling F hwf, mpalg_run_noDangling F hwf,
   p0sr_run_noDangling fresh F hwf hfr,
   mpsr_run_noDangling fresh F hwf hfr,
   p0multi_run_noDangling F hwf, mpmulti_run_noDangling F hwf⟩

/-- A concrete well-formed function exercising all matchers: an `Add(x, 0)`,
a `Mul(x, 15)`, an `SDiv(x, 8)` and an `Add(b, 1)`/`Sub(a, 1)` pair. -/
def C7exF : Func :=
  [[.binop 1 .add (.arg 0) (.const 0),
    .binop 2 .mul (.reg 1) (.const 15),
    .binop 3 .sdiv (.reg 2) (.const 8),
    .binop 4 .add (.reg 3) (.const 1),
    .binop 5 .sub (.reg 4) (.const 1)]]

theorem C7_no_erase_with_outstanding_uses_witness :
    WF C7exF = true ∧ idsBelow 10 C7exF = true ∧
    ((∀ m ∈ useRegsF (Part000.AlgebraicIdentityPass.run C7exF).1,
        m ∈ defIdsF (Part000.AlgebraicIdentityPass.run C7exF).1) ∧
     (∀ m ∈ useRegsF (MyPasses.AlgebraicIdentityPass.run C7exF).1,
        m ∈ defIdsF (MyPasses.AlgebraicIdentityPass.run C7exF).1) ∧
     (∀ m ∈ useRegsF (Part000.StrengthReductionPass.run 10 C7exF).1,
        m ∈ defIdsF (Part000.StrengthReductionPass.run 10 C7exF).1) ∧
     (∀ m ∈ useRegsF (MyPasses.StrengthReductionPass.run 10 C7exF).1,
        m ∈ defIdsF (MyPasses.StrengthReductionPass.run 10 C7exF).1) ∧
     (∀ m ∈ useRegsF (Part000.MultiInstructionOptimizationPass.run C7exF).1,
        m ∈ defIdsF (Part000.MultiInstructionOptimizationPass.run C7exF).1) ∧
     (∀ m ∈ useRegsF (MyPasses.MultiInstructionOptPass.run C7exF).1,
        m ∈ defIdsF (MyPasses.MultiInstructionOptPass.run C7exF).1)) :=
  ⟨by decide, by decide,
   C7_no_erase_with_outstanding_uses C7exF 10 (by decide) (by decide)⟩

end ClaimC7

section ClaimC8Final

open IRModel

/-- C8 (amended): each pass is idempotent on the IR — running it a second
time on its own output performs no rewrite — and `TestPass.cpp`'s passes then
return the all-analyses-preserved result; but `src/unnamed/part_000`'s three
passes return `PreservedAnalyses::none()` unconditionally, so the second run
never reports `changed = false` as the claim requires, even though no rewrite
occurred (the instrumented `changed` flag is `false`).  The multi-instruction
idempotence holds on well-formed (`WF`) inputs; the algebraic and
strength-reduction idempotence is unconditional, with arbitrary fresh-id
supplies `f1`, `f2` for the two strength-reduction invocations. -/
theorem C8_amended_second_run_is_identity (F : Func) (f1 f2 : Nat)
    (hwf : WF F = true) :
    MyPasses.AlgebraicIdentityPass.run
        (MyPasses.AlgebraicIdentityPass.run F).1
      = ((MyPasses.AlgebraicIdentityPass.run F).1, .all) ∧
    MyPasses.StrengthReductionPass.run f2
        (MyPasses.StrengthReductionPass.run f1 F).1
      = ((MyPasses.StrengthReductionPass.run f1 F).1, .all) ∧
    MyPasses.MultiInstructionOptPass.run
        (MyPasses.MultiInstructionOptPass.run F).1
      = ((MyPasses.MultiInstructionOptPass.run F).1, .all) ∧
    Part000.AlgebraicIdentityPass.changed
        (Part000.AlgebraicIdentityPass.run F).1 = false ∧
    Part000.AlgebraicIdentityPass.run
        (Part000.AlgebraicIdentityPass.run F).1
      = ((Part000.AlgebraicIdentityPass.run F).1, .none) ∧
    Part000.StrengthReductionPass.changed f2
        (Part000.StrengthReductionPass.run f1 F).1 = false ∧
    Part000.StrengthReductionPass.run f2
        (Part000.StrengthReductionPass.run f1 F).1
      = ((Part000.StrengthReductionPass.run f1 F).1, .none) ∧
    Part000.MultiInstructionOptimizationPass.changed
        (Part000.MultiInstructionOptimizationPass.run F).1 = false ∧
    Part000.MultiInstructionOptimizationPass.run
        (Part000.MultiInstructionOptimizationPass.run F).1
      = ((Part000.MultiInstructionOptimizationPass.run F).1, .none) ∧
    Preserved.none ≠ Preserved.all := by
  have hexA : ∀ i ∈ ((MyPasses.AlgebraicIdentityPass.scanBlocks []
      F).1).flatten,
      MyPasses.AlgebraicIdentityPass.algMatch i = Option.none :=
    fun i hi => mpalg_blocks_exhaustive F [] i hi
  have hclA := mpalg_blocks_clean
    (MyPasses.AlgebraicIdentityPass.scanBlocks [] F).1 hexA
  have hexS : ∀ i ∈ ((MyPasses.StrengthReductionPass.scanBlocks f1 []
      F).1).flatten,
      MyPasses.StrengthReductionPass.srMatch i = Option.none :=
    fun i hi => mpsr_blocks_exhaustive F f1 [] i hi
  have hclS := mpsr_blocks_clean
    (MyPasses.StrengthReductionPass.scanBlocks f1 [] F).1 f2 hexS
  have hexPA : ∀ i ∈ ((Part000.AlgebraicIdentityPass.scanBlocks []
      F).1).flatten,
      Part000.AlgebraicIdentityPass.algMatch i = Option.none :=
    fun i hi => p0alg_blocks_exhaustive F [] i hi
  have hclPA := p0alg_blocks_clean
    (Part000.AlgebraicIdentityPass.scanBlocks [] F).1 hexPA
  have hexPS : ∀ i ∈ ((Part000.StrengthReductionPass.scanBlocks f1 []
      F).1).flatten,
      Part000.StrengthReductionPass.srMatch i = Option.none :=
    fun i hi => p0sr_blocks_exhaustive F f1 [] i hi
  have hclPS := p0sr_blocks_clean
    (Part000.StrengthReductionPass.scanBlocks f1 [] F).1 f2 hexPS
  have hidem := p0multi_blocks_idem F [] hwf
  refine ⟨?_, ?_, ?_, ?_, ?_, ?_, ?_, ?_, ?_, by decide⟩
  · show MyPasses.AlgebraicIdentityPass.run
        (MyPasses.AlgebraicIdentityPass.scanBlocks [] F).1
      = ((MyPasses.AlgebraicIdentityPass.scanBlocks [] F).1, .all)
    unfold MyPasses.AlgebraicIdentityPass.run
    rw [hclA]
    simp
  · show MyPasses.StrengthReductionPass.run f2
        (MyPasses.StrengthReductionPass.scanBlocks f1 [] F).1
      = ((MyPasses.StrengthReductionPass.scanBlocks f1 [] F).1, .all)
    unfold MyPasses.StrengthReductionPass.run
    rw [hclS]
    simp
  · exact mpm_run_clean _ (mpmulti_run_cert F hwf)
  · show Part000.AlgebraicIdentityPass.changed
        (Part000.AlgebraicIdentityPass.scanBlocks [] F).1 = false
    unfold Part000.AlgebraicIdentityPass.changed
    rw [hclPA]
  · show Part000.AlgebraicIdentityPass.run
        (Part000.AlgebraicIdentityPass.scanBlocks [] F).1
      = ((Part000.AlgebraicIdentityPass.scanBlocks [] F).1, .none)
    unfold Part000.AlgebraicIdentityPass.run
    rw [hclPA]
  · show Part000.StrengthReductionPass.changed f2
        (Part000.StrengthReductionPass.scanBlocks f1 [] F).1 = false
    unfold Part000.StrengthReductionPass.changed
    rw [hclPS]
  · show Part000.StrengthReductionPass.run f2
        (Part000.StrengthReductionPass.scanBlocks f1 [] F).1
      = ((Part000.StrengthReductionPass.scanBlocks f1 [] F).1, .none)
    unfold Part000.StrengthReductionPass.run
    rw [hclPS]
  · show Part000.MultiInstructionOptimizationPass.changed
        (Part000.MultiInstructionOptimizationPass.scanBlocks F).1 = false
    unfold Part000.MultiInstructionOptimizationPass.changed
    rw [hidem]
  · show Part000.MultiInstructionOptimizationPass.run
        (Part000.MultiInstructionOptimizationPass.scanBlocks F).1
      = ((Part000.MultiInstructionOptimizationPass.scanBlocks F).1, .none)
    unfold Part000.MultiInstructionOptimizationPass.run
    rw [hidem]

/-- A concrete well-formed function containing a full part_000 combiner
window and a `Mul(x, 15)`. -/
def C8exF : Func :=
  [[.binop 1 .add (.arg 0) (.const 1),
    .store (.reg 1) (.arg 9),
    .load 2 (.arg 9),
    .binop 3 .sub (.reg 2) (.const 1),
    .binop 4 .mul (.reg 3) (.const 15)]]

theorem C8_amended_second_run_is_identity_witness :
    WF C8exF = true ∧
    (MyPasses.AlgebraicIdentityPass.run
        (MyPasses.AlgebraicIdentityPass.run C8exF).1
      = ((MyPasses.AlgebraicIdentityPass.run C8exF).1, .all) ∧
     MyPasses.StrengthReductionPass.run 20
        (MyPasses.StrengthReductionPass.run 10 C8exF).1
      = ((MyPasses.StrengthReductionPass.run 10 C8exF).1, .all) ∧
     MyPasses.MultiInstructionOptPass.run
        (MyPasses.MultiInstructionOptPass.run C8exF).1
      = ((MyPasses.MultiInstructionOptPass.run C8exF).1, .all) ∧
     Part000.AlgebraicIdentityPass.changed
        (Part000.AlgebraicIdentityPass.run C8exF).1 = false ∧
     Part000.AlgebraicIdentityPass.run
        (Part000.AlgebraicIdentityPass.run C8exF).1
      = ((Part000.AlgebraicIdentityPass.run C8exF).1, .none) ∧
     Part000.StrengthReductionPass.changed 20
        (Part000.StrengthReductionPass.run 10 C8exF).1 = false ∧
     Part000.StrengthReductionPass.run 20
        (Part000.StrengthReductionPass.run 10 C8exF).1
      = ((Part000.StrengthReductionPass.run 10 C8exF).1, .none) ∧
     Part000.MultiInstructionOptimizationPass.changed
        (Part000.MultiInstructionOptimizationPass.run C8exF).1 = false ∧
     Part000.MultiInstructionOptimizationPass.run
        (Part000.MultiInstructionOptimizationPass.run C8exF).1
      = ((Part000.MultiInstructionOptimizationPass.run C8exF).1, .none) ∧
     Preserved.none ≠ Preserved.all) :=
  ⟨by decide, C8_amended_second_run_is_identity C8exF 10 20 (by decide)⟩

end ClaimC8Final
